import Mathlib

/-!
Verification of the idb file-format core (`idb/fileformat.py`).

The Python source is shallowly embedded: byte strings become `List Nat`,
Python `int` becomes `Int` where negative values are reachable, exceptions
become an explicit error type, and each method becomes a Lean function that
follows the source line by line.  Theorems at the end settle the claims
about the embedded code.
-/

set_option maxHeartbeats 1000000

/-- Python exception kinds raised by the embedded code. -/
inductive Err where
  | keyError
  | indexError
  | valueError
  | attributeError
  | structError
  | runtimeError
  | recursionError
  deriving DecidableEq

/-- A raw byte string (Python `bytes`): a list of byte values. -/
abbrev Bytes := List Nat

/-- A key/value pair of the b-tree index. -/
abbrev KV := Bytes × Bytes

/-- Python `bytes` strict lexicographic comparison `x < y` over raw bytes. -/
def bytesLt : Bytes → Bytes → Bool
  | [], [] => false
  | [], _ :: _ => true
  | _ :: _, [] => false
  | a :: x, b :: y => a < b || (a == b && bytesLt x y)

/-- Python `bytes` comparison `x <= y`. -/
def bytesLe (x y : Bytes) : Bool := bytesLt x y || x == y

/-- Python list indexing `xs[n]`: negative indices count from the end,
out-of-range indices raise `IndexError`. -/
def pyIndex {α : Type} (xs : List α) (n : Int) : Except Err α :=
  if 0 ≤ n then
    match xs.get? n.toNat with
    | some x => .ok x
    | none => .error .indexError
  else
    match xs.get? (n + xs.length).toNat with
    | some x => if 0 ≤ n + xs.length then .ok x else .error .indexError
    | none => .error .indexError

/-- Python `range(a, b)` as a list of integers. -/
def pyRange (a b : Int) : List Int := (List.range (b - a).toNat).map (fun k => a + k)

/-- The byte of `buf` at position `i` (callers guard the bounds). -/
def byteAt (buf : Bytes) (i : Nat) : Nat := (buf.get? i).getD 0

/-- `struct.unpack_from('<I', buf, offset)`: little-endian 32-bit read;
a negative offset counts from the end of the buffer; reads beyond the
buffer raise `struct.error`. -/
def readU32LE (buf : Bytes) (offset : Int) : Except Err Nat :=
  let o : Int := if offset < 0 then offset + buf.length else offset
  if 0 ≤ o ∧ o + 4 ≤ (buf.length : Int) then
    .ok (byteAt buf o.toNat + 0x100 * byteAt buf (o.toNat + 1) +
         0x10000 * byteAt buf (o.toNat + 2) + 0x1000000 * byteAt buf (o.toNat + 3))
  else .error .structError

namespace FLAGS

def MS_VAL : Nat := 0x000000FF
def FF_IVL : Nat := 0x00000100
def MS_CLS : Nat := 0x00000600
def FF_CODE : Nat := 0x00000600
def FF_DATA : Nat := 0x00000400
def FF_TAIL : Nat := 0x00000200
def FF_UNK : Nat := 0x00000000

end FLAGS

/-! ## ID1: the per-byte flags section -/

/-- `SegmentBounds`: the `[start, end)` range of one segment, parsed as
unsigned little-endian words. -/
structure SegmentBounds where
  start : Nat
  end_ : Nat
  deriving DecidableEq

/-- `ID1.SegmentDescriptor`: a segment together with its offset into the
flags buffer. -/
structure SegmentDescriptor where
  bounds : SegmentBounds
  offset : Int
  deriving DecidableEq

/-- `ID1.pcb_segment_count`: builds the segment descriptor list.  The
source adds `4 * (end - start)` to the running offset *before* appending
the descriptor, so each descriptor carries the cumulative sum including
its own segment. -/
def pcb_segment_count (offset : Int) : List SegmentBounds → List SegmentDescriptor
  | [] => []
  | b :: rest =>
    let offset' := offset + 4 * ((b.end_ : Int) - (b.start : Int))
    ⟨b, offset'⟩ :: pcb_segment_count offset' rest

/-- The parsed ID1 section: header words, derived segment descriptors and
the raw flags buffer. -/
structure ID1 where
  signature : Bytes
  unk04 : Nat
  unk0C : Nat
  segments : List SegmentDescriptor
  buffer : Bytes

/-- Linear scan of the segment table for the first segment containing `ea`
(the loop body of `ID1.get_segment`). -/
def segScan (ea : Int) : List SegmentDescriptor → Except Err SegmentDescriptor
  | [] => .error .keyError
  | s :: rest =>
    if (s.bounds.start : Int) ≤ ea ∧ ea < (s.bounds.end_ : Int) then .ok s
    else segScan ea rest

/-- `ID1.get_segment`. -/
def ID1.get_segment (v : ID1) (ea : Int) : Except Err SegmentDescriptor :=
  segScan ea v.segments

/-- The loop body of `ID1.get_next_segment`, tracking the enumeration
index `i`.  The source guard `i == len(self.segments)` is kept verbatim
(it is unreachable); `self.segments[i + 1]` is Python list indexing. -/
def gnsScan (ea : Int) (segs : List SegmentDescriptor) :
    Nat → List SegmentDescriptor → Except Err SegmentDescriptor
  | _, [] => .error .keyError
  | i, s :: rest =>
    if (s.bounds.start : Int) ≤ ea ∧ ea < (s.bounds.end_ : Int) then
      if i == segs.length then .error .indexError
      else pyIndex segs ((i : Int) + 1)
    else gnsScan ea segs (i + 1) rest

/-- `ID1.get_next_segment`. -/
def ID1.get_next_segment (v : ID1) (ea : Int) : Except Err SegmentDescriptor :=
  gnsScan ea v.segments 0 v.segments

/-- `ID1.get_flags`: locate the segment, compute
`seg.offset + 4 * (ea - seg.bounds.start)` and read a little-endian
32-bit word from the flags buffer. -/
def ID1.get_flags (v : ID1) (ea : Int) : Except Err Nat := do
  let seg ← v.get_segment ea
  readU32LE v.buffer (seg.offset + 4 * (ea - (seg.bounds.start : Int)))

/-- `ID1.validate`. -/
def ID1.validate (v : ID1) : Except Err Bool :=
  if v.signature ≠ [0x56, 0x41, 0x2A, 0x00] then .error .valueError
  else if v.unk04 ≠ 0x3 then .error .valueError
  else if v.unk0C ≠ 0x800 then .error .valueError
  else if v.segments.any (fun s => s.bounds.end_ < s.bounds.start) then .error .valueError
  else .ok true

/-- The largest segment end address (0 for an empty table); used only to
justify termination of the upward flag walks. -/
def ID1.maxEnd (v : ID1) : Int :=
  v.segments.foldr (fun sd m => max (sd.bounds.end_ : Int) m) 0

/-! ## ID0: the b-tree index -/

/-- A decoded b-tree entry.  Branch entries carry a child page number in
`page`; for leaf entries the field is unused (the source's `LeafEntry` has
no such attribute, and no code path reads it on a leaf). -/
structure Entry where
  key : Bytes
  value : Bytes
  page : Nat
  deriving DecidableEq

/-- A decoded b-tree page: the parent pointer and the ordered, fully
reconstructed entry list (the source decodes entries lazily from the page
bytes; the embedding works on the decoded list). -/
structure Page where
  ppointer : Nat
  entries : List Entry
  deriving DecidableEq

/-- `Page.is_leaf`. -/
def Page.is_leaf (p : Page) : Bool := p.ppointer == 0

/-- `len(self._entries)` = `self.entry_count` for a decoded page. -/
def Page.entry_count (p : Page) : Nat := p.entries.length

/-- `Page.get_entries` (the decoded entry list, in order). -/
def Page.get_entries (p : Page) : List Entry := p.entries

/-- `Page.get_entry`: only `entry_number >= len(self._entries)` is guarded
(raising `KeyError`); anything below that bound is Python list indexing,
so negative indices within range read from the end and indices below
`-len` raise `IndexError`. -/
def Page.get_entry (p : Page) (entry_number : Int) : Except Err Entry :=
  if (p.entries.length : Int) ≤ entry_number then .error .keyError
  else pyIndex p.entries entry_number

/-- The loop of `Page.validate`.  The first parameter is the `last`
variable, which starts as `None`; the source's `None` branch does `continue`
without assigning `last`, so `last` never becomes an entry. -/
def validateScan : Option Entry → List Entry → Except Err Bool
  | none, _ :: rest => validateScan none rest
  | some l, e :: rest =>
    if bytesLt l.key e.key then validateScan (some e) rest
    else .error .valueError
  | _, [] => .ok true

/-- `Page.validate`. -/
def Page.validate (p : Page) : Except Err Bool :=
  validateScan none p.get_entries

/-- The parsed ID0 section: header fields plus the page store.  The source
slices pages out of the raw payload on demand; the embedding abstracts the
payload as a partial map from page numbers to decoded pages (`none` models
a slice that fails to parse). -/
structure ID0 where
  signature : Bytes
  root_page : Nat
  record_count : Nat
  pages : Nat → Option Page

/-- `ID0.get_page`. -/
def ID0.get_page (idx : ID0) (page_number : Nat) : Except Err Page :=
  match idx.pages page_number with
  | some p => .ok p
  | none => .error .structError

/-- `ID0.validate`. -/
def ID0.validate (idx : ID0) : Except Err Bool :=
  if idx.signature ≠ [0x42, 0x2D, 0x74, 0x72, 0x65, 0x65, 0x20, 0x76, 0x32]
  then .error .valueError
  else .ok true

/-- A cursor: the descent path (page values, root first), the current
entry and its index in the last page of the path. -/
structure Cursor where
  path : List Page
  entry : Entry
  entry_number : Int
  deriving DecidableEq

/-- The leaf-page loop of `Cursor.find_index`: return the index of an
exact key match, else `KeyError`. -/
def idxScanLeaf (key : Bytes) : Nat → List Entry → Except Err Nat
  | _, [] => .error .keyError
  | i, e :: rest => if key == e.key then .ok i else idxScanLeaf key (i + 1) rest

/-- The branch-page loop of `Cursor.find_index`: return the index of an
exact match or of the least entry whose key is greater, else `KeyError`. -/
def idxScanBranch (key : Bytes) : Nat → List Entry → Except Err Nat
  | _, [] => .error .keyError
  | i, e :: rest =>
    if key == e.key then .ok i
    else if bytesLt key e.key then .ok i
    else idxScanBranch key (i + 1) rest

/-- `Cursor.find_index` (it only reads `page`, not the cursor). -/
def find_index (page : Page) (key : Bytes) : Except Err Nat :=
  if page.is_leaf then idxScanLeaf key 0 page.get_entries
  else idxScanBranch key 0 page.get_entries

/-- `ExactMatchStrategy._find`, with explicit recursion fuel standing in
for the Python call stack (exhaustion maps to `RecursionError`).  The
pair `r` is `(entry_number, is_largest)`. -/
def exactFindGo (idx : ID0) (key : Bytes) : Nat → List Page → Nat → Except Err Cursor
  | 0, _, _ => .error .recursionError
  | fuel + 1, path, page_number => do
    let page ← idx.get_page page_number
    let path := path ++ [page]
    let r : Int × Bool :=
      match find_index page key with
      | .ok n => ((n : Int), false)
      | .error _ => ((page.entry_count : Int) - 1, true)
    let entry ← page.get_entry r.1
    if entry.key == key then
      .ok ⟨path, entry, r.1⟩
    else if page.is_leaf then
      .error .keyError
    else do
      let next_page_number ←
        if r.1 == 0 then pure page.ppointer
        else if r.2 then do
          let e ← page.get_entry ((page.entry_count : Int) - 1)
          pure e.page
        else do
          let e ← page.get_entry (r.1 - 1)
          pure e.page
      exactFindGo idx key fuel path next_page_number

/-- The leaf-page loop of `PrefixMatchStrategy._find`. -/
def prefixLeafScan (path : List Page) (key : Bytes) : Nat → List Entry → Except Err Cursor
  | _, [] => .error .keyError
  | i, e :: rest =>
    if key.isPrefixOf e.key then .ok ⟨path, e, (i : Int)⟩
    else if bytesLt key e.key then .error .keyError
    else prefixLeafScan path key (i + 1) rest

/-- The branch-page loop of `PrefixMatchStrategy._find`, tracking
`next_page`; `.inl` returns a cursor, `.inr` is the page to descend into
(the `break` case and the after-loop case both descend into the tracked
`next_page`). -/
def prefixBranchScan (path : List Page) (key : Bytes) :
    Nat → Nat → List Entry → Sum Cursor Nat
  | _, next_page, [] => .inr next_page
  | i, next_page, e :: rest =>
    if e.key == key then .inl ⟨path, e, (i : Int)⟩
    else if key.isPrefixOf e.key then .inr next_page
    else if bytesLt key e.key then .inr next_page
    else prefixBranchScan path key (i + 1) e.page rest

/-- `PrefixMatchStrategy._find`, with recursion fuel. -/
def prefixFindGo (idx : ID0) (key : Bytes) : Nat → List Page → Nat → Except Err Cursor
  | 0, _, _ => .error .recursionError
  | fuel + 1, path, page_number => do
    let page ← idx.get_page page_number
    let path := path ++ [page]
    if page.is_leaf then prefixLeafScan path key 0 page.get_entries
    else
      match prefixBranchScan path key 0 page.ppointer page.get_entries with
      | .inl c => .ok c
      | .inr next_page => prefixFindGo idx key fuel path next_page

/-- `ID0.find` with the default `EXACT_MATCH` strategy: a fresh cursor
(empty path) searched from the root page. -/
def ID0.find (idx : ID0) (fuel : Nat) (key : Bytes) : Except Err Cursor :=
  exactFindGo idx key fuel [] idx.root_page

/-- `ID0.find_prefix`: `find` with the `PREFIX_MATCH` strategy. -/
def ID0.find_prefix (idx : ID0) (fuel : Nat) (key : Bytes) : Except Err Cursor :=
  prefixFindGo idx key fuel [] idx.root_page

/-- The ascent loop of `Cursor.next`, on the *reversed* path: pop pages
while `find_index` fails; `IndexError` when only one page would remain.
Returns the shortened path (in order), its last page and the found
entry index. -/
def popUntilRev (key : Bytes) : List Page → Except Err (List Page × Page × Nat)
  | [] => .error .indexError
  | [_] => .error .indexError
  | _ :: current :: rest =>
    match find_index current key with
    | .ok n => .ok ((current :: rest).reverse, current, n)
    | .error _ => popUntilRev key (current :: rest)

/-- The descent loop of the branch case of `Cursor.next`: follow
`ppointer` edges down to a leaf, appending every visited page to the
path. -/
def descendMin (idx : ID0) : Nat → List Page → Page → Except Err (List Page × Page)
  | 0, _, _ => .error .recursionError
  | fuel + 1, path, p =>
    if p.is_leaf then .ok (path ++ [p], p)
    else do
      let p' ← idx.get_page p.ppointer
      descendMin idx fuel (path ++ [p]) p'

/-- `Cursor.next`. -/
def Cursor.next (idx : ID0) (fuel : Nat) (c : Cursor) : Except Err Cursor := do
  let current_page ← pyIndex c.path (-1)
  if current_page.is_leaf then
    if c.entry_number == (current_page.entry_count : Int) - 1 then do
      let (path', current', n) ← popUntilRev c.entry.key c.path.reverse
      let entry ← current'.get_entry (n : Int)
      .ok ⟨path', entry, (n : Int)⟩
    else do
      let next_entry ← current_page.get_entry (c.entry_number + 1)
      .ok ⟨c.path, next_entry, c.entry_number + 1⟩
  else do
    let first ← idx.get_page c.entry.page
    let (path', leafPage) ← descendMin idx fuel c.path first
    let e0 ← leafPage.get_entry 0
    .ok ⟨path', e0, 0⟩

/-- `n` successive `Cursor.next` calls. -/
def nextRun (idx : ID0) (fuel : Nat) : Nat → Cursor → Except Err Cursor
  | 0, c => .ok c
  | n + 1, c => do nextRun idx fuel n (← Cursor.next idx fuel c)

/-! ## NAM, TIL, the file header and the IDB container -/

/-- The parsed NAM section header fields used by `validate`. -/
structure NAM where
  signature : Bytes
  unk04 : Nat
  non_empty : Nat
  unk0C : Nat
  unk14 : Nat

/-- `NAM.validate`. -/
def NAM.validate (v : NAM) : Except Err Bool :=
  if v.signature ≠ [0x56, 0x41, 0x2A, 0x00] then .error .valueError
  else if v.unk04 ≠ 0x3 then .error .valueError
  else if v.non_empty ≠ 0x0 ∧ v.non_empty ≠ 0x1 then .error .valueError
  else if v.unk0C ≠ 0x800 then .error .valueError
  else if v.unk14 ≠ 0x0 then .error .valueError
  else .ok true

/-- The TIL section (signature only). -/
structure TIL where
  signature : Bytes

/-- `TIL.validate`. -/
def TIL.validate (v : TIL) : Except Err Bool :=
  if v.signature ≠ [0x49, 0x44, 0x41, 0x54, 0x49, 0x4C] then .error .valueError
  else .ok true

/-- The outer file header fields read by `FileHeader.validate`. -/
structure FileHeader where
  signature : Bytes
  sig2 : Nat
  version : Nat

/-- `FileHeader.validate`. -/
def FileHeader.validate (h : FileHeader) : Except Err Bool :=
  if h.signature ≠ [0x49, 0x44, 0x41, 0x31] then .error .valueError
  else if h.sig2 ≠ 0xAABBCCDD then .error .valueError
  else if h.version ≠ 0x6 then .error .valueError
  else .ok true

/-- The parsed container.  `pcb_header` leaves a section attribute as
`None` when its offset in the file header is zero, so each typed section
is optional. -/
structure IDB where
  header : FileHeader
  id0 : Option ID0
  id1 : Option ID1
  nam : Option NAM
  til : Option TIL

/-- Reading `self.<section>` when the section was never parsed yields
`None`; calling a method on it raises `AttributeError`. -/
def getAttr {α : Type} : Option α → Except Err α
  | none => .error .attributeError
  | some v => .ok v

/-- `IDB.validate`: validates the header and then unconditionally calls
`validate` on `id0`, `id1`, `nam` and `til`. -/
def IDB.validate (db : IDB) : Except Err Bool := do
  let _ ← db.header.validate
  let _ ← (← getAttr db.id0).validate
  let _ ← (← getAttr db.id1).validate
  let _ ← (← getAttr db.nam).validate
  let _ ← (← getAttr db.til).validate
  .ok true

/-- `IDB.SegStart`. -/
def IDB.SegStart (db : IDB) (ea : Int) : Except Err Int := do
  let v ← getAttr db.id1
  let s ← v.get_segment ea
  .ok (s.bounds.start : Int)

/-- `IDB.GetFlags`. -/
def IDB.GetFlags (db : IDB) (ea : Int) : Except Err Nat := do
  let v ← getAttr db.id1
  v.get_flags ea

/-- `IDB.hasValue`. -/
def IDB.hasValue (flags : Nat) : Bool := flags &&& FLAGS.FF_IVL > 0

/-- `IDB.isCode`. -/
def IDB.isCode (flags : Nat) : Bool := flags &&& FLAGS.MS_CLS == FLAGS.FF_CODE

/-- `IDB.isData`. -/
def IDB.isData (flags : Nat) : Bool := flags &&& FLAGS.MS_CLS == FLAGS.FF_DATA

/-- `IDB.isHead`. -/
def IDB.isHead (flags : Nat) : Bool := IDB.isCode flags || IDB.isData flags

/-- `IDB.IdbByte`. -/
def IDB.IdbByte (db : IDB) (ea : Int) : Except Err Nat := do
  let flags ← db.GetFlags ea
  if IDB.hasValue flags then .ok (flags &&& FLAGS.MS_VAL)
  else .error .keyError

/-- `IDB.GetManyBytes` (with `use_dbg=False`): compare the segment starts
of `ea` and `ea + size`, then collect `IdbByte` over `range(ea, ea + size)`. -/
def IDB.GetManyBytes (db : IDB) (ea size : Int) : Except Err (List Nat) := do
  let s1 ← db.SegStart ea
  let s2 ← db.SegStart (ea + size)
  if s1 ≠ s2 then .error .indexError
  else (pyRange ea (ea + size)).mapM (fun i => db.IdbByte i)

/-- The largest segment end of the container's id1 (0 when id1 is absent);
used only for termination of the flag walks. -/
def IDB.maxEnd (db : IDB) : Int :=
  match db.id1 with
  | none => 0
  | some v => v.maxEnd

/-- A successful segment scan returns a member of the table that contains
the address. -/
theorem segScan_ok {ea : Int} {l : List SegmentDescriptor} {s : SegmentDescriptor}
    (h : segScan ea l = .ok s) :
    s ∈ l ∧ (s.bounds.start : Int) ≤ ea ∧ ea < (s.bounds.end_ : Int) := by
  induction l with
  | nil => simp [segScan] at h
  | cons a rest ih =>
    rw [segScan] at h
    split at h
    · simp only [Except.ok.injEq] at h
      subst h
      exact ⟨List.mem_cons_self _ _, by assumption⟩
    · rcases ih h with ⟨hm, hb⟩
      exact ⟨List.mem_cons_of_mem _ hm, hb⟩

/-- Every segment's end is bounded by the folded maximum. -/
theorem end_le_foldr_max {s : SegmentDescriptor} :
    ∀ {l : List SegmentDescriptor}, s ∈ l →
      (s.bounds.end_ : Int) ≤ l.foldr (fun sd m => max (sd.bounds.end_ : Int) m) 0 := by
  intro l
  induction l with
  | nil => intro h; cases h
  | cons a rest ih =>
    intro h
    rcases List.mem_cons.mp h with rfl | hm
    · exact le_max_left _ _
    · exact le_trans (ih hm) (le_max_right _ _)

/-- `Except` bind on a success reduces to the continuation. -/
theorem except_bind_ok {α β : Type} (a : α) (f : α → Except Err β) :
    (Except.ok a >>= f) = f a := rfl

/-- `Except` bind on an error short-circuits. -/
theorem except_bind_error {α β : Type} (e : Err) (f : α → Except Err β) :
    ((Except.error e : Except Err α) >>= f) = Except.error e := rfl

/-- `pure` into `Except`. -/
theorem except_pure {α : Type} (a : α) : (pure a : Except Err α) = Except.ok a := rfl

/-- A successful `GetFlags` pins `ea` inside some segment, hence inside
`[0, maxEnd)`; this justifies termination of the head walks. -/
theorem GetFlags_ok_bounds {db : IDB} {ea : Int} {f : Nat}
    (h : db.GetFlags ea = .ok f) : 0 ≤ ea ∧ ea < db.maxEnd := by
  unfold IDB.GetFlags at h
  cases hid : db.id1 with
  | none => rw [hid] at h; simp [getAttr, except_bind_error] at h
  | some v =>
    rw [hid] at h
    simp only [getAttr, except_bind_ok] at h
    unfold ID1.get_flags at h
    cases hseg : v.get_segment ea with
    | error e => rw [hseg] at h; simp [except_bind_error] at h
    | ok s =>
      rw [hseg, except_bind_ok] at h
      rcases segScan_ok hseg with ⟨hm, h1, h2⟩
      refine ⟨le_trans (by positivity) h1, ?_⟩
      have := @end_le_foldr_max s _ hm
      have hx : db.maxEnd = v.maxEnd := by unfold IDB.maxEnd; rw [hid]
      rw [hx]
      unfold ID1.maxEnd
      omega

/-- The loop of `IDB.Head`: walk `ea` downward until `isHead` holds;
errors from `GetFlags` propagate. -/
def headGo (db : IDB) (ea : Int) : Except Err Int :=
  match h : db.GetFlags ea with
  | .error e => .error e
  | .ok flags => if IDB.isHead flags then .ok ea else headGo db (ea - 1)
termination_by (ea + 1).toNat
decreasing_by
  have := GetFlags_ok_bounds h
  omega

/-- The loop of `IDB.NextHead`: walk `ea` upward until `isHead` holds. -/
def nextHeadGo (db : IDB) (ea : Int) : Except Err Int :=
  match h : db.GetFlags ea with
  | .error e => .error e
  | .ok flags => if IDB.isHead flags then .ok ea else nextHeadGo db (ea + 1)
termination_by (db.maxEnd - ea).toNat
decreasing_by
  have := GetFlags_ok_bounds h
  omega

/-- `IDB.Head`. -/
def IDB.Head (db : IDB) (ea : Int) : Except Err Int := headGo db ea

/-- `IDB.NextHead`: start at `ea + 1` and walk upward. -/
def IDB.NextHead (db : IDB) (ea : Int) : Except Err Int := nextHeadGo db (ea + 1)

/-! ## Concrete example inputs for witnesses and counterexamples -/

/-- A 32-bit little-endian word as four bytes. -/
def w32le (n : Nat) : Bytes := [n % 0x100, n / 0x100 % 0x100, n / 0x10000 % 0x100, n / 0x1000000 % 0x100]

/-- A valid outer file header. -/
def exHeader : FileHeader := ⟨[0x49, 0x44, 0x41, 0x31], 0xAABBCCDD, 6⟩

/-- The spec's scenario-E id1: segments `[0x1000, 0x1004)` and
`[0x2000, 0x2008)` with twelve flag words `1..12` (A..L). -/
def exID1C1 : ID1 :=
  { signature := [0x56, 0x41, 0x2A, 0x00], unk04 := 3, unk0C := 0x800,
    segments := pcb_segment_count 0 [⟨0x1000, 0x1004⟩, ⟨0x2000, 0x2008⟩],
    buffer := ((List.range 12).map (fun k => w32le (k + 1))).flatten }

/-- An id1 with the single segment `[0x1000, 0x1004)` and eight flag words
`0x100 + k`, so every addressable word has `FF_IVL` set. -/
def exID1C4 : ID1 :=
  { signature := [0x56, 0x41, 0x2A, 0x00], unk04 := 3, unk0C := 0x800,
    segments := pcb_segment_count 0 [⟨0x1000, 0x1004⟩],
    buffer := ((List.range 8).map (fun k => w32le (0x100 + k))).flatten }

/-- A container around `exID1C4`. -/
def exDbC4 : IDB := ⟨exHeader, none, some exID1C4, none, none⟩

/-- An id1 with one segment `[0, 2)` whose flag words make address 1 a
head (`FF_DATA`) and address 0 a non-head. -/
def exID1C9 : ID1 :=
  { signature := [0x56, 0x41, 0x2A, 0x00], unk04 := 3, unk0C := 0x800,
    segments := pcb_segment_count 0 [⟨0, 2⟩],
    buffer := w32le 0 ++ w32le 0 ++ w32le 0 ++ w32le 0x400 }

/-- A container around `exID1C9`. -/
def exDbC9 : IDB := ⟨exHeader, none, some exID1C9, none, none⟩

/-- A two-segment table for the `get_next_segment` witness. -/
def exID1C8 : ID1 :=
  { signature := [0x56, 0x41, 0x2A, 0x00], unk04 := 3, unk0C := 0x800,
    segments := [⟨⟨0, 4⟩, 16⟩, ⟨⟨16, 24⟩, 48⟩], buffer := [] }

/-- A container whose til section is absent while the header and the
present sections are all valid. -/
def exDbC7 : IDB :=
  ⟨exHeader,
   some ⟨[0x42, 0x2D, 0x74, 0x72, 0x65, 0x65, 0x20, 0x76, 0x32], 1, 0, fun _ => none⟩,
   some ⟨[0x56, 0x41, 0x2A, 0x00], 3, 0x800, [], []⟩,
   some ⟨[0x56, 0x41, 0x2A, 0x00], 3, 0, 0x800, 0⟩,
   none⟩

/-- A leaf page whose two reconstructed keys are *not* ascending. -/
def pageC3 : Page := ⟨0, [⟨[2], [], 0⟩, ⟨[1], [], 0⟩]⟩

/-- A one-entry leaf page. -/
def pageC10a : Page := ⟨0, [⟨[0], [], 0⟩]⟩

/-- A two-entry leaf page. -/
def pageC10b : Page := ⟨0, [⟨[1], [9], 0⟩, ⟨[2], [8], 0⟩]⟩

/-! ## Specification artifacts for the b-tree claims

The b-tree claims quantify over well-formed trees.  `SubTree idx minb pn h kvs`
says that following child pointers from page number `pn` yields a tree of
height at most `h` whose in-order key/value sequence is `kvs`; every
reachable page exists, is non-empty, and branch pages carry at least
`minb` entries.  Orderedness is imposed separately as `AscKV kvs`.
-/

/-- Strict key order on key/value pairs. -/
def ltKV (a b : KV) : Prop := bytesLt a.1 b.1 = true

/-- A key/value list with strictly ascending keys. -/
def AscKV (l : List KV) : Prop := List.Pairwise ltKV l

instance ltKV.decidable (a b : KV) : Decidable (ltKV a b) := by
  unfold ltKV
  infer_instance

instance AscKV.decidable (l : List KV) : Decidable (AscKV l) := by
  unfold AscKV
  infer_instance

/-- In-order flattening of a branch page's entries interleaved with the
key/value sequences of the sub-trees hanging off each entry. -/
def flattenPairs : List Entry → List (List KV) → List KV
  | e :: es, kvsI :: kvss => (e.key, e.value) :: (kvsI ++ flattenPairs es kvss)
  | _, _ => []

/-- Well-formed sub-tree at page `pn` with height bound `h`, in-order
sequence `kvs`, and at least `minb` entries on every branch page. -/
inductive SubTree (idx : ID0) (minb : Nat) : Nat → Nat → List KV → Prop where
  | leaf (pn : Nat) (p : Page) (h : Nat)
      (hpage : idx.pages pn = some p) (hleaf : p.ppointer = 0) (hne : p.entries ≠ []) :
      SubTree idx minb pn h (p.entries.map fun e => (e.key, e.value))
  | branch (pn : Nat) (p : Page) (h : Nat) (sub0 : List KV) (kvss : List (List KV))
      (hpage : idx.pages pn = some p) (hbr : p.ppointer ≠ 0) (hne : p.entries ≠ [])
      (hminb : minb ≤ p.entries.length)
      (h0 : SubTree idx minb p.ppointer h sub0)
      (hlen : kvss.length = p.entries.length)
      (hch : ∀ i e kv, p.entries.get? i = some e → kvss.get? i = some kv →
               SubTree idx minb e.page h kv) :
      SubTree idx minb pn (h + 1) (sub0 ++ flattenPairs p.entries kvss)

/-- `K` is the key of an entry of some *branch* page reachable from `pn`. -/
inductive StoredInBranch (idx : ID0) : Nat → Bytes → Prop where
  | here (pn : Nat) (p : Page) (K : Bytes)
      (hpage : idx.pages pn = some p) (hbr : p.ppointer ≠ 0)
      (he : ∃ e ∈ p.entries, e.key = K) : StoredInBranch idx pn K
  | viaPP (pn : Nat) (p : Page) (K : Bytes)
      (hpage : idx.pages pn = some p) (hbr : p.ppointer ≠ 0)
      (hrec : StoredInBranch idx p.ppointer K) : StoredInBranch idx pn K
  | viaEntry (pn : Nat) (p : Page) (e : Entry) (K : Bytes)
      (hpage : idx.pages pn = some p) (hbr : p.ppointer ≠ 0) (he : e ∈ p.entries)
      (hrec : StoredInBranch idx e.page K) : StoredInBranch idx pn K

/-- A two-level tree whose root branch page has a single entry `b`; the
key `c` lives in the sub-tree right of that entry. -/
def pageC5root : Page := ⟨2, [⟨[98], [1], 3⟩]⟩

/-- Leaf holding key `a`. -/
def pageC5a : Page := ⟨0, [⟨[97], [2], 0⟩]⟩

/-- Leaf holding key `c`. -/
def pageC5c : Page := ⟨0, [⟨[99], [3], 0⟩]⟩

/-- The single-entry-root index (pages 1, 2, 3). -/
def exIdxC5 : ID0 :=
  { signature := [0x42, 0x2D, 0x74, 0x72, 0x65, 0x65, 0x20, 0x76, 0x32],
    root_page := 1, record_count := 3,
    pages := fun n =>
      if n = 1 then some pageC5root
      else if n = 2 then some pageC5a
      else if n = 3 then some pageC5c
      else none }

/-- The in-order sequence of `exIdxC5`. -/
def exKvsC5 : List KV := [([97], [2]), ([98], [1]), ([99], [3])]

/-- A two-level tree whose root branch page has two entries. -/
def pageW5root : Page := ⟨2, [⟨[98], [1], 3⟩, ⟨[100], [2], 4⟩]⟩

/-- Leaf holding key `c`. -/
def pageW5c : Page := ⟨0, [⟨[99], [4], 0⟩]⟩

/-- Leaf holding key `e`. -/
def pageW5e : Page := ⟨0, [⟨[101], [5], 0⟩]⟩

/-- A five-key index whose root branch page has two entries. -/
def exIdxW5 : ID0 :=
  { signature := [0x42, 0x2D, 0x74, 0x72, 0x65, 0x65, 0x20, 0x76, 0x32],
    root_page := 1, record_count := 5,
    pages := fun n =>
      if n = 1 then some pageW5root
      else if n = 2 then some pageC5a
      else if n = 3 then some pageW5c
      else if n = 4 then some pageW5e
      else none }

/-- The in-order sequence of `exIdxW5`. -/
def exKvsW5 : List KV :=
  [([97], [2]), ([98], [1]), ([99], [4]), ([100], [2]), ([101], [5])]

/-- Root branch page holding the single entry `ba` whose left sub-tree
(keys below `ba`) contains no key starting with `b`. -/
def pageC2root : Page := ⟨2, [⟨[98, 97], [1], 3⟩]⟩

/-- The prefix-search counterexample index. -/
def exIdxC2 : ID0 :=
  { signature := [0x42, 0x2D, 0x74, 0x72, 0x65, 0x65, 0x20, 0x76, 0x32],
    root_page := 1, record_count := 3,
    pages := fun n =>
      if n = 1 then some pageC2root
      else if n = 2 then some pageC5a
      else if n = 3 then some pageC5c
      else none }

/-- One-leaf index holding the single key `aa`. -/
def pageC2w : Page := ⟨0, [⟨[97, 97], [7], 0⟩]⟩

/-- The in-order sequence of `exIdxC2`. -/
def exKvsC2 : List KV := [([97], [2]), ([98, 97], [1]), ([99], [3])]

/-- The prefix-search witness index. -/
def exIdxC2w : ID0 :=
  { signature := [0x42, 0x2D, 0x74, 0x72, 0x65, 0x65, 0x20, 0x76, 0x32],
    root_page := 1, record_count := 1,
    pages := fun n => if n = 1 then some pageC2w else none }

/-- A valid descent in the tree with root `idx.root_page`, whole in-order
sequence `kvsAll` and root height `H`.  `Desc idx kvsAll H h pn sub anc
before after` says: the pages in `anc` were visited from the root down to
(but excluding) page `pn`, whose sub-tree has height bound `h` and
in-order sequence `sub`; `before` and `after` are the parts of `kvsAll`
to the left and right of `sub`. -/
inductive Desc (idx : ID0) (kvsAll : List KV) (H : Nat) :
    Nat → Nat → List KV → List Page → List KV → List KV → Prop where
  | root (hroot : SubTree idx 0 idx.root_page H kvsAll) :
      Desc idx kvsAll H H idx.root_page kvsAll [] [] []
  | intoPP (h pn : Nat) (p : Page) (sub0 : List KV) (kvss : List (List KV))
      (anc : List Page) (before after : List KV)
      (hd : Desc idx kvsAll H (h + 1) pn (sub0 ++ flattenPairs p.entries kvss) anc before after)
      (hpage : idx.pages pn = some p) (hbr : p.ppointer ≠ 0) (hne : p.entries ≠ [])
      (h0 : SubTree idx 0 p.ppointer h sub0)
      (hlen : kvss.length = p.entries.length)
      (hch : ∀ i e kv, p.entries.get? i = some e → kvss.get? i = some kv →
               SubTree idx 0 e.page h kv) :
      Desc idx kvsAll H h p.ppointer sub0 (anc ++ [p]) before
        (flattenPairs p.entries kvss ++ after)
  | intoEntry (h pn : Nat) (p : Page) (sub0 : List KV) (kvss : List (List KV))
      (anc : List Page) (before after : List KV) (j : Nat) (e : Entry) (kvJ : List KV)
      (hd : Desc idx kvsAll H (h + 1) pn (sub0 ++ flattenPairs p.entries kvss) anc before after)
      (hpage : idx.pages pn = some p) (hbr : p.ppointer ≠ 0) (hne : p.entries ≠ [])
      (h0 : SubTree idx 0 p.ppointer h sub0)
      (hlen : kvss.length = p.entries.length)
      (hch : ∀ i e kv, p.entries.get? i = some e → kvss.get? i = some kv →
               SubTree idx 0 e.page h kv)
      (hj : p.entries.get? j = some e) (hkvJ : kvss.get? j = some kvJ) :
      Desc idx kvsAll H h e.page kvJ (anc ++ [p])
        (before ++ sub0 ++ flattenPairs (p.entries.take j) (kvss.take j) ++ [(e.key, e.value)])
        (flattenPairs (p.entries.drop (j + 1)) (kvss.drop (j + 1)) ++ after)

/-- Invariant of a traversal cursor: the cursor sits on a stored entry and
the second argument is the in-order list of key/value pairs still to be
visited after it. -/
inductive CursorInv (idx : ID0) (kvsAll : List KV) (H : Nat) : Cursor → List KV → Prop where
  | atLeaf (h pn : Nat) (p : Page) (anc : List Page) (before after : List KV)
      (i : Nat) (e : Entry)
      (hd : Desc idx kvsAll H h pn (p.entries.map fun e => (e.key, e.value)) anc before after)
      (hpage : idx.pages pn = some p) (hleaf : p.ppointer = 0)
      (hi : p.entries.get? i = some e) :
      CursorInv idx kvsAll H ⟨anc ++ [p], e, (i : Int)⟩
        (((p.entries.map fun e => (e.key, e.value)).drop (i + 1)) ++ after)
  | atBranch (h pn : Nat) (p : Page) (sub0 : List KV) (kvss : List (List KV))
      (anc : List Page) (before after : List KV) (j : Nat) (e : Entry) (kvJ : List KV)
      (hd : Desc idx kvsAll H (h + 1) pn (sub0 ++ flattenPairs p.entries kvss) anc before after)
      (hpage : idx.pages pn = some p) (hbr : p.ppointer ≠ 0) (hne : p.entries ≠ [])
      (h0 : SubTree idx 0 p.ppointer h sub0)
      (hlen : kvss.length = p.entries.length)
      (hch : ∀ i e kv, p.entries.get? i = some e → kvss.get? i = some kv →
               SubTree idx 0 e.page h kv)
      (hj : p.entries.get? j = some e) (hkvJ : kvss.get? j = some kvJ) :
      CursorInv idx kvsAll H ⟨anc ++ [p], e, (j : Int)⟩
        (kvJ ++ flattenPairs (p.entries.drop (j + 1)) (kvss.drop (j + 1)) ++ after)

/-! ## Theorems -/

/-- The `validate` loop accepts every entry list when started with
`last = None`, because the `None` branch never assigns `last`. -/
theorem validateScan_none_ok (l : List Entry) : validateScan none l = .ok true := by
  induction l with
  | nil => rfl
  | cons e rest ih => rw [validateScan]; exact ih

/-- C3: `Page.validate` never fails: the sort-order check is dead code
(`last` is never assigned), so even a page whose reconstructed keys are
strictly *descending* — such as `pageC3`, whose first key `[2]` is not
less than its second key `[1]` — validates successfully instead of
failing with `Corrupt`. -/
theorem c3_page_validate_dead :
    (∀ p : Page, p.validate = .ok true) ∧
    pageC3.validate = .ok true ∧ bytesLt [2] [1] = false := by
  refine ⟨fun p => validateScan_none_ok _, validateScan_none_ok _, rfl⟩

/-- C1: on the spec's own example (segments `[0x1000, 0x1004)` and
`[0x2000, 0x2008)`, flag words `1..12`), the parsed descriptors carry
offsets `[16, 48]` — the cumulative sums *including* each segment — not
`[0, 16]`; consequently `get_flags(0x1002)` reads word index 6 (value 7,
the spec's G) instead of word index 2 (value 3, C), and `get_flags(0x2000)`
reads past the end of the flags buffer instead of returning E. -/
theorem c1_id1_offsets_and_get_flags :
    exID1C1.segments.map (fun s => s.offset) = [16, 48] ∧
    exID1C1.get_flags 0x1002 = .ok 7 ∧
    exID1C1.get_flags 0x2000 = .error .structError := by
  refine ⟨rfl, rfl, rfl⟩

/-- C4: with the single segment `[0x1000, 0x1004)` and values present at
every byte, addresses `0x1002` and `0x1003` lie in the same segment and
both have `FF_IVL` set (each `IdbByte` succeeds), yet
`GetManyBytes(0x1002, 2)` fails — the source compares
`SegStart(ea)` against `SegStart(ea + size)`, i.e. `SegStart(0x1004)`,
which lies one past the segment and raises `KeyError` — instead of
returning the two bytes as the claim requires. -/
theorem c4_get_many_bytes_segstart_bug :
    exDbC4.SegStart 0x1002 = .ok 0x1000 ∧
    exDbC4.SegStart 0x1003 = .ok 0x1000 ∧
    exDbC4.IdbByte 0x1002 = .ok 6 ∧
    exDbC4.IdbByte 0x1003 = .ok 7 ∧
    exDbC4.GetManyBytes 0x1002 2 = .error .keyError := by
  refine ⟨rfl, rfl, rfl, rfl, rfl⟩

/-- `FileHeader.validate` never returns `ok false`. -/
theorem fileHeader_validate_ok {h : FileHeader} {b : Bool} (hv : h.validate = .ok b) :
    b = true := by
  unfold FileHeader.validate at hv
  split at hv
  · cases hv
  · split at hv
    · cases hv
    · split at hv
      · cases hv
      · cases hv; rfl

/-- `ID0.validate` never returns `ok false`. -/
theorem id0_validate_ok {v : ID0} {b : Bool} (hv : v.validate = .ok b) : b = true := by
  unfold ID0.validate at hv
  split at hv
  · cases hv
  · cases hv; rfl

/-- `ID1.validate` never returns `ok false`. -/
theorem id1_validate_ok {v : ID1} {b : Bool} (hv : v.validate = .ok b) : b = true := by
  unfold ID1.validate at hv
  split at hv
  · cases hv
  · split at hv
    · cases hv
    · split at hv
      · cases hv
      · split at hv
        · cases hv
        · cases hv; rfl

/-- `NAM.validate` never returns `ok false`. -/
theorem nam_validate_ok {v : NAM} {b : Bool} (hv : v.validate = .ok b) : b = true := by
  unfold NAM.validate at hv
  split at hv
  · cases hv
  · split at hv
    · cases hv
    · split at hv
      · cases hv
      · split at hv
        · cases hv
        · split at hv
          · cases hv
          · cases hv; rfl

/-- `TIL.validate` never returns `ok false`. -/
theorem til_validate_ok {v : TIL} {b : Bool} (hv : v.validate = .ok b) : b = true := by
  unfold TIL.validate at hv
  split at hv
  · cases hv
  · cases hv; rfl

/-- C7 (amended): `IDB.validate` succeeds iff the file header is valid and
id0, id1, nam and til are *all present* and each passes its own check;
an absent section makes `validate` fail (the source calls
`self.<section>.validate()` unconditionally, raising `AttributeError` on
`None`). -/
theorem c7_validate_amended (db : IDB) :
    db.validate = .ok true ↔
      (db.header.validate = .ok true ∧
       (∃ s, db.id0 = some s ∧ s.validate = .ok true) ∧
       (∃ s, db.id1 = some s ∧ s.validate = .ok true) ∧
       (∃ s, db.nam = some s ∧ s.validate = .ok true) ∧
       (∃ s, db.til = some s ∧ s.validate = .ok true)) := by
  constructor
  · intro h
    unfold IDB.validate at h
    cases hh : db.header.validate with
    | error e => rw [hh, except_bind_error] at h; cases h
    | ok b =>
      have hb := fileHeader_validate_ok hh; subst hb
      rw [hh, except_bind_ok] at h
      cases h0 : db.id0 with
      | none => rw [h0] at h; simp [getAttr, except_bind_error] at h
      | some s0 =>
        rw [h0] at h; simp only [getAttr, except_bind_ok] at h
        cases hv0 : s0.validate with
        | error e => rw [hv0, except_bind_error] at h; cases h
        | ok b0 =>
          have hb0 := id0_validate_ok hv0; subst hb0
          rw [hv0, except_bind_ok] at h
          cases h1 : db.id1 with
          | none => rw [h1] at h; simp [getAttr, except_bind_error] at h
          | some s1 =>
            rw [h1] at h; simp only [getAttr, except_bind_ok] at h
            cases hv1 : s1.validate with
            | error e => rw [hv1, except_bind_error] at h; cases h
            | ok b1 =>
              have hb1 := id1_validate_ok hv1; subst hb1
              rw [hv1, except_bind_ok] at h
              cases h2 : db.nam with
              | none => rw [h2] at h; simp [getAttr, except_bind_error] at h
              | some s2 =>
                rw [h2] at h; simp only [getAttr, except_bind_ok] at h
                cases hv2 : s2.validate with
                | error e => rw [hv2, except_bind_error] at h; cases h
                | ok b2 =>
                  have hb2 := nam_validate_ok hv2; subst hb2
                  rw [hv2, except_bind_ok] at h
                  cases h3 : db.til with
                  | none => rw [h3] at h; simp [getAttr, except_bind_error] at h
                  | some s3 =>
                    rw [h3] at h; simp only [getAttr, except_bind_ok] at h
                    cases hv3 : s3.validate with
                    | error e => rw [hv3, except_bind_error] at h; cases h
                    | ok b3 =>
                      have hb3 := til_validate_ok hv3; subst hb3
                      exact ⟨rfl, ⟨s0, rfl, hv0⟩, ⟨s1, rfl, hv1⟩, ⟨s2, rfl, hv2⟩,
                             ⟨s3, rfl, hv3⟩⟩
  · rintro ⟨hh, ⟨s0, h0, hv0⟩, ⟨s1, h1, hv1⟩, ⟨s2, h2, hv2⟩, ⟨s3, h3, hv3⟩⟩
    unfold IDB.validate
    rw [hh, except_bind_ok, h0]
    simp only [getAttr, except_bind_ok]
    rw [hv0, except_bind_ok, h1]
    simp only [getAttr, except_bind_ok]
    rw [hv1, except_bind_ok, h2]
    simp only [getAttr, except_bind_ok]
    rw [hv2, except_bind_ok, h3]
    simp only [getAttr, except_bind_ok]
    rw [hv3, except_bind_ok]

/-- C7 (counterexample): a container whose file header is valid and whose
present sections (id0, id1, nam) all validate, but whose til section is
absent: the claim says `validate` succeeds, yet it fails with
`AttributeError`. -/
theorem c7_validate_requires_all_sections :
    exDbC7.header.validate = .ok true ∧
    (∃ s, exDbC7.id0 = some s ∧ s.validate = .ok true) ∧
    (∃ s, exDbC7.id1 = some s ∧ s.validate = .ok true) ∧
    (∃ s, exDbC7.nam = some s ∧ s.validate = .ok true) ∧
    exDbC7.til = none ∧
    exDbC7.validate = .error .attributeError := by
  exact ⟨rfl, ⟨_, rfl, rfl⟩, ⟨_, rfl, rfl⟩, ⟨_, rfl, rfl⟩, rfl, rfl⟩

/-- C10 (counterexample): on a one-entry page, `get_entry(-2)` fails with
`IndexError` although `-2 < entry_count`, so "fails exactly when
`entry_number >= entry_count`" is false as stated. -/
theorem c10_below_range_counterexample :
    pageC10a.entry_count = 1 ∧
    pageC10a.get_entry (-2) = .error .indexError ∧
    (-2 : Int) < (pageC10a.entry_count : Int) := by
  exact ⟨rfl, rfl, by decide⟩

/-- C10 (amended): for a page with at least one entry, `get_entry` fails
with the guarded `KeyError` exactly on `entry_number ≥ entry_count`;
for `-entry_count ≤ n < 0` it succeeds, returning the entry at position
`entry_count + n` (so `get_entry(-1)` is the last entry); and for
`n < -entry_count` it fails with the unguarded `IndexError` of Python
list indexing. -/
theorem c10_get_entry_amended (p : Page) (n : Int) (hc : 1 ≤ p.entry_count) :
    ((p.entry_count : Int) ≤ n → p.get_entry n = .error .keyError) ∧
    (0 ≤ n → n < (p.entry_count : Int) →
       ∃ e, p.entries.get? n.toNat = some e ∧ p.get_entry n = .ok e) ∧
    (-(p.entry_count : Int) ≤ n → n < 0 →
       ∃ e, p.entries.get? (n + (p.entry_count : Int)).toNat = some e ∧
         p.get_entry n = .ok e) ∧
    (n < -(p.entry_count : Int) → p.get_entry n = .error .indexError) ∧
    (n = -1 → ∃ e, p.entries.get? (p.entry_count - 1) = some e ∧ p.get_entry n = .ok e) := by
  simp only [Page.entry_count] at hc ⊢
  have neg_case : ∀ m : Int, -(p.entries.length : Int) ≤ m → m < 0 →
      ∃ e, p.entries.get? (m + (p.entries.length : Int)).toNat = some e ∧
        p.get_entry m = .ok e := by
    intro m h1 h2
    cases hx : p.entries.get? (m + (p.entries.length : Int)).toNat with
    | none =>
      rw [List.get?_eq_none] at hx
      omega
    | some e =>
      refine ⟨e, rfl, ?_⟩
      unfold Page.get_entry
      rw [if_neg (by omega)]
      unfold pyIndex
      rw [if_neg (by omega)]
      simp only [hx]
      rw [if_pos (by omega)]
  refine ⟨?_, ?_, neg_case n, ?_, ?_⟩
  · intro h
    unfold Page.get_entry
    rw [if_pos h]
  · intro h0 h1
    cases hx : p.entries.get? n.toNat with
    | none =>
      rw [List.get?_eq_none] at hx
      omega
    | some e =>
      refine ⟨e, rfl, ?_⟩
      unfold Page.get_entry
      rw [if_neg (by omega)]
      unfold pyIndex
      rw [if_pos h0]
      simp only [hx]
  · intro h
    unfold Page.get_entry
    rw [if_neg (by omega)]
    unfold pyIndex
    rw [if_neg (by omega)]
    cases hx : p.entries.get? (n + (p.entries.length : Int)).toNat with
    | none => simp only [hx]
    | some e =>
      simp only [hx]
      rw [if_neg (by omega)]
  · intro hn
    subst hn
    rcases neg_case (-1) (by omega) (by norm_num) with ⟨e, he, hg⟩
    refine ⟨e, ?_, hg⟩
    have hidx : ((-1 : Int) + (p.entries.length : Int)).toNat = p.entries.length - 1 := by
      omega
    rw [hidx] at he
    exact he

/-- C10 (witness): on the two-entry page, `get_entry(-1)` returns the last
entry, obtained from the amended theorem. -/
theorem c10_get_entry_amended_witness :
    ∃ e, pageC10b.entries.get? (pageC10b.entry_count - 1) = some e ∧
      pageC10b.get_entry (-1) = .ok e :=
  (c10_get_entry_amended pageC10b (-1) (by decide)).2.2.2.2 rfl

/-- `pyIndex` at a nonnegative (cast) index is plain list lookup. -/
theorem pyIndex_ofNat {α : Type} (xs : List α) (n : Nat) :
    pyIndex xs (n : Int) =
      (match xs.get? n with
       | some x => .ok x
       | none => .error .indexError) := by
  unfold pyIndex
  rw [if_pos (by positivity)]
  simp

/-- The `get_next_segment` scan, specified against the first containing
index: starting from global position `k` on the suffix `l` of the table,
it fails with `KeyError` when no remaining segment contains `ea`, and at
the first containing index it returns the following table element or
`IndexError` past the end. -/
theorem gnsScan_spec (ea : Int) (segs : List SegmentDescriptor) :
    ∀ (l : List SegmentDescriptor) (k : Nat), segs.drop k = l →
      ((∀ s ∈ l, ¬((s.bounds.start : Int) ≤ ea ∧ ea < (s.bounds.end_ : Int))) →
         gnsScan ea segs k l = .error .keyError) ∧
      (∀ i s, l.get? i = some s →
         ((s.bounds.start : Int) ≤ ea ∧ ea < (s.bounds.end_ : Int)) →
         (∀ j t, j < i → l.get? j = some t →
            ¬((t.bounds.start : Int) ≤ ea ∧ ea < (t.bounds.end_ : Int))) →
         gnsScan ea segs k l =
           (match segs.get? (k + i + 1) with
            | some s' => .ok s'
            | none => .error .indexError)) := by
  intro l
  induction l with
  | nil =>
    intro k hk
    refine ⟨fun _ => rfl, fun i s hi => ?_⟩
    simp at hi
  | cons a rest ih =>
    intro k hk
    have hk' : segs.drop (k + 1) = rest := by
      have h1 := List.drop_drop 1 k segs
      rw [hk] at h1
      simpa using h1.symm
    have hka : segs.get? k = some a := by
      have h1 : (segs.drop k).get? 0 = segs.get? (k + 0) := List.get?_drop segs k 0
      rw [hk] at h1
      simpa using h1.symm
    have hklen : k < segs.length := (List.get?_eq_some.mp hka).1
    refine ⟨?_, ?_⟩
    · intro hall
      rw [gnsScan]
      rw [if_neg (hall a (List.mem_cons_self a rest))]
      exact (ih (k + 1) hk').1 (fun s hs => hall s (List.mem_cons_of_mem a hs))
    · intro i s hi hc hb
      cases i with
      | zero =>
        simp only [List.get?] at hi
        injection hi with hi
        subst hi
        rw [gnsScan]
        rw [if_pos hc]
        rw [if_neg (by simpa using Nat.ne_of_lt hklen)]
        have hcast : ((k : Int) + 1) = ((k + 1 : Nat) : Int) := by push_cast; ring
        rw [hcast, pyIndex_ofNat, Nat.add_zero]
        cases segs.get? (k + 1) <;> rfl
      | succ j =>
        rw [gnsScan]
        rw [if_neg (hb 0 a (Nat.succ_pos j) rfl)]
        have h2 := (ih (k + 1) hk').2 j s hi hc
          (fun j' t hj' ht' => hb (j' + 1) t (Nat.succ_lt_succ hj') ht')
        rw [h2]
        have : k + 1 + j + 1 = k + (j + 1) + 1 := by omega
        rw [this]

/-- C8: for a non-empty segment table, `get_next_segment(ea)` returns the
segment at index `i + 1` when `ea` lies (first) in segment `i` and `i` is
not the last index; it fails with `IndexError` (OutOfRange) when segment
`i` is the last one — the dead guard notwithstanding, because
`self.segments[i + 1]` itself raises `IndexError` — and with `KeyError`
(NotFound) when no segment contains `ea`. -/
theorem c8_get_next_segment (v : ID1) (ea : Int) (hne : v.segments ≠ []) :
    (∀ i s, v.segments.get? i = some s →
       ((s.bounds.start : Int) ≤ ea ∧ ea < (s.bounds.end_ : Int)) →
       (∀ j t, j < i → v.segments.get? j = some t →
          ¬((t.bounds.start : Int) ≤ ea ∧ ea < (t.bounds.end_ : Int))) →
       (∀ s', v.segments.get? (i + 1) = some s' → v.get_next_segment ea = .ok s') ∧
       (v.segments.get? (i + 1) = none → v.get_next_segment ea = .error .indexError)) ∧
    ((∀ s ∈ v.segments, ¬((s.bounds.start : Int) ≤ ea ∧ ea < (s.bounds.end_ : Int))) →
       v.get_next_segment ea = .error .keyError) := by
  have hspec := gnsScan_spec ea v.segments v.segments 0 rfl
  unfold ID1.get_next_segment
  constructor
  · intro i s hi hc hb
    have h2 := hspec.2 i s hi hc hb
    rw [Nat.zero_add] at h2
    constructor
    · intro s' hs'
      rw [h2]
      simp only [hs']
    · intro hnone
      rw [h2]
      simp only [hnone]
  · exact hspec.1

/-- C8 (witness): on the two-segment table, address 1 lies in the first
segment and `get_next_segment` returns the second. -/
theorem c8_get_next_segment_witness :
    exID1C8.get_next_segment 1 = .ok ⟨⟨16, 24⟩, 48⟩ := by
  have h := (c8_get_next_segment exID1C8 1 (by decide)).1 0 ⟨⟨0, 4⟩, 16⟩ rfl (by decide)
    (fun j t hj _ => absurd hj (Nat.not_lt_zero j))
  exact h.1 ⟨⟨16, 24⟩, 48⟩ rfl

/-- A successful upward walk stops only at an address whose flags satisfy
`isHead`. -/
theorem nextHeadGo_ok {db : IDB} {h : Int} :
    ∀ (m : Nat) (x : Int), (db.maxEnd - x).toNat ≤ m → nextHeadGo db x = .ok h →
      ∃ f, db.GetFlags h = .ok f ∧ IDB.isHead f = true := by
  intro m
  induction m with
  | zero =>
    intro x hm hx
    rw [nextHeadGo] at hx
    split at hx
    · cases hx
    · rename_i flags heq
      have hb := GetFlags_ok_bounds heq
      omega
  | succ m ih =>
    intro x hm hx
    rw [nextHeadGo] at hx
    split at hx
    · cases hx
    · rename_i flags heq
      split at hx
      · cases hx
        exact ⟨flags, heq, by assumption⟩
      · have hb := GetFlags_ok_bounds heq
        exact ih (x + 1) (by omega) hx

/-- C9: whenever `NextHead(ea)` succeeds with address `h`, applying `Head`
to `h` is the identity: `NextHead` only stops at an address whose flags
satisfy `isHead`, and `Head` returns its argument unchanged there. -/
theorem c9_head_next_head (db : IDB) (ea h : Int) (hn : db.NextHead ea = .ok h) :
    db.Head h = .ok h := by
  unfold IDB.NextHead at hn
  rcases nextHeadGo_ok ((db.maxEnd - (ea + 1)).toNat) (ea + 1) le_rfl hn with ⟨f, hf, hh⟩
  unfold IDB.Head
  rw [headGo]
  split
  · rename_i e heq
    rw [heq] at hf
    cases hf
  · rename_i flags heq
    rw [heq] at hf
    injection hf with hf
    subst hf
    rw [if_pos hh]

/-- C9 (witness): on the concrete container, `NextHead(0)` succeeds at
address 1 and `Head(1)` returns 1 via the theorem. -/
theorem c9_head_next_head_witness :
    exDbC9.NextHead 0 = .ok 1 ∧ exDbC9.Head 1 = .ok 1 := by
  have h1 : exDbC9.NextHead 0 = .ok 1 := by
    unfold IDB.NextHead
    rw [nextHeadGo]
    rfl
  exact ⟨h1, c9_head_next_head exDbC9 0 1 h1⟩

/-! ## Lexicographic order facts -/

/-- `bytesLt` is irreflexive. -/
theorem bytesLt_irrefl : ∀ x : Bytes, bytesLt x x = false
  | [] => rfl
  | a :: x => by
    rw [bytesLt]
    simp [bytesLt_irrefl x]

/-- `bytesLt` is transitive. -/
theorem bytesLt_trans : ∀ {x y z : Bytes},
    bytesLt x y = true → bytesLt y z = true → bytesLt x z = true := by
  intro x
  induction x with
  | nil =>
    intro y z hxy hyz
    cases y with
    | nil => simp [bytesLt] at hxy
    | cons b ys =>
      cases z with
      | nil => simp [bytesLt] at hyz
      | cons c zs => simp [bytesLt]
  | cons a xs ih =>
    intro y z hxy hyz
    cases y with
    | nil => simp [bytesLt] at hxy
    | cons b ys =>
      cases z with
      | nil => simp [bytesLt] at hyz
      | cons c zs =>
        rw [bytesLt] at hxy hyz ⊢
        simp only [Bool.or_eq_true, Bool.and_eq_true, beq_iff_eq, decide_eq_true_eq] at hxy hyz ⊢
        rcases hxy with h1 | ⟨rfl, h1⟩
        · rcases hyz with h2 | ⟨rfl, h2⟩
          · exact Or.inl (Nat.lt_trans h1 h2)
          · exact Or.inl h1
        · rcases hyz with h2 | ⟨rfl, h2⟩
          · exact Or.inl h2
          · exact Or.inr ⟨rfl, ih h1 h2⟩

/-- Totality: two distinct byte strings compare one way or the other. -/
theorem bytesLt_of_not_lt_of_ne : ∀ {x y : Bytes},
    bytesLt x y = false → x ≠ y → bytesLt y x = true := by
  intro x
  induction x with
  | nil =>
    intro y hlt hne
    cases y with
    | nil => exact absurd rfl hne
    | cons b ys => simp [bytesLt] at hlt
  | cons a xs ih =>
    intro y hlt hne
    cases y with
    | nil => rfl
    | cons b ys =>
      rcases Nat.lt_trichotomy a b with h | h | h
      · rw [bytesLt] at hlt
        simp [h] at hlt
      · subst h
        rw [bytesLt] at hlt
        simp [Nat.lt_irrefl] at hlt
        have hxy : xs ≠ ys := fun hh => hne (by rw [hh])
        rw [bytesLt]
        simp [Nat.lt_irrefl, ih hlt hxy]
      · rw [bytesLt]
        simp [h]

/-- `bytesLt` is asymmetric. -/
theorem bytesLt_asymm {x y : Bytes} (h : bytesLt x y = true) : bytesLt y x = false := by
  cases hc : bytesLt y x with
  | false => rfl
  | true =>
    have := bytesLt_trans h hc
    rw [bytesLt_irrefl] at this
    cases this

/-- Strictly smaller strings are distinct. -/
theorem bytesLt_ne {x y : Bytes} (h : bytesLt x y = true) : x ≠ y := by
  intro heq
  subst heq
  rw [bytesLt_irrefl] at h
  cases h

/-- A string is never lexicographically below one of its prefixes. -/
theorem bytesLt_isPrefixOf_false : ∀ {x y : Bytes},
    x.isPrefixOf y = true → bytesLt y x = false := by
  intro x
  induction x with
  | nil =>
    intro y _
    cases y <;> rfl
  | cons a xs ih =>
    intro y hp
    cases y with
    | nil => simp [List.isPrefixOf] at hp
    | cons b ys =>
      simp only [List.isPrefixOf, Bool.and_eq_true, beq_iff_eq] at hp
      obtain ⟨rfl, hp2⟩ := hp
      rw [bytesLt]
      simp [Nat.lt_irrefl, ih hp2]

/-- Every string between a key `k` and a string `m` that extends `k`
extends `k` as well. -/
theorem isPrefixOf_of_between : ∀ {k s m : Bytes},
    k.isPrefixOf m = true → bytesLt s k = false → bytesLt s m = true →
    k.isPrefixOf s = true := by
  intro k
  induction k with
  | nil => intro s m _ _ _; cases s <;> rfl
  | cons a ks ih =>
    intro s m hpm hsk hsm
    cases m with
    | nil => simp [List.isPrefixOf] at hpm
    | cons b ms =>
      simp only [List.isPrefixOf, Bool.and_eq_true, beq_iff_eq] at hpm
      obtain ⟨rfl, hpm2⟩ := hpm
      cases s with
      | nil => simp [bytesLt] at hsk
      | cons c ss =>
        rw [bytesLt] at hsk hsm
        simp only [Bool.or_eq_true, Bool.and_eq_true, beq_iff_eq, decide_eq_true_eq] at hsm
        rcases Nat.lt_trichotomy c a with h | h | h
        · simp [h] at hsk
        · subst h
          rcases hsm with h2 | ⟨_, hsm2⟩
          · exact absurd h2 (Nat.lt_irrefl c)
          · have hsk2 : bytesLt ss ks = false := by
              simpa [lt_self_iff_false] using hsk
            simp only [List.isPrefixOf, Bool.and_eq_true, beq_iff_eq]
            exact ⟨by simp, ih hpm2 hsk2 hsm2⟩
        · rcases hsm with h2 | ⟨h2, _⟩ <;> omega

/-- `isPrefixOf` is reflexive. -/
theorem isPrefixOf_refl : ∀ x : Bytes, x.isPrefixOf x = true
  | [] => rfl
  | a :: xs => by
    simp only [List.isPrefixOf, Bool.and_eq_true, beq_iff_eq]
    exact ⟨by simp, isPrefixOf_refl xs⟩

/-- A prefix of a strictly smaller string cannot exceed the larger one:
if `k` is a prefix of `x` then `k ≤ x` lexicographically. -/
theorem bytesLt_le_of_isPrefixOf {k x : Bytes} (h : k.isPrefixOf x = true) :
    bytesLt x k = false := bytesLt_isPrefixOf_false h

/-! ## Ascending key/value lists -/

/-- Left part of an ascending concatenation is ascending. -/
theorem ascKV_append_left {xs ys : List KV} (h : AscKV (xs ++ ys)) : AscKV xs :=
  (List.pairwise_append.mp h).1

/-- Right part of an ascending concatenation is ascending. -/
theorem ascKV_append_right {xs ys : List KV} (h : AscKV (xs ++ ys)) : AscKV ys :=
  (List.pairwise_append.mp h).2.1

/-- Cross ordering across an ascending concatenation. -/
theorem ascKV_append_cross {xs ys : List KV} (h : AscKV (xs ++ ys)) :
    ∀ a ∈ xs, ∀ b ∈ ys, ltKV a b :=
  (List.pairwise_append.mp h).2.2

/-- Head ordering and tail of an ascending cons. -/
theorem ascKV_cons {x : KV} {xs : List KV} (h : AscKV (x :: xs)) :
    (∀ y ∈ xs, ltKV x y) ∧ AscKV xs := List.pairwise_cons.mp h

/-- In an ascending list a key determines its value. -/
theorem ascKV_value_unique {l : List KV} (h : AscKV l) {k v v' : Bytes}
    (h1 : (k, v) ∈ l) (h2 : (k, v') ∈ l) : v = v' := by
  induction l with
  | nil => cases h1
  | cons x xs ih =>
    rcases ascKV_cons h with ⟨hx, hxs⟩
    rcases List.mem_cons.mp h1 with heq1 | h1'
    · rcases List.mem_cons.mp h2 with heq2 | h2'
      · rw [← heq1] at heq2
        exact (Prod.mk.injEq _ _ _ _ ▸ heq2.symm).2
      · subst heq1
        have := hx _ h2'
        rw [ltKV, bytesLt_irrefl] at this
        cases this
    · rcases List.mem_cons.mp h2 with heq2 | h2'
      · subst heq2
        have := hx _ h1'
        rw [ltKV, bytesLt_irrefl] at this
        cases this
      · exact ih hxs h1' h2'

/-! ## Flattening lemmas -/

/-- Flattening the empty entry list. -/
theorem flattenPairs_nil (kvss : List (List KV)) : flattenPairs [] kvss = [] := by
  cases kvss <;> rfl

/-- Flattening a cons. -/
theorem flattenPairs_cons (e : Entry) (es : List Entry) (kvsI : List KV)
    (kvss : List (List KV)) :
    flattenPairs (e :: es) (kvsI :: kvss) =
      (e.key, e.value) :: (kvsI ++ flattenPairs es kvss) := rfl

/-- Membership in a flattening comes from an entry pair or a child list. -/
theorem mem_flattenPairs : ∀ {es : List Entry} {kvss : List (List KV)} {x : KV},
    es.length = kvss.length → x ∈ flattenPairs es kvss →
    ∃ i e kvsI, es.get? i = some e ∧ kvss.get? i = some kvsI ∧
      (x = (e.key, e.value) ∨ x ∈ kvsI) := by
  intro es
  induction es with
  | nil =>
    intro kvss x _ hx
    rw [flattenPairs_nil] at hx
    cases hx
  | cons e es' ih =>
    intro kvss x hlen hx
    cases kvss with
    | nil => simp at hlen
    | cons kvsI kvss' =>
      rw [flattenPairs_cons] at hx
      rcases List.mem_cons.mp hx with rfl | hx'
      · exact ⟨0, e, kvsI, rfl, rfl, Or.inl rfl⟩
      · rcases List.mem_append.mp hx' with hx1 | hx2
        · exact ⟨0, e, kvsI, rfl, rfl, Or.inr hx1⟩
        · rcases ih (by simpa using hlen) hx2 with ⟨i, e', kvsI', h1, h2, h3⟩
          exact ⟨i + 1, e', kvsI', h1, h2, h3⟩

/-- Each entry's pair occurs in the flattening. -/
theorem flattenPairs_entry_mem : ∀ {es : List Entry} {kvss : List (List KV)} {i : Nat}
    {e : Entry}, es.length = kvss.length → es.get? i = some e →
    (e.key, e.value) ∈ flattenPairs es kvss := by
  intro es
  induction es with
  | nil => intro kvss i e _ h; simp at h
  | cons a es' ih =>
    intro kvss i e hlen h
    cases kvss with
    | nil => simp at hlen
    | cons kvsI kvss' =>
      rw [flattenPairs_cons]
      cases i with
      | zero =>
        injection h with h
        subst h
        exact List.mem_cons_self _ _
      | succ i' =>
        exact List.mem_cons_of_mem _
          (List.mem_append.mpr (Or.inr (ih (by simpa using hlen) h)))

/-- Each child list's elements occur in the flattening. -/
theorem flattenPairs_child_mem : ∀ {es : List Entry} {kvss : List (List KV)} {i : Nat}
    {kvsI : List KV} {x : KV}, es.length = kvss.length → kvss.get? i = some kvsI →
    x ∈ kvsI → x ∈ flattenPairs es kvss := by
  intro es
  induction es with
  | nil =>
    intro kvss i kvsI x hlen h _
    cases kvss with
    | nil => simp at h
    | cons a b => simp at hlen
  | cons a es' ih =>
    intro kvss i kvsI x hlen h hx
    cases kvss with
    | nil => simp at hlen
    | cons kvsJ kvss' =>
      rw [flattenPairs_cons]
      cases i with
      | zero =>
        injection h with h
        subst h
        exact List.mem_cons_of_mem _ (List.mem_append.mpr (Or.inl hx))
      | succ i' =>
        exact List.mem_cons_of_mem _
          (List.mem_append.mpr (Or.inr (ih (by simpa using hlen) h hx)))

/-- Splitting a flattening at entry index `i`. -/
theorem flattenPairs_decomp : ∀ {es : List Entry} {kvss : List (List KV)} {i : Nat}
    {e : Entry} {kvsI : List KV},
    es.length = kvss.length → es.get? i = some e → kvss.get? i = some kvsI →
    flattenPairs es kvss =
      flattenPairs (es.take i) (kvss.take i) ++
        ((e.key, e.value) :: (kvsI ++ flattenPairs (es.drop (i + 1)) (kvss.drop (i + 1)))) := by
  intro es
  induction es with
  | nil => intro kvss i e kvsI _ h; simp at h
  | cons a es' ih =>
    intro kvss i e kvsI hlen he hkv
    cases kvss with
    | nil => simp at hlen
    | cons kvsJ kvss' =>
      cases i with
      | zero =>
        injection he with he
        injection hkv with hkv
        subst he
        subst hkv
        simp [flattenPairs_cons, flattenPairs_nil]
      | succ i' =>
        have := @ih kvss' i' e kvsI (by simpa using hlen) he hkv
        simp only [List.take_succ_cons, List.drop_succ_cons]
        rw [flattenPairs_cons, flattenPairs_cons, this]
        simp

/-! ## Basic facts about well-formed sub-trees -/

/-- A well-formed sub-tree has a non-empty sequence. -/
theorem SubTree.ne_nil {idx : ID0} {minb pn h : Nat} {kvs : List KV}
    (hs : SubTree idx minb pn h kvs) : kvs ≠ [] := by
  induction hs with
  | leaf pn p h hpage hleaf hne =>
    intro hc
    exact hne (List.map_eq_nil.mp hc)
  | branch pn p h sub0 kvss hpage hbr hne hminb h0 hlen hch ih0 ihch =>
    intro hc
    exact ih0 (List.append_eq_nil.mp hc).1

/-- Height weakening for well-formed sub-trees. -/
theorem SubTree.mono {idx : ID0} {minb pn h : Nat} {kvs : List KV}
    (hs : SubTree idx minb pn h kvs) : ∀ {h' : Nat}, h ≤ h' → SubTree idx minb pn h' kvs := by
  induction hs with
  | leaf pn p h hpage hleaf hne =>
    intro h' _
    exact .leaf pn p h' hpage hleaf hne
  | branch pn p h sub0 kvss hpage hbr hne hminb h0 hlen hch ih0 ihch =>
    intro h' hh
    obtain ⟨h'', rfl⟩ : ∃ h'', h' = h'' + 1 := ⟨h' - 1, by omega⟩
    exact .branch pn p h'' sub0 kvss hpage hbr hne hminb (ih0 (by omega)) hlen
      (fun i e kv he hkv => ihch i e kv he hkv (by omega))

/-- Minimum-branch-width weakening for well-formed sub-trees. -/
theorem SubTree.minb_mono {idx : ID0} {minb pn h : Nat} {kvs : List KV}
    (hs : SubTree idx minb pn h kvs) :
    ∀ {minb' : Nat}, minb' ≤ minb → SubTree idx minb' pn h kvs := by
  induction hs with
  | leaf pn p h hpage hleaf hne =>
    intro minb' _
    exact .leaf pn p h hpage hleaf hne
  | branch pn p h sub0 kvss hpage hbr hne hminb h0 hlen hch ih0 ihch =>
    intro minb' hm
    exact .branch pn p h sub0 kvss hpage hbr hne (by omega) (ih0 hm) hlen
      (fun i e kv he hkv => ihch i e kv he hkv hm)

/-- A successful in-range lookup through `get_entry` at a natural index. -/
theorem get_entry_of_get? {p : Page} {i : Nat} {e : Entry}
    (h : p.entries.get? i = some e) : p.get_entry (i : Int) = .ok e := by
  obtain ⟨hlt, _⟩ := List.get?_eq_some.mp h
  unfold Page.get_entry
  rw [if_neg (by omega)]
  rw [pyIndex_ofNat]
  rw [List.get?_eq_getElem?] at h
  simp [h]

/-- `get_entry (entry_count - 1)` returns the last entry. -/
theorem get_entry_last {p : Page} {e : Entry} (hne : p.entries ≠ [])
    (h : p.entries.get? (p.entries.length - 1) = some e) :
    p.get_entry ((p.entry_count : Int) - 1) = .ok e := by
  have hlen : 0 < p.entries.length := List.length_pos.mpr hne
  have hcast : ((p.entry_count : Int) - 1) = ((p.entries.length - 1 : Nat) : Int) := by
    unfold Page.entry_count
    omega
  rw [hcast]
  exact get_entry_of_get? h

/-! ## Scan lemmas for `find_index` -/

/-- The leaf scan returns the first exact match. -/
theorem idxScanLeaf_found : ∀ {es : List Entry} {j : Nat} {e : Entry} (K : Bytes) (i : Nat),
    es.get? j = some e → e.key = K →
    (∀ j' e', j' < j → es.get? j' = some e' → e'.key ≠ K) →
    idxScanLeaf K i es = .ok (i + j) := by
  intro es
  induction es with
  | nil => intro j e K i h _ _; simp at h
  | cons a es' ih =>
    intro j e K i h hk hb
    cases j with
    | zero =>
      injection h with h
      subst h
      rw [idxScanLeaf, if_pos (beq_iff_eq.mpr hk.symm), Nat.add_zero]
    | succ j' =>
      have hne : ¬((K == a.key) = true) := fun hc =>
        hb 0 a (Nat.succ_pos j') rfl (beq_iff_eq.mp hc).symm
      rw [idxScanLeaf, if_neg hne]
      have harith : i + (j' + 1) = (i + 1) + j' := by omega
      rw [harith]
      exact ih K (i + 1) h hk (fun j'' e'' hj'' he'' => hb (j'' + 1) e'' (by omega) he'')

/-- The leaf scan fails when no entry has the key. -/
theorem idxScanLeaf_none : ∀ {es : List Entry} (K : Bytes) (i : Nat),
    (∀ e ∈ es, e.key ≠ K) → idxScanLeaf K i es = .error .keyError := by
  intro es
  induction es with
  | nil => intro K i _; rfl
  | cons a es' ih =>
    intro K i hall
    have hne : ¬((K == a.key) = true) := fun hc =>
      hall a (List.mem_cons_self _ _) (beq_iff_eq.mp hc).symm
    rw [idxScanLeaf, if_neg hne]
    exact ih K (i + 1) (fun e he => hall e (List.mem_cons_of_mem _ he))

/-- The branch scan returns the first index whose key is `≥ K`. -/
theorem idxScanBranch_found : ∀ {es : List Entry} {j : Nat} {e : Entry} (K : Bytes) (i : Nat),
    es.get? j = some e → (K = e.key ∨ bytesLt K e.key = true) →
    (∀ j' e', j' < j → es.get? j' = some e' → bytesLt e'.key K = true) →
    idxScanBranch K i es = .ok (i + j) := by
  intro es
  induction es with
  | nil => intro j e K i h _ _; simp at h
  | cons a es' ih =>
    intro j e K i h hk hb
    cases j with
    | zero =>
      injection h with h
      subst h
      rcases hk with hk | hk
      · rw [idxScanBranch, if_pos (beq_iff_eq.mpr hk), Nat.add_zero]
      · rw [idxScanBranch, if_neg (fun hc => bytesLt_ne hk (beq_iff_eq.mp hc)),
          if_pos hk, Nat.add_zero]
    | succ j' =>
      have hlt := hb 0 a (Nat.succ_pos j') rfl
      have hne1 : ¬((K == a.key) = true) := fun hc => by
        rw [beq_iff_eq.mp hc, bytesLt_irrefl] at hlt
        cases hlt
      have hne2 : ¬(bytesLt K a.key = true) := fun hc => by
        rw [bytesLt_asymm hc] at hlt
        cases hlt
      rw [idxScanBranch, if_neg hne1, if_neg hne2]
      have harith : i + (j' + 1) = (i + 1) + j' := by omega
      rw [harith]
      exact ih K (i + 1) h hk (fun j'' e'' hj'' he'' => hb (j'' + 1) e'' (by omega) he'')

/-- The branch scan fails when every entry key is below `K`. -/
theorem idxScanBranch_none : ∀ {es : List Entry} (K : Bytes) (i : Nat),
    (∀ e ∈ es, bytesLt e.key K = true) → idxScanBranch K i es = .error .keyError := by
  intro es
  induction es with
  | nil => intro K i _; rfl
  | cons a es' ih =>
    intro K i hall
    have hlt := hall a (List.mem_cons_self _ _)
    have hne1 : ¬((K == a.key) = true) := fun hc => by
      rw [beq_iff_eq.mp hc, bytesLt_irrefl] at hlt
      cases hlt
    have hne2 : ¬(bytesLt K a.key = true) := fun hc => by
      rw [bytesLt_asymm hc] at hlt
      cases hlt
    rw [idxScanBranch, if_neg hne1, if_neg hne2]
    exact ih K (i + 1) (fun e he => hall e (List.mem_cons_of_mem _ he))

/-! ## Exact-match search -/

/-- Helper: `get_page` succeeds on stored pages. -/
theorem get_page_ok {idx : ID0} {pn : Nat} {p : Page} (h : idx.pages pn = some p) :
    idx.get_page pn = .ok p := by
  unfold ID0.get_page
  rw [h]

/-- Pages with a zero parent pointer are leaves. -/
theorem is_leaf_true {p : Page} (h : p.ppointer = 0) : p.is_leaf = true := by
  unfold Page.is_leaf
  simp [h]

/-- Pages with a non-zero parent pointer are branches. -/
theorem is_leaf_false {p : Page} (h : p.ppointer ≠ 0) : p.is_leaf = false := by
  unfold Page.is_leaf
  simp [h]

/-- Where the branch scan lands, relative to the location of a pair
`(K, V)` in the flattening: either `K` is an entry key (the scan stops on
it), or `(K, V)` lies in the child list of entry `j` and the scan stops on
entry `j + 1` (or fails when `j` is the last entry). -/
theorem branch_locate (K V : Bytes) :
    ∀ (es : List Entry) (kvss : List (List KV)) (i0 : Nat),
      es.length = kvss.length → AscKV (flattenPairs es kvss) →
      (K, V) ∈ flattenPairs es kvss →
      (∃ j e, es.get? j = some e ∧ e.key = K ∧ e.value = V ∧
         idxScanBranch K i0 es = .ok (i0 + j)) ∨
      (∃ j e kvsI, es.get? j = some e ∧ kvss.get? j = some kvsI ∧ (K, V) ∈ kvsI ∧
         bytesLt e.key K = true ∧
         ((∃ e', es.get? (j + 1) = some e' ∧ bytesLt K e'.key = true ∧
             idxScanBranch K i0 es = .ok (i0 + j + 1)) ∨
          (es.get? (j + 1) = none ∧ j + 1 = es.length ∧
             idxScanBranch K i0 es = .error .keyError))) := by
  intro es
  induction es with
  | nil =>
    intro kvss i0 _ _ hmem
    rw [flattenPairs_nil] at hmem
    cases hmem
  | cons e es' ih =>
    intro kvss i0 hlen hasc hmem
    cases kvss with
    | nil => simp at hlen
    | cons kvsI kvss' =>
      have hlen' : es'.length = kvss'.length := by simpa using hlen
      rw [flattenPairs_cons] at hasc hmem
      obtain ⟨hhead, htail⟩ := ascKV_cons hasc
      rcases List.mem_cons.mp hmem with heq | hmem'
      · injection heq with h1 h2
        left
        refine ⟨0, e, rfl, h1.symm, h2.symm, ?_⟩
        rw [idxScanBranch, if_pos (beq_iff_eq.mpr h1), Nat.add_zero]
      · have heK : bytesLt e.key K = true := hhead (K, V) hmem'
        have hne1 : ¬((K == e.key) = true) := fun hc => by
          rw [beq_iff_eq.mp hc, bytesLt_irrefl] at heK
          cases heK
        have hne2 : ¬(bytesLt K e.key = true) := fun hc => by
          rw [bytesLt_asymm hc] at heK
          cases heK
        rcases List.mem_append.mp hmem' with hmemI | hmemF
        · right
          refine ⟨0, e, kvsI, rfl, rfl, hmemI, heK, ?_⟩
          cases es' with
          | nil =>
            right
            refine ⟨rfl, by simp, ?_⟩
            rw [idxScanBranch, if_neg hne1, if_neg hne2]
            rfl
          | cons e1 es'' =>
            left
            cases kvss' with
            | nil => simp at hlen'
            | cons kvsJ kvss'' =>
              have he1mem : (e1.key, e1.value) ∈ flattenPairs (e1 :: es'') (kvsJ :: kvss'') := by
                rw [flattenPairs_cons]
                exact List.mem_cons_self _ _
              have hKe1 : bytesLt K e1.key = true :=
                ascKV_append_cross htail (K, V) hmemI (e1.key, e1.value) he1mem
              refine ⟨e1, rfl, hKe1, ?_⟩
              have harr : i0 + 0 + 1 = (i0 + 1) + 0 := by omega
              rw [idxScanBranch, if_neg hne1, if_neg hne2, harr]
              exact idxScanBranch_found K (i0 + 1) rfl (Or.inr hKe1)
                (fun j' e' hj' _ => absurd hj' (Nat.not_lt_zero j'))
        · have hascf' : AscKV (flattenPairs es' kvss') :=
            @ascKV_append_right kvsI _ htail
          rcases ih kvss' (i0 + 1) hlen' hascf' hmemF with
            ⟨j, e2, hget, hkey, hval, hscan⟩ | ⟨j, e2, kvsJ, hget, hkvs, hmemJ, hlt2, hinner⟩
          · left
            refine ⟨j + 1, e2, hget, hkey, hval, ?_⟩
            have harr : i0 + (j + 1) = (i0 + 1) + j := by omega
            rw [idxScanBranch, if_neg hne1, if_neg hne2, harr]
            exact hscan
          · right
            refine ⟨j + 1, e2, kvsJ, hget, hkvs, hmemJ, hlt2, ?_⟩
            rcases hinner with ⟨e', hget', hKlt, hscan⟩ | ⟨hnone, hlen2, hscan⟩
            · left
              refine ⟨e', hget', hKlt, ?_⟩
              have harr : i0 + (j + 1) + 1 = (i0 + 1) + j + 1 := by omega
              rw [idxScanBranch, if_neg hne1, if_neg hne2, harr]
              exact hscan
            · right
              refine ⟨hnone, by simp [hlen2], ?_⟩
              rw [idxScanBranch, if_neg hne1, if_neg hne2]
              exact hscan

/-- Exhaustive outcome of the branch scan. -/
theorem idxScanBranch_cases (K : Bytes) :
    ∀ (es : List Entry),
      (∀ e ∈ es, bytesLt e.key K = true) ∨
      (∃ j e, es.get? j = some e ∧ bytesLt e.key K = false ∧
         ∀ j' e', j' < j → es.get? j' = some e' → bytesLt e'.key K = true) := by
  intro es
  induction es with
  | nil => exact Or.inl (fun e he => absurd he (List.not_mem_nil e))
  | cons a es' ih =>
    cases ha : bytesLt a.key K with
    | false =>
      exact Or.inr ⟨0, a, rfl, ha, fun j' e' hj' _ => absurd hj' (Nat.not_lt_zero j')⟩
    | true =>
      rcases ih with hall | ⟨j, e, hget, hfalse, hbefore⟩
      · refine Or.inl ?_
        intro e he
        rcases List.mem_cons.mp he with rfl | he'
        · exact ha
        · exact hall e he'
      · refine Or.inr ⟨j + 1, e, hget, hfalse, ?_⟩
        intro j' e' hj' he'
        cases j' with
        | zero =>
          injection he' with he'
          subst he'
          exact ha
        | succ j'' => exact hbefore j'' e' (by omega) he'

/-- Pairwise order at indices in an ascending list. -/
theorem ascKV_get_lt {l : List KV} (h : AscKV l) {i j : Nat} {x y : KV}
    (hi : l.get? i = some x) (hj : l.get? j = some y) (hij : i < j) : ltKV x y := by
  obtain ⟨hi1, hi2⟩ := List.get?_eq_some.mp hi
  obtain ⟨hj1, hj2⟩ := List.get?_eq_some.mp hj
  have := List.pairwise_iff_get.mp h ⟨i, hi1⟩ ⟨j, hj1⟩ (Fin.mk_lt_mk.mpr hij)
  rwa [hi2, hj2] at this

/-- `find_index` on a leaf page is the exact-match scan. -/
theorem find_index_leaf {p : Page} {K : Bytes} (h : p.ppointer = 0) :
    find_index p K = idxScanLeaf K 0 p.entries := by
  unfold find_index
  rw [is_leaf_true h]
  rfl

/-- `find_index` on a branch page is the least-greater scan. -/
theorem find_index_branch {p : Page} {K : Bytes} (h : p.ppointer ≠ 0) :
    find_index p K = idxScanBranch K 0 p.entries := by
  unfold find_index
  rw [is_leaf_false h]
  rfl

/-- Branch pages are not leaves. -/
theorem not_is_leaf {p : Page} (h : p.ppointer ≠ 0) : ¬(p.is_leaf = true) := by
  rw [is_leaf_false h]
  exact Bool.false_ne_true

/-- Full specification of the exact-match descent on well-formed trees
whose branch pages have at least two entries: a present key is found (the
cursor ends on the stored entry, at its index, in the last page of the
extended path), an absent key raises `KeyError`. -/
theorem exactFindGo_spec {idx : ID0} {hh pn : Nat} {kvs : List KV}
    (hs : SubTree idx 2 pn hh kvs) :
    ∀ (fuel : Nat), hh < fuel → AscKV kvs → ∀ (K : Bytes) (path0 : List Page),
      (∀ V, (K, V) ∈ kvs →
        ∃ (c : Cursor) (p : Page) (i : Nat), exactFindGo idx K fuel path0 pn = .ok c ∧
          c.entry.key = K ∧ c.entry.value = V ∧ c.entry_number = (i : Int) ∧
          c.path.getLast? = some p ∧ p.entries.get? i = some c.entry ∧
          ∃ rest, rest ≠ [] ∧ c.path = path0 ++ rest) ∧
      ((∀ V, (K, V) ∉ kvs) → exactFindGo idx K fuel path0 pn = .error .keyError) := by
  induction hs with
  | leaf pn p h hpage hleaf hne =>
    intro fuel hfuel hasc K path0
    obtain ⟨f, rfl⟩ : ∃ f, fuel = f + 1 := ⟨fuel - 1, by omega⟩
    constructor
    · intro V hmem
      rcases List.mem_map.mp hmem with ⟨e, hemem, heq⟩
      injection heq with h1 h2
      rcases List.mem_iff_get?.mp hemem with ⟨j, hj⟩
      have hbefore : ∀ j' e', j' < j → p.entries.get? j' = some e' → e'.key ≠ K := by
        intro j' e' hj' he' hkey'
        have hm1 : (p.entries.map fun e => (e.key, e.value)).get? j' =
            some (e'.key, e'.value) := by rw [List.get?_map, he']; rfl
        have hm2 : (p.entries.map fun e => (e.key, e.value)).get? j =
            some (e.key, e.value) := by rw [List.get?_map, hj]; rfl
        have hlt := ascKV_get_lt hasc hm1 hm2 hj'
        rw [ltKV] at hlt
        rw [hkey', h1, bytesLt_irrefl] at hlt
        cases hlt
      have hfi : find_index p K = .ok j := by
        rw [find_index_leaf hleaf]
        simpa using idxScanLeaf_found K 0 hj h1 hbefore
      have hge : p.get_entry ((j : Nat) : Int) = .ok e := get_entry_of_get? hj
      have hred : exactFindGo idx K (f + 1) path0 pn = .ok ⟨path0 ++ [p], e, (j : Int)⟩ := by
        rw [exactFindGo, get_page_ok hpage, except_bind_ok]
        dsimp only
        rw [hfi]
        dsimp only
        rw [hge, except_bind_ok]
        rw [if_pos (beq_iff_eq.mpr h1)]
      exact ⟨⟨path0 ++ [p], e, (j : Int)⟩, p, j, hred, h1, h2, rfl,
        by simp [List.getLast?_concat], hj, ⟨[p], by simp, rfl⟩⟩
    · intro hnot
      have hkeys : ∀ e ∈ p.entries, e.key ≠ K := by
        intro e he hk
        exact hnot e.value (List.mem_map.mpr ⟨e, he, by rw [hk]⟩)
      have hfi : find_index p K = .error .keyError := by
        rw [find_index_leaf hleaf]
        exact idxScanLeaf_none K 0 hkeys
      obtain ⟨elast, hlaste⟩ : ∃ e, p.entries.get? (p.entries.length - 1) = some e := by
        cases hx : p.entries.get? (p.entries.length - 1) with
        | some e => exact ⟨e, rfl⟩
        | none =>
          rw [List.get?_eq_none] at hx
          have := List.length_pos.mpr hne
          omega
      have hge := get_entry_last hne hlaste
      have hbeq : ¬((elast.key == K) = true) := fun hc => by
        obtain ⟨hlt, hget⟩ := List.get?_eq_some.mp hlaste
        exact hkeys elast (hget ▸ List.get_mem _ _ _) (beq_iff_eq.mp hc)
      rw [exactFindGo, get_page_ok hpage, except_bind_ok]
      dsimp only
      rw [hfi]
      dsimp only
      rw [hge, except_bind_ok]
      rw [if_neg hbeq, if_pos (is_leaf_true hleaf)]
  | branch pn p h sub0 kvss hpage hbr hne hminb h0 hlen hch ih0 ihch =>
    intro fuel hfuel hasc K path0
    obtain ⟨f, rfl⟩ : ∃ f, fuel = f + 1 := ⟨fuel - 1, by omega⟩
    have hfr : h < f := by omega
    have hasc0 : AscKV sub0 := ascKV_append_left hasc
    have hascf : AscKV (flattenPairs p.entries kvss) := ascKV_append_right hasc
    have hcross := ascKV_append_cross hasc
    have hlen' : p.entries.length = kvss.length := hlen.symm
    constructor
    · intro V hmem
      rcases List.mem_append.mp hmem with hmem0 | hmemf
      · obtain ⟨e0, he0⟩ : ∃ e0, p.entries.get? 0 = some e0 := by
          cases hp0 : p.entries with
          | nil => exact absurd hp0 hne
          | cons a l => exact ⟨a, rfl⟩
        have he0mem : (e0.key, e0.value) ∈ flattenPairs p.entries kvss :=
          flattenPairs_entry_mem hlen' he0
        have hKe0 : bytesLt K e0.key = true := hcross (K, V) hmem0 (e0.key, e0.value) he0mem
        have hfi : find_index p K = .ok 0 := by
          rw [find_index_branch hbr]
          simpa using idxScanBranch_found K 0 he0 (Or.inr hKe0)
            (fun j' e' hj' _ => absurd hj' (Nat.not_lt_zero j'))
        have hge : p.get_entry ((0 : Nat) : Int) = .ok e0 := get_entry_of_get? he0
        have hbeq : ¬((e0.key == K) = true) := fun hc => by
          rw [beq_iff_eq.mp hc, bytesLt_irrefl] at hKe0
          cases hKe0
        have hred : exactFindGo idx K (f + 1) path0 pn =
            exactFindGo idx K f (path0 ++ [p]) p.ppointer := by
          rw [exactFindGo, get_page_ok hpage, except_bind_ok]
          dsimp only
          rw [hfi]
          dsimp only
          rw [hge, except_bind_ok]
          rw [if_neg hbeq, if_neg (not_is_leaf hbr)]
          rw [if_pos (by decide), except_pure, except_bind_ok]
        rcases (ih0 f hfr hasc0 K (path0 ++ [p])).1 V hmem0 with
          ⟨c, pl, i, hcall, hc1, hc2, hc3, hc4, hc5, rest, hrne, hrpath⟩
        exact ⟨c, pl, i, hred.trans hcall, hc1, hc2, hc3, hc4, hc5, [p] ++ rest,
          by simp, by rw [hrpath, List.append_assoc]⟩
      · rcases branch_locate K V p.entries kvss 0 hlen' hascf hmemf with
          ⟨j, e, hget, hkey, hval, hscan⟩ | ⟨j, e, kvsI, hget, hkvs, hmemI, hltK, hinner⟩
        · have hfi : find_index p K = .ok j := by
            rw [find_index_branch hbr]
            simpa using hscan
          have hge := get_entry_of_get? hget
          have hred : exactFindGo idx K (f + 1) path0 pn =
              .ok ⟨path0 ++ [p], e, (j : Int)⟩ := by
            rw [exactFindGo, get_page_ok hpage, except_bind_ok]
            dsimp only
            rw [hfi]
            dsimp only
            rw [hge, except_bind_ok]
            rw [if_pos (beq_iff_eq.mpr hkey)]
          exact ⟨⟨path0 ++ [p], e, (j : Int)⟩, p, j, hred, hkey, hval, rfl,
            by simp [List.getLast?_concat], hget, ⟨[p], by simp, rfl⟩⟩
        · have hascI : AscKV kvsI := by
            have hdec := flattenPairs_decomp hlen' hget hkvs
            rw [hdec] at hascf
            exact ascKV_append_left ((ascKV_cons (ascKV_append_right hascf)).2)
          rcases hinner with ⟨e', hget', hKe', hscan⟩ | ⟨hnone, hjlen, hscan⟩
          · have hfi : find_index p K = .ok (j + 1) := by
              rw [find_index_branch hbr]
              simpa using hscan
            have hge' := get_entry_of_get? hget'
            have hbeq : ¬((e'.key == K) = true) := fun hc => by
              rw [beq_iff_eq.mp hc, bytesLt_irrefl] at hKe'
              cases hKe'
            have hc0 : ¬((((j + 1 : Nat) : Int) == 0) = true) := fun hc => by
              rw [beq_iff_eq] at hc
              omega
            have hgej : p.get_entry (((j + 1 : Nat) : Int) - 1) = .ok e := by
              have hcast : (((j + 1 : Nat) : Int) - 1) = ((j : Nat) : Int) := by
                push_cast
                ring
              rw [hcast]
              exact get_entry_of_get? hget
            have hred : exactFindGo idx K (f + 1) path0 pn =
                exactFindGo idx K f (path0 ++ [p]) e.page := by
              rw [exactFindGo, get_page_ok hpage, except_bind_ok]
              dsimp only
              rw [hfi]
              dsimp only
              rw [hge', except_bind_ok]
              rw [if_neg hbeq, if_neg (not_is_leaf hbr)]
              rw [if_neg hc0, if_neg Bool.false_ne_true]
              rw [hgej, except_bind_ok]
              rw [except_pure, except_bind_ok]
            rcases (ihch j e kvsI hget hkvs f hfr hascI K (path0 ++ [p])).1 V hmemI with
              ⟨c, pl, i, hcall, hc1, hc2, hc3, hc4, hc5, rest, hrne, hrpath⟩
            exact ⟨c, pl, i, hred.trans hcall, hc1, hc2, hc3, hc4, hc5, [p] ++ rest,
              by simp, by rw [hrpath, List.append_assoc]⟩
          · have hfi : find_index p K = .error .keyError := by
              rw [find_index_branch hbr]
              exact hscan
            obtain ⟨hjlt, _⟩ := List.get?_eq_some.mp hget
            have hjlast : p.entries.length - 1 = j := by omega
            have hgel : p.get_entry ((p.entry_count : Int) - 1) = .ok e :=
              get_entry_last hne (by rw [hjlast]; exact hget)
            have hbeq : ¬((e.key == K) = true) := fun hc => by
              rw [beq_iff_eq.mp hc, bytesLt_irrefl] at hltK
              cases hltK
            have hc0 : ¬(((p.entry_count : Int) - 1 == 0) = true) := fun hc => by
              rw [beq_iff_eq] at hc
              unfold Page.entry_count at hc
              omega
            have hred : exactFindGo idx K (f + 1) path0 pn =
                exactFindGo idx K f (path0 ++ [p]) e.page := by
              rw [exactFindGo, get_page_ok hpage, except_bind_ok]
              dsimp only
              rw [hfi]
              dsimp only
              rw [hgel, except_bind_ok]
              rw [if_neg hbeq, if_neg (not_is_leaf hbr)]
              rw [if_neg hc0, if_pos rfl]
              rw [except_bind_ok, except_pure, except_bind_ok]
            rcases (ihch j e kvsI hget hkvs f hfr hascI K (path0 ++ [p])).1 V hmemI with
              ⟨c, pl, i, hcall, hc1, hc2, hc3, hc4, hc5, rest, hrne, hrpath⟩
            exact ⟨c, pl, i, hred.trans hcall, hc1, hc2, hc3, hc4, hc5, [p] ++ rest,
              by simp, by rw [hrpath, List.append_assoc]⟩
    · intro hnot
      have hnot0 : ∀ V, (K, V) ∉ sub0 := fun V hm => hnot V (List.mem_append.mpr (Or.inl hm))
      have hnotf : ∀ V, (K, V) ∉ flattenPairs p.entries kvss :=
        fun V hm => hnot V (List.mem_append.mpr (Or.inr hm))
      have hnokey : ∀ e ∈ p.entries, e.key ≠ K := by
        intro e he hk
        rcases List.mem_iff_get?.mp he with ⟨j, hj⟩
        exact hnotf e.value (hk ▸ flattenPairs_entry_mem hlen' hj)
      rcases idxScanBranch_cases K p.entries with hall | ⟨j, e, hget, hfalse, hbefore⟩
      · have hfi : find_index p K = .error .keyError := by
          rw [find_index_branch hbr]
          exact idxScanBranch_none K 0 hall
        obtain ⟨elast, hlaste⟩ : ∃ e, p.entries.get? (p.entries.length - 1) = some e := by
          cases hx : p.entries.get? (p.entries.length - 1) with
          | some e => exact ⟨e, rfl⟩
          | none =>
            rw [List.get?_eq_none] at hx
            have := List.length_pos.mpr hne
            omega
        have hgel := get_entry_last hne hlaste
        have hbeq : ¬((elast.key == K) = true) := fun hc => by
          obtain ⟨hlt, hget2⟩ := List.get?_eq_some.mp hlaste
          exact hnokey elast (hget2 ▸ List.get_mem _ _ _) (beq_iff_eq.mp hc)
        have hc0 : ¬(((p.entry_count : Int) - 1 == 0) = true) := fun hc => by
          rw [beq_iff_eq] at hc
          unfold Page.entry_count at hc
          omega
        obtain ⟨kvlast, hkvlast⟩ : ∃ kv, kvss.get? (p.entries.length - 1) = some kv := by
          cases hx : kvss.get? (p.entries.length - 1) with
          | some kv => exact ⟨kv, rfl⟩
          | none =>
            rw [List.get?_eq_none] at hx
            have := List.length_pos.mpr hne
            omega
        have hascL : AscKV kvlast := by
          have hdec := flattenPairs_decomp hlen' hlaste hkvlast
          rw [hdec] at hascf
          exact ascKV_append_left ((ascKV_cons (ascKV_append_right hascf)).2)
        have hnotc : ∀ V, (K, V) ∉ kvlast :=
          fun V hm => hnotf V (flattenPairs_child_mem hlen' hkvlast hm)
        have hred : exactFindGo idx K (f + 1) path0 pn =
            exactFindGo idx K f (path0 ++ [p]) elast.page := by
          rw [exactFindGo, get_page_ok hpage, except_bind_ok]
          dsimp only
          rw [hfi]
          dsimp only
          rw [hgel, except_bind_ok]
          rw [if_neg hbeq, if_neg (not_is_leaf hbr)]
          rw [if_neg hc0, if_pos rfl]
          rw [except_bind_ok, except_pure, except_bind_ok]
        rw [hred]
        exact (ihch (p.entries.length - 1) elast kvlast hlaste hkvlast f hfr hascL K
          (path0 ++ [p])).2 hnotc
      · have hkeyne : e.key ≠ K := by
          obtain ⟨hlt, hget2⟩ := List.get?_eq_some.mp hget
          exact hnokey e (hget2 ▸ List.get_mem _ _ _)
        have hKe : bytesLt K e.key = true := bytesLt_of_not_lt_of_ne hfalse hkeyne
        have hfi : find_index p K = .ok j := by
          rw [find_index_branch hbr]
          simpa using idxScanBranch_found K 0 hget (Or.inr hKe) hbefore
        have hge := get_entry_of_get? hget
        have hbeq : ¬((e.key == K) = true) := fun hc => hkeyne (beq_iff_eq.mp hc)
        cases j with
        | zero =>
          have hred : exactFindGo idx K (f + 1) path0 pn =
              exactFindGo idx K f (path0 ++ [p]) p.ppointer := by
            rw [exactFindGo, get_page_ok hpage, except_bind_ok]
            dsimp only
            rw [hfi]
            dsimp only
            rw [hge, except_bind_ok]
            rw [if_neg hbeq, if_neg (not_is_leaf hbr)]
            rw [if_pos (by decide), except_pure, except_bind_ok]
          rw [hred]
          exact (ih0 f hfr hasc0 K (path0 ++ [p])).2 hnot0
        | succ j' =>
          obtain ⟨hjlt, _⟩ := List.get?_eq_some.mp hget
          obtain ⟨e', hget'⟩ : ∃ e', p.entries.get? j' = some e' := by
            cases hx : p.entries.get? j' with
            | some e' => exact ⟨e', rfl⟩
            | none =>
              rw [List.get?_eq_none] at hx
              omega
          obtain ⟨kvI, hkvI⟩ : ∃ kv, kvss.get? j' = some kv := by
            cases hx : kvss.get? j' with
            | some kv => exact ⟨kv, rfl⟩
            | none =>
              rw [List.get?_eq_none] at hx
              omega
          have hascI : AscKV kvI := by
            have hdec := flattenPairs_decomp hlen' hget' hkvI
            rw [hdec] at hascf
            exact ascKV_append_left ((ascKV_cons (ascKV_append_right hascf)).2)
          have hnotc : ∀ V, (K, V) ∉ kvI :=
            fun V hm => hnotf V (flattenPairs_child_mem hlen' hkvI hm)
          have hc0 : ¬((((j' + 1 : Nat) : Int) == 0) = true) := fun hc => by
            rw [beq_iff_eq] at hc
            omega
          have hgej : p.get_entry (((j' + 1 : Nat) : Int) - 1) = .ok e' := by
            have hcast : (((j' + 1 : Nat) : Int) - 1) = ((j' : Nat) : Int) := by
              push_cast
              ring
            rw [hcast]
            exact get_entry_of_get? hget'
          have hred : exactFindGo idx K (f + 1) path0 pn =
              exactFindGo idx K f (path0 ++ [p]) e'.page := by
            rw [exactFindGo, get_page_ok hpage, except_bind_ok]
            dsimp only
            rw [hfi]
            dsimp only
            rw [hge, except_bind_ok]
            rw [if_neg hbeq, if_neg (not_is_leaf hbr)]
            rw [if_neg hc0, if_neg Bool.false_ne_true]
            rw [hgej, except_bind_ok]
            rw [except_pure, except_bind_ok]
          rw [hred]
          exact (ihch j' e' kvI hget' hkvI f hfr hascI K (path0 ++ [p])).2 hnotc

/-- C5 (counterexample): `exIdxC5` is a well-formed two-level b-tree (its
root branch page has a single entry, as a b-tree root may) holding the key
`[99]`, yet `find([99], EXACT_MATCH)` fails with `KeyError`: the search
reaches the root with `is_largest` set and `entry_number == 0`, and the
`entry_number == 0` arm descends into `ppointer` — the wrong child. -/
theorem c5_counterexample :
    SubTree exIdxC5 1 exIdxC5.root_page 1 exKvsC5 ∧ AscKV exKvsC5 ∧
    ([99], [3]) ∈ exKvsC5 ∧
    ID0.find exIdxC5 5 [99] = .error .keyError := by
  refine ⟨?_, ?_, ?_, ?_⟩
  · have hla : SubTree exIdxC5 1 pageC5root.ppointer 0
        (pageC5a.entries.map fun e => (e.key, e.value)) :=
      SubTree.leaf 2 pageC5a 0 rfl rfl (by decide)
    have hlc : SubTree exIdxC5 1 3 0 (pageC5c.entries.map fun e => (e.key, e.value)) :=
      SubTree.leaf 3 pageC5c 0 rfl rfl (by decide)
    have hb := @SubTree.branch exIdxC5 1 1 pageC5root 0
      (pageC5a.entries.map fun e => (e.key, e.value))
      [pageC5c.entries.map fun e => (e.key, e.value)]
      rfl (by decide) (by decide) (by decide) hla rfl
      (by
        intro i e kv he hkv
        cases i with
        | zero =>
          injection he with he
          injection hkv with hkv
          subst he
          subst hkv
          exact hlc
        | succ n =>
          simp [pageC5root] at he)
    exact hb
  · decide
  · decide
  · rfl

/-- C5 (amended): on a well-formed b-tree all of whose *branch* pages have
at least two entries, `find(K, EXACT_MATCH)` succeeds for every stored
`(K, V)` with a cursor positioned on the stored entry — its key is `K`,
its value is `V`, and the entry sits at the cursor's index in the last
page of the cursor's path (in particular a branch entry is returned
without descending further) — and fails with `KeyError` (NotFound) for
every absent key.  The restriction to branch pages with `≥ 2` entries is
forced by `c5_counterexample`: on a single-entry branch page whose entry
key is below `K`, the `entry_number == 0` arm shadows the `is_largest`
arm and the search descends into the wrong child. -/
theorem c5_exact_match_amended (idx : ID0) (hh : Nat) (kvs : List KV) (K : Bytes)
    (hs : SubTree idx 2 idx.root_page hh kvs) (hasc : AscKV kvs)
    (fuel : Nat) (hf : hh < fuel) :
    (∀ V, (K, V) ∈ kvs →
       ∃ (c : Cursor) (p : Page) (i : Nat), ID0.find idx fuel K = .ok c ∧
         c.entry.key = K ∧ c.entry.value = V ∧ c.entry_number = (i : Int) ∧
         c.path.getLast? = some p ∧ p.entries.get? i = some c.entry) ∧
    ((∀ V, (K, V) ∉ kvs) → ID0.find idx fuel K = .error .keyError) := by
  have h := exactFindGo_spec hs fuel hf hasc K []
  unfold ID0.find
  refine ⟨fun V hm => ?_, h.2⟩
  rcases h.1 V hm with ⟨c, p, i, h1, h2, h3, h4, h5, h6, _⟩
  exact ⟨c, p, i, h1, h2, h3, h4, h5, h6⟩

/-- C5 (witness): on the five-key tree `exIdxW5` (all branch pages have
two entries), searching the branch-entry key `[98]` succeeds with the
stored value. -/
theorem c5_exact_match_amended_witness :
    ∃ (c : Cursor) (p : Page) (i : Nat), ID0.find exIdxW5 3 [98] = .ok c ∧
      c.entry.key = [98] ∧ c.entry.value = [1] ∧ c.entry_number = (i : Int) ∧
      c.path.getLast? = some p ∧ p.entries.get? i = some c.entry := by
  have hlc : SubTree exIdxW5 2 3 0 (pageW5c.entries.map fun e => (e.key, e.value)) :=
    SubTree.leaf 3 pageW5c 0 rfl rfl (by decide)
  have hle : SubTree exIdxW5 2 4 0 (pageW5e.entries.map fun e => (e.key, e.value)) :=
    SubTree.leaf 4 pageW5e 0 rfl rfl (by decide)
  have hla : SubTree exIdxW5 2 pageW5root.ppointer 0
      (pageC5a.entries.map fun e => (e.key, e.value)) :=
    SubTree.leaf 2 pageC5a 0 rfl rfl (by decide)
  have hsub : SubTree exIdxW5 2 exIdxW5.root_page 1 exKvsW5 := by
    have hb := @SubTree.branch exIdxW5 2 1 pageW5root 0
      (pageC5a.entries.map fun e => (e.key, e.value))
      [pageW5c.entries.map fun e => (e.key, e.value),
       pageW5e.entries.map fun e => (e.key, e.value)]
      rfl (by decide) (by decide) (by decide) hla rfl
      (by
        intro i e kv he hkv
        cases i with
        | zero =>
          injection he with he
          injection hkv with hkv
          subst he
          subst hkv
          exact hlc
        | succ n =>
          cases n with
          | zero =>
            injection he with he
            injection hkv with hkv
            subst he
            subst hkv
            exact hle
          | succ m =>
            simp [pageW5root] at he)
    exact hb
  exact (c5_exact_match_amended exIdxW5 1 exKvsW5 [98] hsub (by decide) 3
    (by omega)).1 [1] (by decide)

/-! ## Prefix-match search -/

/-- Helper: an index below the length admits a lookup. -/
theorem get?_exists_of_lt {α : Type} {l : List α} {i : Nat} (h : i < l.length) :
    ∃ x, l.get? i = some x := by
  cases hx : l.get? i with
  | some x => exact ⟨x, rfl⟩
  | none =>
    rw [List.get?_eq_none] at hx
    omega

/-- Entry keys are positionally ascending in an ascending flattening. -/
theorem flatten_entries_asc {es : List Entry} {kvss : List (List KV)}
    (hlen : es.length = kvss.length) (hasc : AscKV (flattenPairs es kvss))
    {j j' : Nat} {ej ej' : Entry} (hjj : j' < j)
    (h1 : es.get? j' = some ej') (h2 : es.get? j = some ej) :
    bytesLt ej'.key ej.key = true := by
  obtain ⟨hjl, _⟩ := List.get?_eq_some.mp h1
  obtain ⟨kvJ, hkvJ⟩ : ∃ kv, kvss.get? j' = some kv := get?_exists_of_lt (by omega)
  have hdec := flattenPairs_decomp hlen h1 hkvJ
  rw [hdec] at hasc
  obtain ⟨hhead, _⟩ := ascKV_cons (ascKV_append_right hasc)
  have hjd : (es.drop (j' + 1)).get? (j - (j' + 1)) = some ej := by
    rw [List.get?_drop]
    have harith : j' + 1 + (j - (j' + 1)) = j := by omega
    rw [harith]
    exact h2
  have hlend : (es.drop (j' + 1)).length = (kvss.drop (j' + 1)).length := by
    simp [hlen]
  have hmem : (ej.key, ej.value) ∈ flattenPairs (es.drop (j' + 1)) (kvss.drop (j' + 1)) :=
    flattenPairs_entry_mem hlend hjd
  exact hhead (ej.key, ej.value) (List.mem_append.mpr (Or.inr hmem))

/-- An entry's key is strictly below every pair of its own child list. -/
theorem flatten_entry_lt_own_child {es : List Entry} {kvss : List (List KV)}
    (hlen : es.length = kvss.length) (hasc : AscKV (flattenPairs es kvss))
    {j : Nat} {ej : Entry} {kvJ : List KV}
    (h1 : es.get? j = some ej) (h2 : kvss.get? j = some kvJ)
    {x : KV} (hx : x ∈ kvJ) : bytesLt ej.key x.1 = true := by
  have hdec := flattenPairs_decomp hlen h1 h2
  rw [hdec] at hasc
  obtain ⟨hhead, _⟩ := ascKV_cons (ascKV_append_right hasc)
  exact hhead x (List.mem_append.mpr (Or.inl hx))

/-- An earlier entry's key is strictly below every pair of a later entry's
child list. -/
theorem flatten_entry_lt_later_child {es : List Entry} {kvss : List (List KV)}
    (hlen : es.length = kvss.length) (hasc : AscKV (flattenPairs es kvss))
    {j' j : Nat} (hjj : j' < j) {ej' : Entry} {kvJ : List KV}
    (h1 : es.get? j' = some ej') (h2 : kvss.get? j = some kvJ)
    {y : KV} (hy : y ∈ kvJ) : bytesLt ej'.key y.1 = true := by
  obtain ⟨hjl, _⟩ := List.get?_eq_some.mp h1
  obtain ⟨kvJ', hkvJ'⟩ : ∃ kv, kvss.get? j' = some kv := get?_exists_of_lt (by omega)
  have hdec := flattenPairs_decomp hlen h1 hkvJ'
  rw [hdec] at hasc
  obtain ⟨hhead, _⟩ := ascKV_cons (ascKV_append_right hasc)
  have hjd : (kvss.drop (j' + 1)).get? (j - (j' + 1)) = some kvJ := by
    rw [List.get?_drop]
    have harith : j' + 1 + (j - (j' + 1)) = j := by omega
    rw [harith]
    exact h2
  have hlend : (es.drop (j' + 1)).length = (kvss.drop (j' + 1)).length := by
    simp [hlen]
  have hmem : y ∈ flattenPairs (es.drop (j' + 1)) (kvss.drop (j' + 1)) :=
    flattenPairs_child_mem hlend hjd hy
  exact hhead y (List.mem_append.mpr (Or.inr hmem))

/-- Pairs of a child list are strictly below every later entry's key. -/
theorem flatten_child_lt_later_entry {es : List Entry} {kvss : List (List KV)}
    (hlen : es.length = kvss.length) (hasc : AscKV (flattenPairs es kvss))
    {j j' : Nat} (hjj : j < j') {ej : Entry} {kvJ : List KV} {ej' : Entry}
    (h1 : es.get? j = some ej) (h2 : kvss.get? j = some kvJ)
    (h3 : es.get? j' = some ej') {x : KV} (hx : x ∈ kvJ) :
    bytesLt x.1 ej'.key = true := by
  have hdec := flattenPairs_decomp hlen h1 h2
  rw [hdec] at hasc
  have htail := (ascKV_cons (ascKV_append_right hasc)).2
  have hjd : (es.drop (j + 1)).get? (j' - (j + 1)) = some ej' := by
    rw [List.get?_drop]
    have harith : j + 1 + (j' - (j + 1)) = j' := by omega
    rw [harith]
    exact h3
  have hlend : (es.drop (j + 1)).length = (kvss.drop (j + 1)).length := by
    simp [hlen]
  have hmem : (ej'.key, ej'.value) ∈ flattenPairs (es.drop (j + 1)) (kvss.drop (j + 1)) :=
    flattenPairs_entry_mem hlend hjd
  exact ascKV_append_cross htail x hx (ej'.key, ej'.value) hmem

/-- Pairs of an earlier child list are strictly below pairs of a later
child list. -/
theorem flatten_child_lt_later_child {es : List Entry} {kvss : List (List KV)}
    (hlen : es.length = kvss.length) (hasc : AscKV (flattenPairs es kvss))
    {i j : Nat} (hij : i < j) {ei : Entry} {kvI kvJ : List KV}
    (h1 : es.get? i = some ei) (h2 : kvss.get? i = some kvI)
    (h3 : kvss.get? j = some kvJ) {x y : KV} (hx : x ∈ kvI) (hy : y ∈ kvJ) :
    bytesLt x.1 y.1 = true := by
  have hdec := flattenPairs_decomp hlen h1 h2
  rw [hdec] at hasc
  have htail := (ascKV_cons (ascKV_append_right hasc)).2
  have hjd : (kvss.drop (i + 1)).get? (j - (i + 1)) = some kvJ := by
    rw [List.get?_drop]
    have harith : i + 1 + (j - (i + 1)) = j := by omega
    rw [harith]
    exact h3
  have hlend : (es.drop (i + 1)).length = (kvss.drop (i + 1)).length := by
    simp [hlen]
  have hmem : y ∈ flattenPairs (es.drop (i + 1)) (kvss.drop (i + 1)) :=
    flattenPairs_child_mem hlend hjd hy
  exact ascKV_append_cross htail x hx y hmem

/-- Inversion for `StoredInBranch`. -/
theorem sib_inv {idx : ID0} {pn : Nat} {K : Bytes} (h : StoredInBranch idx pn K) :
    ∃ p, idx.pages pn = some p ∧ p.ppointer ≠ 0 ∧
      ((∃ e ∈ p.entries, e.key = K) ∨ StoredInBranch idx p.ppointer K ∨
       (∃ e ∈ p.entries, StoredInBranch idx e.page K)) := by
  cases h with
  | here pn p K hpage hbr he => exact ⟨p, hpage, hbr, Or.inl he⟩
  | viaPP pn p K hpage hbr hrec => exact ⟨p, hpage, hbr, Or.inr (Or.inl hrec)⟩
  | viaEntry pn p e K hpage hbr he hrec => exact ⟨p, hpage, hbr, Or.inr (Or.inr ⟨e, he, hrec⟩)⟩

/-- A key held by a reachable branch entry occurs in the sub-tree's
sequence. -/
theorem sib_mem {idx : ID0} {minb : Nat} {K : Bytes} :
    ∀ {pn : Nat}, StoredInBranch idx pn K →
      ∀ {h : Nat} {kvs : List KV}, SubTree idx minb pn h kvs → ∃ V, (K, V) ∈ kvs := by
  intro pn hsib
  induction hsib with
  | here pn p K hpage hbr he =>
    intro h kvs hs
    cases hs with
    | leaf pn p2 h hpage2 hleaf hne =>
      rw [hpage] at hpage2
      injection hpage2 with hp2
      subst hp2
      exact absurd hleaf hbr
    | branch pn p2 h sub0 kvss hpage2 hbr2 hne hminb h0 hlen hch =>
      rw [hpage] at hpage2
      injection hpage2 with hp2
      subst hp2
      rcases he with ⟨e, hemem, hekey⟩
      rcases List.mem_iff_get?.mp hemem with ⟨j, hj⟩
      refine ⟨e.value, List.mem_append.mpr (Or.inr ?_)⟩
      rw [← hekey]
      exact flattenPairs_entry_mem hlen.symm hj
  | viaPP pn p K hpage hbr hrec ih =>
    intro h kvs hs
    cases hs with
    | leaf pn p2 h hpage2 hleaf hne =>
      rw [hpage] at hpage2
      injection hpage2 with hp2
      subst hp2
      exact absurd hleaf hbr
    | branch pn p2 h sub0 kvss hpage2 hbr2 hne hminb h0 hlen hch =>
      rw [hpage] at hpage2
      injection hpage2 with hp2
      subst hp2
      rcases ih h0 with ⟨V, hV⟩
      exact ⟨V, List.mem_append.mpr (Or.inl hV)⟩
  | viaEntry pn p e K hpage hbr he hrec ih =>
    intro h kvs hs
    cases hs with
    | leaf pn p2 h hpage2 hleaf hne =>
      rw [hpage] at hpage2
      injection hpage2 with hp2
      subst hp2
      exact absurd hleaf hbr
    | branch pn p2 h sub0 kvss hpage2 hbr2 hne hminb h0 hlen hch =>
      rw [hpage] at hpage2
      injection hpage2 with hp2
      subst hp2
      rcases List.mem_iff_get?.mp he with ⟨j, hj⟩
      obtain ⟨hjl, _⟩ := List.get?_eq_some.mp hj
      obtain ⟨kvJ, hkvJ⟩ : ∃ kv, kvss.get? j = some kv :=
        get?_exists_of_lt (by omega)
      rcases ih (hch j e kvJ hj hkvJ) with ⟨V, hV⟩
      exact ⟨V, List.mem_append.mpr (Or.inr (flattenPairs_child_mem hlen.symm hkvJ hV))⟩

/-- The head of a filtered ascending list is its least matching element. -/
theorem filter_head_min {l : List KV} (hasc : AscKV l) {P : KV → Bool} {m : KV} {r : List KV}
    (hf : l.filter P = m :: r) :
    m ∈ l ∧ P m = true ∧ ∀ x ∈ l, P x = true → x = m ∨ ltKV m x := by
  induction l with
  | nil => simp at hf
  | cons a l' ih =>
    obtain ⟨hhead, htail⟩ := ascKV_cons hasc
    cases hPa : P a with
    | true =>
      rw [List.filter_cons, if_pos hPa] at hf
      injection hf with h1 h2
      subst h1
      refine ⟨List.mem_cons_self _ _, hPa, ?_⟩
      intro x hx hPx
      rcases List.mem_cons.mp hx with rfl | hx'
      · exact Or.inl rfl
      · exact Or.inr (hhead x hx')
    | false =>
      rw [List.filter_cons, if_neg (by simp [hPa])] at hf
      rcases ih htail hf with ⟨h1, h2, h3⟩
      refine ⟨List.mem_cons_of_mem _ h1, h2, ?_⟩
      intro x hx hPx
      rcases List.mem_cons.mp hx with rfl | hx'
      · rw [hPa] at hPx
        cases hPx
      · exact h3 x hx' hPx

/-- A matching element least among the matches heads the filtered list. -/
theorem filter_head_of_min {l : List KV} (hasc : AscKV l) {P : KV → Bool} {m : KV}
    (hm : m ∈ l) (hP : P m = true)
    (hmin : ∀ x ∈ l, P x = true → x = m ∨ ltKV m x) :
    ∃ r, l.filter P = m :: r := by
  induction l with
  | nil => cases hm
  | cons a l' ih =>
    obtain ⟨hhead, htail⟩ := ascKV_cons hasc
    rcases List.mem_cons.mp hm with rfl | hm'
    · exact ⟨l'.filter P, by rw [List.filter_cons, if_pos hP]⟩
    · have hPa : P a = false := by
        cases hPa : P a with
        | false => rfl
        | true =>
          exfalso
          rcases hmin a (List.mem_cons_self _ _) hPa with heq | hlt
          · subst heq
            have hc := hhead _ hm'
            rw [ltKV, bytesLt_irrefl] at hc
            cases hc
          · have h2 := hhead m hm'
            rw [ltKV] at hlt h2
            rw [bytesLt_asymm h2] at hlt
            cases hlt
      rw [List.filter_cons, if_neg (by simp [hPa])]
      exact ih htail hm' (fun x hx hPx => hmin x (List.mem_cons_of_mem _ hx) hPx)

/-- Any stored pair strictly below the least match is strictly below the
searched key. -/
theorem lt_K_of_lt_min {kvs : List KV} {K : Bytes} {m : KV}
    (hmP : K.isPrefixOf m.1 = true)
    (hmin : ∀ x ∈ kvs, K.isPrefixOf x.1 = true → x = m ∨ ltKV m x)
    {x : KV} (hx : x ∈ kvs) (hlt : bytesLt x.1 m.1 = true) :
    bytesLt x.1 K = true := by
  cases hc : bytesLt x.1 K with
  | true => rfl
  | false =>
    exfalso
    have hpx : K.isPrefixOf x.1 = true := isPrefixOf_of_between hmP hc hlt
    rcases hmin x hx hpx with rfl | hmlt
    · rw [bytesLt_irrefl] at hlt
      cases hlt
    · rw [ltKV] at hmlt
      rw [bytesLt_asymm hmlt] at hlt
      cases hlt

/-- The prefix leaf scan finds the first matching entry. -/
theorem prefixLeafScan_found : ∀ {es : List Entry} {j : Nat} {e : Entry}
    (path : List Page) (K : Bytes) (i : Nat),
    es.get? j = some e → K.isPrefixOf e.key = true →
    (∀ j' e', j' < j → es.get? j' = some e' → bytesLt e'.key K = true) →
    prefixLeafScan path K i es = .ok ⟨path, e, ((i + j : Nat) : Int)⟩ := by
  intro es
  induction es with
  | nil =>
    intro j e path K i h _ _
    simp at h
  | cons a es' ih =>
    intro j e path K i h hp hb
    cases j with
    | zero =>
      injection h with h
      subst h
      rw [prefixLeafScan, if_pos hp, Nat.add_zero]
    | succ j' =>
      have hlt := hb 0 a (Nat.succ_pos j') rfl
      have hnp : ¬(K.isPrefixOf a.key = true) := fun hc => by
        rw [bytesLt_isPrefixOf_false hc] at hlt
        cases hlt
      have hnlt : ¬(bytesLt K a.key = true) := fun hc => by
        rw [bytesLt_asymm hc] at hlt
        cases hlt
      rw [prefixLeafScan, if_neg hnp, if_neg hnlt]
      have harith : i + (j' + 1) = (i + 1) + j' := by omega
      rw [harith]
      exact ih path K (i + 1) h hp (fun j'' e'' hj'' he'' => hb (j'' + 1) e'' (by omega) he'')

/-- The prefix leaf scan fails when no entry key starts with `K`. -/
theorem prefixLeafScan_none : ∀ {es : List Entry} (path : List Page) (K : Bytes) (i : Nat),
    (∀ e ∈ es, K.isPrefixOf e.key = false) →
    prefixLeafScan path K i es = .error .keyError := by
  intro es
  induction es with
  | nil =>
    intro path K i _
    rfl
  | cons a es' ih =>
    intro path K i hall
    have hnp : ¬(K.isPrefixOf a.key = true) := by
      simp [hall a (List.mem_cons_self _ _)]
    rw [prefixLeafScan, if_neg hnp]
    cases hlt : bytesLt K a.key with
    | true => rw [if_pos rfl]
    | false =>
      rw [if_neg (by simp)]
      exact ih path K (i + 1) (fun e he => hall e (List.mem_cons_of_mem _ he))

/-- The prefix branch scan stops on an exact entry match. -/
theorem prefixBranchScan_exact : ∀ {es : List Entry} {j : Nat} {e : Entry}
    (path : List Page) (K : Bytes) (i np : Nat),
    es.get? j = some e → e.key = K →
    (∀ j' e', j' < j → es.get? j' = some e' → bytesLt e'.key K = true) →
    prefixBranchScan path K i np es = .inl ⟨path, e, ((i + j : Nat) : Int)⟩ := by
  intro es
  induction es with
  | nil =>
    intro j e path K i np h _ _
    simp at h
  | cons a es' ih =>
    intro j e path K i np h hk hb
    cases j with
    | zero =>
      injection h with h
      subst h
      rw [prefixBranchScan, if_pos (beq_iff_eq.mpr hk), Nat.add_zero]
    | succ j' =>
      have hlt := hb 0 a (Nat.succ_pos j') rfl
      have hne1 : ¬((a.key == K) = true) := fun hc => by
        rw [beq_iff_eq.mp hc, bytesLt_irrefl] at hlt
        cases hlt
      have hnp : ¬(K.isPrefixOf a.key = true) := fun hc => by
        rw [bytesLt_isPrefixOf_false hc] at hlt
        cases hlt
      have hnlt : ¬(bytesLt K a.key = true) := fun hc => by
        rw [bytesLt_asymm hc] at hlt
        cases hlt
      rw [prefixBranchScan, if_neg hne1, if_neg hnp, if_neg hnlt]
      have harith : i + (j' + 1) = (i + 1) + j' := by omega
      rw [harith]
      exact ih path K (i + 1) a.page h hk (fun j'' e'' hj'' he'' => hb (j'' + 1) e'' (by omega) he'')

/-- The prefix branch scan descends when it meets an entry that is not an
exact match but starts with `K` or exceeds `K`: into the initial
`next_page` when that entry is first, else into the previous entry's
child. -/
theorem prefixBranchScan_stop : ∀ {es : List Entry} {j : Nat} {e : Entry}
    (path : List Page) (K : Bytes) (i np : Nat),
    es.get? j = some e → e.key ≠ K →
    (K.isPrefixOf e.key = true ∨ bytesLt K e.key = true) →
    (∀ j' e', j' < j → es.get? j' = some e' → bytesLt e'.key K = true) →
    (j = 0 ∧ prefixBranchScan path K i np es = .inr np) ∨
    (∃ j0 e0, j = j0 + 1 ∧ es.get? j0 = some e0 ∧
       prefixBranchScan path K i np es = .inr e0.page) := by
  intro es
  induction es with
  | nil =>
    intro j e path K i np h _ _ _
    simp at h
  | cons a es' ih =>
    intro j e path K i np h hne hstop hb
    cases j with
    | zero =>
      injection h with h
      subst h
      left
      refine ⟨rfl, ?_⟩
      rw [prefixBranchScan, if_neg (fun hc => hne (beq_iff_eq.mp hc))]
      cases hp : K.isPrefixOf a.key with
      | true => rw [if_pos rfl]
      | false =>
        have hlt : bytesLt K a.key = true := by
          rcases hstop with h1 | h1
          · rw [hp] at h1
            cases h1
          · exact h1
        rw [if_neg (by simp), if_pos hlt]
    | succ j' =>
      have hlt := hb 0 a (Nat.succ_pos j') rfl
      have hne1 : ¬((a.key == K) = true) := fun hc => by
        rw [beq_iff_eq.mp hc, bytesLt_irrefl] at hlt
        cases hlt
      have hnp : ¬(K.isPrefixOf a.key = true) := fun hc => by
        rw [bytesLt_isPrefixOf_false hc] at hlt
        cases hlt
      have hnlt : ¬(bytesLt K a.key = true) := fun hc => by
        rw [bytesLt_asymm hc] at hlt
        cases hlt
      rw [prefixBranchScan, if_neg hne1, if_neg hnp, if_neg hnlt]
      rcases ih path K (i + 1) a.page h hne hstop
          (fun j'' e'' hj'' he'' => hb (j'' + 1) e'' (by omega) he'') with
        ⟨hj0, hres⟩ | ⟨j0, e0, hjeq, hg0, hres⟩
      · right
        exact ⟨0, a, by rw [hj0], rfl, hres⟩
      · right
        exact ⟨j0 + 1, e0, by rw [hjeq], hg0, hres⟩

/-- The prefix branch scan descends into the last entry's child (or the
initial `next_page` when there are no entries) when every entry key is
below `K`. -/
theorem prefixBranchScan_exhaust : ∀ {es : List Entry} (path : List Page)
    (K : Bytes) (i np : Nat),
    (∀ e ∈ es, bytesLt e.key K = true) →
    (es = [] ∧ prefixBranchScan path K i np es = .inr np) ∨
    (∃ j0 e0, es.get? j0 = some e0 ∧ j0 + 1 = es.length ∧
       prefixBranchScan path K i np es = .inr e0.page) := by
  intro es
  induction es with
  | nil =>
    intro path K i np _
    exact Or.inl ⟨rfl, rfl⟩
  | cons a es' ih =>
    intro path K i np hall
    have hlt := hall a (List.mem_cons_self _ _)
    have hne1 : ¬((a.key == K) = true) := fun hc => by
      rw [beq_iff_eq.mp hc, bytesLt_irrefl] at hlt
      cases hlt
    have hnp : ¬(K.isPrefixOf a.key = true) := fun hc => by
      rw [bytesLt_isPrefixOf_false hc] at hlt
      cases hlt
    have hnlt : ¬(bytesLt K a.key = true) := fun hc => by
      rw [bytesLt_asymm hc] at hlt
      cases hlt
    have hred : prefixBranchScan path K i np (a :: es') =
        prefixBranchScan path K (i + 1) a.page es' := by
      rw [prefixBranchScan, if_neg hne1, if_neg hnp, if_neg hnlt]
    rcases ih path K (i + 1) a.page (fun e he => hall e (List.mem_cons_of_mem _ he)) with
      ⟨hnil, hres⟩ | ⟨j0, e0, hg0, hlen0, hres⟩
    · right
      refine ⟨0, a, rfl, by simp [hnil], hred.trans hres⟩
    · right
      refine ⟨j0 + 1, e0, hg0, ?_, hred.trans hres⟩
      simp only [List.length_cons]
      omega

/-- Full specification of the prefix-match descent on well-formed trees:
when no stored key starts with `K` the search fails with `KeyError`; when
`m` heads the matches of the in-order sequence, the search returns a
cursor on the stored entry for `m` provided `m.1 = K` or `m.1` is not
held by a branch entry; but when `m.1 ≠ K` is held by a branch entry, the
search descends into the child left of that entry and fails with
`KeyError` even though a match is stored. -/
theorem prefixFindGo_spec {idx : ID0} {hh pn : Nat} {kvs : List KV}
    (hs : SubTree idx 0 pn hh kvs) :
    ∀ (fuel : Nat), hh < fuel → AscKV kvs → ∀ (K : Bytes) (path0 : List Page),
      ((∀ kv ∈ kvs, K.isPrefixOf kv.1 = false) →
         prefixFindGo idx K fuel path0 pn = .error .keyError) ∧
      (∀ m mrest, kvs.filter (fun kv => K.isPrefixOf kv.1) = m :: mrest →
        ((m.1 = K ∨ ¬ StoredInBranch idx pn m.1) →
           ∃ (c : Cursor) (p : Page) (i : Nat),
             prefixFindGo idx K fuel path0 pn = .ok c ∧
             c.entry.key = m.1 ∧ c.entry.value = m.2 ∧ c.entry_number = (i : Int) ∧
             c.path.getLast? = some p ∧ p.entries.get? i = some c.entry ∧
             ∃ rest, rest ≠ [] ∧ c.path = path0 ++ rest) ∧
        (m.1 ≠ K → StoredInBranch idx pn m.1 →
           prefixFindGo idx K fuel path0 pn = .error .keyError)) := by
  induction hs with
  | leaf pn p h hpage hleaf hne =>
    intro fuel hfuel hasc K path0
    obtain ⟨f, rfl⟩ : ∃ f, fuel = f + 1 := ⟨fuel - 1, by omega⟩
    have hred : prefixFindGo idx K (f + 1) path0 pn =
        prefixLeafScan (path0 ++ [p]) K 0 p.entries := by
      rw [prefixFindGo, get_page_ok hpage, except_bind_ok]
      dsimp only
      rw [if_pos (is_leaf_true hleaf)]
      rfl
    constructor
    · intro hnone
      have hkeys : ∀ e ∈ p.entries, K.isPrefixOf e.key = false := fun e he =>
        hnone (e.key, e.value) (List.mem_map.mpr ⟨e, he, rfl⟩)
      rw [hred]
      exact prefixLeafScan_none (path0 ++ [p]) K 0 hkeys
    · intro m mrest hfilter
      obtain ⟨hmmem, hmP, hmin⟩ := filter_head_min hasc hfilter
      rcases List.mem_map.mp hmmem with ⟨e, hemem, heq⟩
      obtain ⟨hek, hev⟩ : e.key = m.1 ∧ e.value = m.2 := by
        rw [← heq]
        exact ⟨rfl, rfl⟩
      rcases List.mem_iff_get?.mp hemem with ⟨j, hj⟩
      have hbefore : ∀ j' e', j' < j → p.entries.get? j' = some e' →
          bytesLt e'.key K = true := by
        intro j' e' hj' he'
        have hm1 : (p.entries.map fun e => (e.key, e.value)).get? j' =
            some (e'.key, e'.value) := by
          rw [List.get?_map, he']
          rfl
        have hm2 : (p.entries.map fun e => (e.key, e.value)).get? j =
            some (e.key, e.value) := by
          rw [List.get?_map, hj]
          rfl
        have hlt := ascKV_get_lt hasc hm1 hm2 hj'
        rw [ltKV] at hlt
        rw [hek] at hlt
        exact lt_K_of_lt_min hmP hmin
          (List.mem_map.mpr ⟨e', List.get?_mem he', rfl⟩) hlt
      have hscan := prefixLeafScan_found (path0 ++ [p]) K 0 hj
        (by rw [hek]; exact hmP) hbefore
      constructor
      · intro _
        refine ⟨⟨path0 ++ [p], e, ((0 + j : Nat) : Int)⟩, p, j, ?_, hek, hev, by simp,
          by simp [List.getLast?_concat], hj, ⟨[p], by simp, rfl⟩⟩
        rw [hred]
        exact hscan
      · intro hneK hsib
        exfalso
        obtain ⟨p2, hpage2, hbr2, _⟩ := sib_inv hsib
        rw [hpage] at hpage2
        injection hpage2 with hp2
        subst hp2
        exact hbr2 hleaf
  | branch pn p h sub0 kvss hpage hbr hne hminb h0 hlen hch ih0 ihch =>
    intro fuel hfuel hasc K path0
    obtain ⟨f, rfl⟩ : ∃ f, fuel = f + 1 := ⟨fuel - 1, by omega⟩
    have hfr : h < f := by omega
    have hasc0 : AscKV sub0 := ascKV_append_left hasc
    have hascf : AscKV (flattenPairs p.entries kvss) := ascKV_append_right hasc
    have hcross := ascKV_append_cross hasc
    have hlen' : p.entries.length = kvss.length := hlen.symm
    have hstep : prefixFindGo idx K (f + 1) path0 pn =
        match prefixBranchScan (path0 ++ [p]) K 0 p.ppointer p.entries with
        | .inl c => .ok c
        | .inr next_page => prefixFindGo idx K f (path0 ++ [p]) next_page := by
      rw [prefixFindGo, get_page_ok hpage, except_bind_ok]
      dsimp only
      rw [if_neg (not_is_leaf hbr)]
      rfl
    have hascChild : ∀ {j : Nat} {ej : Entry} {kvJ : List KV},
        p.entries.get? j = some ej → kvss.get? j = some kvJ → AscKV kvJ := by
      intro j ej kvJ hj hkvJ
      have hdec := flattenPairs_decomp hlen' hj hkvJ
      have hascf2 := hascf
      rw [hdec] at hascf2
      exact ascKV_append_left ((ascKV_cons (ascKV_append_right hascf2)).2)
    constructor
    · intro hnone
      have hnoneF : ∀ kv ∈ flattenPairs p.entries kvss, K.isPrefixOf kv.1 = false :=
        fun kv hkv => hnone kv (List.mem_append.mpr (Or.inr hkv))
      rcases idxScanBranch_cases K p.entries with hall | ⟨j, e, hget, hgeK, hbefore⟩
      · rcases prefixBranchScan_exhaust (path0 ++ [p]) K 0 p.ppointer hall with
          ⟨hnil, _⟩ | ⟨j0, e0, hg0, hlast, hres⟩
        · exact absurd hnil hne
        · obtain ⟨hjl, _⟩ := List.get?_eq_some.mp hg0
          obtain ⟨kv0, hkv0⟩ : ∃ kv, kvss.get? j0 = some kv := get?_exists_of_lt (by omega)
          have hnone0 : ∀ kv ∈ kv0, K.isPrefixOf kv.1 = false := fun kv hkv =>
            hnoneF kv (flattenPairs_child_mem hlen' hkv0 hkv)
          rw [hstep, hres]
          exact (ihch j0 e0 kv0 hg0 hkv0 f hfr (hascChild hg0 hkv0) K (path0 ++ [p])).1 hnone0
      · have hneK : e.key ≠ K := by
          intro hc
          have hpair : ((e.key, e.value) : KV) ∈ sub0 ++ flattenPairs p.entries kvss :=
            List.mem_append.mpr (Or.inr (flattenPairs_entry_mem hlen' hget))
          have hfls := hnone (e.key, e.value) hpair
          rw [hc, isPrefixOf_refl] at hfls
          cases hfls
        have hKlt : bytesLt K e.key = true := bytesLt_of_not_lt_of_ne hgeK hneK
        rcases prefixBranchScan_stop (path0 ++ [p]) K 0 p.ppointer hget hneK
            (Or.inr hKlt) hbefore with ⟨_, hres⟩ | ⟨j0, e0, hjeq, hg0, hres⟩
        · have hnone0 : ∀ kv ∈ sub0, K.isPrefixOf kv.1 = false := fun kv hkv =>
            hnone kv (List.mem_append.mpr (Or.inl hkv))
          rw [hstep, hres]
          exact (ih0 f hfr hasc0 K (path0 ++ [p])).1 hnone0
        · obtain ⟨hjl, _⟩ := List.get?_eq_some.mp hg0
          obtain ⟨kv0, hkv0⟩ : ∃ kv, kvss.get? j0 = some kv := get?_exists_of_lt (by omega)
          have hnone0 : ∀ kv ∈ kv0, K.isPrefixOf kv.1 = false := fun kv hkv =>
            hnoneF kv (flattenPairs_child_mem hlen' hkv0 hkv)
          rw [hstep, hres]
          exact (ihch j0 e0 kv0 hg0 hkv0 f hfr (hascChild hg0 hkv0) K (path0 ++ [p])).1 hnone0
    · intro m mrest hfilter
      obtain ⟨hmmem, hmP, hmin⟩ := filter_head_min hasc hfilter
      have hmKfalse : bytesLt m.1 K = false := bytesLt_isPrefixOf_false hmP
      by_cases hex : ∃ e ∈ p.entries, e.key = K
      · rcases hex with ⟨e, hemem, hekey⟩
        rcases List.mem_iff_get?.mp hemem with ⟨j, hj⟩
        have hpairmem : ((e.key, e.value) : KV) ∈ sub0 ++ flattenPairs p.entries kvss :=
          List.mem_append.mpr (Or.inr (flattenPairs_entry_mem hlen' hj))
        have hpairP : K.isPrefixOf (e.key, e.value).1 = true := by
          show K.isPrefixOf e.key = true
          rw [hekey]
          exact isPrefixOf_refl K
        have hm_eq : m = (e.key, e.value) := by
          rcases hmin (e.key, e.value) hpairmem hpairP with heq | hlt
          · exact heq.symm
          · exfalso
            have hlt2 : bytesLt m.1 e.key = true := hlt
            rw [hekey, hmKfalse] at hlt2
            cases hlt2
        have hbeforeE : ∀ j' e', j' < j → p.entries.get? j' = some e' →
            bytesLt e'.key K = true := by
          intro j' e' hj' he'
          have hasc' := flatten_entries_asc hlen' hascf hj' he' hj
          rw [hekey] at hasc'
          exact hasc'
        have hscan := prefixBranchScan_exact (path0 ++ [p]) K 0 p.ppointer hj hekey hbeforeE
        constructor
        · intro _
          refine ⟨⟨path0 ++ [p], e, ((0 + j : Nat) : Int)⟩, p, j, ?_, ?_, ?_, by simp,
            by simp [List.getLast?_concat], hj, ⟨[p], by simp, rfl⟩⟩
          · rw [hstep, hscan]
          · rw [hm_eq]
          · rw [hm_eq]
        · intro hneK _
          exfalso
          apply hneK
          rw [hm_eq]
          exact hekey
      · push_neg at hex
        rcases List.mem_append.mp hmmem with hm0 | hmf
        · obtain ⟨e0, hg0⟩ : ∃ e0, p.entries.get? 0 = some e0 := by
            cases hp0 : p.entries with
            | nil => exact absurd hp0 hne
            | cons a l => exact ⟨a, rfl⟩
          have hme0 : bytesLt m.1 e0.key = true := by
            have hcr := hcross m hm0 (e0.key, e0.value) (flattenPairs_entry_mem hlen' hg0)
            exact hcr
          have hKe0 : bytesLt K e0.key = true := by
            by_cases hq : K = m.1
            · rw [hq]
              exact hme0
            · exact bytesLt_trans
                (bytesLt_of_not_lt_of_ne hmKfalse (fun hc => hq hc.symm)) hme0
          have hres : prefixBranchScan (path0 ++ [p]) K 0 p.ppointer p.entries =
              .inr p.ppointer := by
            rcases prefixBranchScan_stop (path0 ++ [p]) K 0 p.ppointer hg0
                (hex e0 (List.get?_mem hg0)) (Or.inr hKe0)
                (fun j' e' hj' _ => absurd hj' (Nat.not_lt_zero j')) with
              ⟨_, hres0⟩ | ⟨j0, e0', hjeq, _, _⟩
            · exact hres0
            · exact absurd hjeq (by omega)
          have hmin0 : ∀ x ∈ sub0, K.isPrefixOf x.1 = true → x = m ∨ ltKV m x :=
            fun x hx hPx => hmin x (List.mem_append.mpr (Or.inl hx)) hPx
          obtain ⟨r0, hf0⟩ := filter_head_of_min hasc0 hm0 hmP hmin0
          have hih := (ih0 f hfr hasc0 K (path0 ++ [p])).2 m r0 hf0
          constructor
          · intro hcond
            have hcond' : m.1 = K ∨ ¬ StoredInBranch idx p.ppointer m.1 := by
              rcases hcond with h1 | h1
              · exact Or.inl h1
              · exact Or.inr (fun hsub => h1 (.viaPP pn p m.1 hpage hbr hsub))
            rcases hih.1 hcond' with ⟨c, pl, ii, hcall, hc1, hc2, hc3, hc4, hc5, rest, hrne, hrpath⟩
            refine ⟨c, pl, ii, ?_, hc1, hc2, hc3, hc4, hc5, [p] ++ rest, by simp,
              by rw [hrpath, List.append_assoc]⟩
            rw [hstep, hres]
            exact hcall
          · intro hneK hsib
            have hsibPP : StoredInBranch idx p.ppointer m.1 := by
              obtain ⟨p2, hpage2, hbr2, hcases⟩ := sib_inv hsib
              rw [hpage] at hpage2
              injection hpage2 with hp2
              subst hp2
              rcases hcases with ⟨e', he'mem, he'key⟩ | hpp | ⟨e', he'mem, hrec⟩
              · exfalso
                rcases List.mem_iff_get?.mp he'mem with ⟨j', hj'⟩
                have hcr := hcross m hm0 (e'.key, e'.value)
                  (flattenPairs_entry_mem hlen' hj')
                have hc2 : bytesLt m.1 e'.key = true := hcr
                rw [he'key, bytesLt_irrefl] at hc2
                cases hc2
              · exact hpp
              · exfalso
                rcases List.mem_iff_get?.mp he'mem with ⟨j', hj'⟩
                obtain ⟨hjl', _⟩ := List.get?_eq_some.mp hj'
                obtain ⟨kv', hkv'⟩ : ∃ kv, kvss.get? j' = some kv :=
                  get?_exists_of_lt (by omega)
                rcases sib_mem hrec (hch j' e' kv' hj' hkv') with ⟨V', hV'⟩
                have hcr := hcross m hm0 (m.1, V')
                  (flattenPairs_child_mem hlen' hkv' hV')
                have hc2 : bytesLt m.1 m.1 = true := hcr
                rw [bytesLt_irrefl] at hc2
                cases hc2
            rw [hstep, hres]
            exact hih.2 hneK hsibPP
        · rcases mem_flattenPairs hlen' hmf with ⟨i, e, kvI, hgi, hkvI, hloc⟩
          rcases hloc with heqm | hmemI
          · obtain ⟨hek, hev⟩ : m.1 = e.key ∧ m.2 = e.value := by
              rw [heqm]
              exact ⟨rfl, rfl⟩
            have hm1ne : m.1 ≠ K := by
              rw [hek]
              exact hex e (List.get?_mem hgi)
            have hsibHere : StoredInBranch idx pn m.1 :=
              .here pn p m.1 hpage hbr ⟨e, List.get?_mem hgi, hek.symm⟩
            have hbeforeE : ∀ j' e', j' < i → p.entries.get? j' = some e' →
                bytesLt e'.key K = true := by
              intro j' e' hj' he'
              have hlt : bytesLt e'.key m.1 = true := by
                have hasc' := flatten_entries_asc hlen' hascf hj' he' hgi
                rw [← hek] at hasc'
                exact hasc'
              exact lt_K_of_lt_min hmP hmin
                (List.mem_append.mpr (Or.inr (flattenPairs_entry_mem hlen' he'))) hlt
            have hKpe : K.isPrefixOf e.key = true := by
              rw [← hek]
              exact hmP
            constructor
            · intro hcond
              exfalso
              rcases hcond with h1 | h1
              · exact hm1ne h1
              · exact h1 hsibHere
            · intro hneK hsib
              rcases prefixBranchScan_stop (path0 ++ [p]) K 0 p.ppointer hgi
                  (hex e (List.get?_mem hgi)) (Or.inl hKpe) hbeforeE with
                ⟨hi0, hres⟩ | ⟨j0, e0, hjeq, hg0, hres⟩
              · subst hi0
                have hnone0 : ∀ kv ∈ sub0, K.isPrefixOf kv.1 = false := by
                  intro x hx
                  cases hq : K.isPrefixOf x.1 with
                  | false => rfl
                  | true =>
                    exfalso
                    have hxkvs : x ∈ sub0 ++ flattenPairs p.entries kvss :=
                      List.mem_append.mpr (Or.inl hx)
                    have hxm : bytesLt x.1 m.1 = true := hcross x hx m hmf
                    rcases hmin x hxkvs hq with rfl | hlt
                    · rw [bytesLt_irrefl] at hxm
                      cases hxm
                    · have h1 : bytesLt m.1 x.1 = true := hlt
                      rw [bytesLt_asymm h1] at hxm
                      cases hxm
                rw [hstep, hres]
                exact (ih0 f hfr hasc0 K (path0 ++ [p])).1 hnone0
              · obtain ⟨hjl, _⟩ := List.get?_eq_some.mp hg0
                obtain ⟨kv0, hkv0⟩ : ∃ kv, kvss.get? j0 = some kv :=
                  get?_exists_of_lt (by omega)
                have hj0i : j0 < i := by omega
                have hnone0 : ∀ kv ∈ kv0, K.isPrefixOf kv.1 = false := by
                  intro x hx
                  cases hq : K.isPrefixOf x.1 with
                  | false => rfl
                  | true =>
                    exfalso
                    have hxm1 : bytesLt x.1 m.1 = true := by
                      have hfc := flatten_child_lt_later_entry hlen' hascf hj0i hg0 hkv0 hgi hx
                      rw [← hek] at hfc
                      exact hfc
                    have hxkvs : x ∈ sub0 ++ flattenPairs p.entries kvss :=
                      List.mem_append.mpr (Or.inr (flattenPairs_child_mem hlen' hkv0 hx))
                    rcases hmin x hxkvs hq with rfl | hlt
                    · rw [bytesLt_irrefl] at hxm1
                      cases hxm1
                    · have h1 : bytesLt m.1 x.1 = true := hlt
                      rw [bytesLt_asymm h1] at hxm1
                      cases hxm1
                rw [hstep, hres]
                exact (ihch j0 e0 kv0 hg0 hkv0 f hfr (hascChild hg0 hkv0) K (path0 ++ [p])).1 hnone0
          · have hei_lt : bytesLt e.key m.1 = true :=
              flatten_entry_lt_own_child hlen' hascf hgi hkvI hmemI
            have hbeforeLe : ∀ j' e', j' ≤ i → p.entries.get? j' = some e' →
                bytesLt e'.key K = true := by
              intro j' e' hj' he'
              have hlt : bytesLt e'.key m.1 = true := by
                rcases Nat.lt_or_ge j' i with h1 | h1
                · exact flatten_entry_lt_later_child hlen' hascf h1 he' hkvI hmemI
                · have hji : j' = i := by omega
                  subst hji
                  rw [he'] at hgi
                  injection hgi with hh
                  subst hh
                  exact hei_lt
              exact lt_K_of_lt_min hmP hmin
                (List.mem_append.mpr (Or.inr (flattenPairs_entry_mem hlen' he'))) hlt
            have hscanRes : prefixBranchScan (path0 ++ [p]) K 0 p.ppointer p.entries =
                .inr e.page := by
              cases hnext : p.entries.get? (i + 1) with
              | some e' =>
                have hm_e' : bytesLt m.1 e'.key = true :=
                  flatten_child_lt_later_entry hlen' hascf (Nat.lt_succ_self i)
                    hgi hkvI hnext hmemI
                have hKe' : bytesLt K e'.key = true := by
                  by_cases hq : K = m.1
                  · rw [hq]
                    exact hm_e'
                  · exact bytesLt_trans
                      (bytesLt_of_not_lt_of_ne hmKfalse (fun hc => hq hc.symm)) hm_e'
                rcases prefixBranchScan_stop (path0 ++ [p]) K 0 p.ppointer hnext
                    (hex e' (List.get?_mem hnext)) (Or.inr hKe')
                    (fun j' e'' hj' he'' => hbeforeLe j' e'' (by omega) he'') with
                  ⟨hc0, _⟩ | ⟨j0, e0, hjeq, hg0, hres⟩
                · exact absurd hc0 (by omega)
                · have hj0i : j0 = i := by omega
                  subst hj0i
                  rw [hgi] at hg0
                  injection hg0 with hg0
                  subst hg0
                  exact hres
              | none =>
                have hilen : p.entries.length ≤ i + 1 := List.get?_eq_none.mp hnext
                have hallLt : ∀ e'' ∈ p.entries, bytesLt e''.key K = true := by
                  intro e'' he''
                  rcases List.mem_iff_get?.mp he'' with ⟨j', hj'⟩
                  obtain ⟨hjl', _⟩ := List.get?_eq_some.mp hj'
                  exact hbeforeLe j' e'' (by omega) hj'
                rcases prefixBranchScan_exhaust (path0 ++ [p]) K 0 p.ppointer hallLt with
                  ⟨hnil, _⟩ | ⟨j0, e0, hg0, hlast, hres⟩
                · exact absurd hnil hne
                · obtain ⟨hil, _⟩ := List.get?_eq_some.mp hgi
                  have hj0i : j0 = i := by omega
                  subst hj0i
                  rw [hgi] at hg0
                  injection hg0 with hg0
                  subst hg0
                  exact hres
            have hminI : ∀ x ∈ kvI, K.isPrefixOf x.1 = true → x = m ∨ ltKV m x :=
              fun x hx hPx => hmin x
                (List.mem_append.mpr (Or.inr (flattenPairs_child_mem hlen' hkvI hx))) hPx
            obtain ⟨rI, hfI⟩ := filter_head_of_min (hascChild hgi hkvI) hmemI hmP hminI
            have hih := (ihch i e kvI hgi hkvI f hfr (hascChild hgi hkvI) K (path0 ++ [p])).2
              m rI hfI
            constructor
            · intro hcond
              have hcond' : m.1 = K ∨ ¬ StoredInBranch idx e.page m.1 := by
                rcases hcond with h1 | h1
                · exact Or.inl h1
                · exact Or.inr (fun hsub =>
                    h1 (.viaEntry pn p e m.1 hpage hbr (List.get?_mem hgi) hsub))
              rcases hih.1 hcond' with ⟨c, pl, ii, hcall, hc1, hc2, hc3, hc4, hc5, rest, hrne, hrpath⟩
              refine ⟨c, pl, ii, ?_, hc1, hc2, hc3, hc4, hc5, [p] ++ rest, by simp,
                by rw [hrpath, List.append_assoc]⟩
              rw [hstep, hscanRes]
              exact hcall
            · intro hneK hsib
              have hsibE : StoredInBranch idx e.page m.1 := by
                obtain ⟨p2, hpage2, hbr2, hcases⟩ := sib_inv hsib
                rw [hpage] at hpage2
                injection hpage2 with hp2
                subst hp2
                rcases hcases with ⟨e', he'mem, he'key⟩ | hpp | ⟨e', he'mem, hrec⟩
                · exfalso
                  rcases List.mem_iff_get?.mp he'mem with ⟨j', hj'⟩
                  rcases Nat.lt_trichotomy j' i with h1 | h1 | h1
                  · have hfc := flatten_entry_lt_later_child hlen' hascf h1 hj' hkvI hmemI
                    rw [he'key, bytesLt_irrefl] at hfc
                    cases hfc
                  · subst h1
                    rw [hj'] at hgi
                    injection hgi with hh
                    subst hh
                    rw [he'key, bytesLt_irrefl] at hei_lt
                    cases hei_lt
                  · have hfc := flatten_child_lt_later_entry hlen' hascf h1 hgi hkvI hj' hmemI
                    rw [he'key, bytesLt_irrefl] at hfc
                    cases hfc
                · exfalso
                  rcases sib_mem hpp h0 with ⟨V', hV'⟩
                  have hcr := hcross (m.1, V') hV' m hmf
                  have hc2 : bytesLt m.1 m.1 = true := hcr
                  rw [bytesLt_irrefl] at hc2
                  cases hc2
                · rcases List.mem_iff_get?.mp he'mem with ⟨j', hj'⟩
                  obtain ⟨hjl', _⟩ := List.get?_eq_some.mp hj'
                  rcases Nat.lt_trichotomy j' i with h1 | h1 | h1
                  · exfalso
                    obtain ⟨kv', hkv'⟩ : ∃ kv, kvss.get? j' = some kv :=
                      get?_exists_of_lt (by omega)
                    rcases sib_mem hrec (hch j' e' kv' hj' hkv') with ⟨V', hV'⟩
                    have hfc := flatten_child_lt_later_child hlen' hascf h1 hj' hkv' hkvI hV' hmemI
                    have hc2 : bytesLt m.1 m.1 = true := hfc
                    rw [bytesLt_irrefl] at hc2
                    cases hc2
                  · subst h1
                    rw [hj'] at hgi
                    injection hgi with hh
                    subst hh
                    exact hrec
                  · exfalso
                    obtain ⟨kv', hkv'⟩ : ∃ kv, kvss.get? j' = some kv :=
                      get?_exists_of_lt (by omega)
                    rcases sib_mem hrec (hch j' e' kv' hj' hkv') with ⟨V', hV'⟩
                    have hfc := flatten_child_lt_later_child hlen' hascf h1 hgi hkvI hkv' hmemI hV'
                    have hc2 : bytesLt m.1 m.1 = true := hfc
                    rw [bytesLt_irrefl] at hc2
                    cases hc2
              rw [hstep, hscanRes]
              exact hih.2 hneK hsibE

/-- C2 (counterexample): `exIdxC2` is a well-formed b-tree storing the key
`[98, 97]` (`"ba"`), of which `[98]` (`"b"`) is a proper prefix, and no
other stored key starts with `[98]`; the spec then promises success, yet
` find_prefix([98])` fails with `KeyError`: the least match is held by the
root branch entry itself, and the search descends into the child left of
that entry — which holds no match — instead of stopping on the entry. -/
theorem c2_prefix_counterexample :
    SubTree exIdxC2 0 exIdxC2.root_page 1 exKvsC2 ∧ AscKV exKvsC2 ∧
    ([98] : Bytes).isPrefixOf [98, 97] = true ∧ ([98, 97], [1]) ∈ exKvsC2 ∧
    exKvsC2.filter (fun kv => ([98] : Bytes).isPrefixOf kv.1) = [([98, 97], [1])] ∧
    ID0.find_prefix exIdxC2 5 [98] = .error .keyError := by
  refine ⟨?_, by decide, by decide, by decide, by decide, by rfl⟩
  have hla : SubTree exIdxC2 0 pageC2root.ppointer 0
      (pageC5a.entries.map fun e => (e.key, e.value)) :=
    SubTree.leaf 2 pageC5a 0 rfl rfl (by decide)
  have hlc : SubTree exIdxC2 0 3 0 (pageC5c.entries.map fun e => (e.key, e.value)) :=
    SubTree.leaf 3 pageC5c 0 rfl rfl (by decide)
  have hb := @SubTree.branch exIdxC2 0 1 pageC2root 0
    (pageC5a.entries.map fun e => (e.key, e.value))
    [pageC5c.entries.map fun e => (e.key, e.value)]
    rfl (by decide) (by decide) (by decide) hla rfl
    (by
      intro i e kv he hkv
      cases i with
      | zero =>
        injection he with he
        injection hkv with hkv
        subst he
        subst hkv
        exact hlc
      | succ n =>
        simp [pageC2root] at he)
  exact hb

/-- C2 (amended): on a well-formed b-tree, ` find_prefix(K)` fails with
`KeyError` (NotFound) when no stored key starts with `K`; when some
stored key starts with `K` and `m` is the least such key/value pair, the
search returns a cursor positioned on the stored entry for `m` — provided
`m.1 = K` or `m.1` is not held by a branch entry; when `m.1 ≠ K` is held
by a branch entry, the search wrongly fails with `KeyError`.  The proviso
is forced by `c2_prefix_counterexample`: on meeting a branch entry whose
key properly extends `K`, the code descends into the child left of that
entry and never considers the entry itself. -/
theorem c2_prefix_match_amended (idx : ID0) (hh : Nat) (kvs : List KV) (K : Bytes)
    (hs : SubTree idx 0 idx.root_page hh kvs) (hasc : AscKV kvs)
    (fuel : Nat) (hf : hh < fuel) :
    ((∀ kv ∈ kvs, K.isPrefixOf kv.1 = false) →
       ID0.find_prefix idx fuel K = .error .keyError) ∧
    (∀ m mrest, kvs.filter (fun kv => K.isPrefixOf kv.1) = m :: mrest →
      ((m.1 = K ∨ ¬ StoredInBranch idx idx.root_page m.1) →
         ∃ (c : Cursor) (p : Page) (i : Nat), ID0.find_prefix idx fuel K = .ok c ∧
           c.entry.key = m.1 ∧ c.entry.value = m.2 ∧ c.entry_number = (i : Int) ∧
           c.path.getLast? = some p ∧ p.entries.get? i = some c.entry) ∧
      (m.1 ≠ K → StoredInBranch idx idx.root_page m.1 →
         ID0.find_prefix idx fuel K = .error .keyError)) := by
  have h := prefixFindGo_spec hs fuel hf hasc K []
  unfold ID0.find_prefix
  refine ⟨h.1, fun m mrest hf2 => ⟨fun hc => ?_, (h.2 m mrest hf2).2⟩⟩
  rcases (h.2 m mrest hf2).1 hc with ⟨c, p, i, h1, h2, h3, h4, h5, h6, _⟩
  exact ⟨c, p, i, h1, h2, h3, h4, h5, h6⟩

/-- C2 (witness): on the single-leaf index `exIdxC2w` holding the key
`[97, 97]`, of which `[97]` is a proper prefix not held by any branch
entry, the prefix search succeeds on the stored entry. -/
theorem c2_prefix_match_amended_witness :
    ∃ (c : Cursor) (p : Page) (i : Nat), ID0.find_prefix exIdxC2w 2 [97] = .ok c ∧
      c.entry.key = [97, 97] ∧ c.entry.value = [7] ∧ c.entry_number = (i : Int) ∧
      c.path.getLast? = some p ∧ p.entries.get? i = some c.entry := by
  have hsub : SubTree exIdxC2w 0 exIdxC2w.root_page 0
      (pageC2w.entries.map fun e => (e.key, e.value)) :=
    SubTree.leaf 1 pageC2w 0 rfl rfl (by decide)
  have hnsib : ¬ StoredInBranch exIdxC2w exIdxC2w.root_page ([97, 97] : Bytes) := by
    intro hsib
    obtain ⟨p2, hpage2, hbr2, _⟩ := sib_inv hsib
    have h1 : exIdxC2w.pages exIdxC2w.root_page = some pageC2w := rfl
    rw [h1] at hpage2
    injection hpage2 with hp2
    subst hp2
    exact hbr2 rfl
  have h := (c2_prefix_match_amended exIdxC2w 0 _ [97] hsub (by decide) 2 (by omega)).2
    ([97, 97], [7]) [] (by decide)
  exact h.1 (Or.inr hnsib)

/-! ## Cursor traversal -/

/-- A descent decomposes the whole sequence. -/
theorem desc_eq {idx : ID0} {kvsAll : List KV} {H : Nat} :
    ∀ {h pn : Nat} {sub : List KV} {anc : List Page} {before after : List KV},
    Desc idx kvsAll H h pn sub anc before after →
    kvsAll = before ++ sub ++ after := by
  intro h pn sub anc before after hd
  induction hd with
  | root hroot => simp
  | intoPP h pn p sub0 kvss anc before after hd hpage hbr hne h0 hlen hch ih =>
    rw [ih]
    simp [List.append_assoc]
  | intoEntry h pn p sub0 kvss anc before after j e kvJ hd hpage hbr hne h0 hlen hch hj hkvJ ih =>
    rw [ih, flattenPairs_decomp hlen.symm hj hkvJ]
    simp [List.append_assoc]

/-- The current node of a descent is a well-formed sub-tree. -/
theorem desc_subtree {idx : ID0} {kvsAll : List KV} {H : Nat}
    {h pn : Nat} {sub : List KV} {anc : List Page} {before after : List KV}
    (hd : Desc idx kvsAll H h pn sub anc before after) : SubTree idx 0 pn h sub := by
  cases hd with
  | root hroot => exact hroot
  | intoPP h pn p sub0 kvss anc before after hd hpage hbr hne h0 hlen hch => exact h0
  | intoEntry h pn p sub0 kvss anc before after j e kvJ hd hpage hbr hne h0 hlen hch hj hkvJ =>
    exact hch j e _ hj hkvJ

/-- Heights along a descent are bounded by the root height. -/
theorem desc_le {idx : ID0} {kvsAll : List KV} {H : Nat} :
    ∀ {h pn : Nat} {sub : List KV} {anc : List Page} {before after : List KV},
    Desc idx kvsAll H h pn sub anc before after → h ≤ H := by
  intro h pn sub anc before after hd
  induction hd with
  | root hroot => exact Nat.le_refl H
  | intoPP h pn p sub0 kvss anc before after hd hpage hbr hne h0 hlen hch ih => omega
  | intoEntry h pn p sub0 kvss anc before after j e kvJ hd hpage hbr hne h0 hlen hch hj hkvJ ih =>
    omega

/-- Every well-formed sub-tree's page exists. -/
theorem subtree_page {idx : ID0} {minb pn h : Nat} {kvs : List KV}
    (hs : SubTree idx minb pn h kvs) : ∃ p, idx.pages pn = some p := by
  cases hs with
  | leaf pn p h hpage hleaf hne => exact ⟨p, hpage⟩
  | branch pn p h sub0 kvss hpage hbr hne hminb h0 hlen hch => exact ⟨p, hpage⟩

/-- Inversion of a sub-tree at a leaf page. -/
theorem subtree_of_leaf {idx : ID0} {minb pn h : Nat} {kvs : List KV} {p : Page}
    (hs : SubTree idx minb pn h kvs) (hpage : idx.pages pn = some p)
    (hleaf : p.ppointer = 0) :
    kvs = p.entries.map (fun e => (e.key, e.value)) ∧ p.entries ≠ [] := by
  cases hs with
  | leaf pn p2 h hpage2 hleaf2 hne2 =>
    rw [hpage] at hpage2
    injection hpage2 with hp2
    subst hp2
    exact ⟨rfl, hne2⟩
  | branch pn p2 h sub0 kvss hpage2 hbr2 hne2 hminb2 h02 hlen2 hch2 =>
    rw [hpage] at hpage2
    injection hpage2 with hp2
    subst hp2
    exact absurd hleaf hbr2

/-- Python `path[-1]` on a non-empty path returns its last element. -/
theorem pyIndex_last {α : Type} (l : List α) (x : α) :
    pyIndex (l ++ [x]) (-1) = .ok x := by
  unfold pyIndex
  rw [if_neg (by omega)]
  have hlen : (((l ++ [x]).length : Int)) = (l.length : Int) + 1 := by simp
  have harith : ((-1 : Int) + (l ++ [x]).length).toNat = l.length := by
    rw [hlen]
    omega
  rw [harith, List.get?_concat_length]
  dsimp only
  rw [if_pos (by rw [hlen]; omega)]

/-- The descent loop of the branch case of `Cursor.next` follows
`ppointer` edges to the leftmost leaf below the current page, extending
the descent and leaving `before` unchanged. -/
theorem descendMin_spec {idx : ID0} {kvsAll : List KV} {H : Nat} :
    ∀ (fuel : Nat) {h pn : Nat} {sub : List KV} {anc : List Page} {before after : List KV},
    Desc idx kvsAll H h pn sub anc before after →
    ∀ {p : Page}, idx.pages pn = some p → h < fuel →
    ∃ (hL pnL : Nat) (L : Page) (ancL : List Page) (afterL : List KV),
      descendMin idx fuel anc p = .ok (ancL ++ [L], L) ∧
      Desc idx kvsAll H hL pnL (L.entries.map fun e => (e.key, e.value)) ancL before afterL ∧
      idx.pages pnL = some L ∧ L.ppointer = 0 ∧
      (L.entries.map fun e => (e.key, e.value)) ++ afterL = sub ++ after := by
  intro fuel
  induction fuel with
  | zero =>
    intro h pn sub anc before after hd p hpage hfuel
    omega
  | succ f ih =>
    intro h pn sub anc before after hd p hpage hfuel
    have hst := desc_subtree hd
    cases hst with
    | leaf pn2 p2 h2 hpage2 hleaf2 hne2 =>
      rw [hpage] at hpage2
      injection hpage2 with hp2
      subst hp2
      refine ⟨_, _, p, anc, after, ?_, hd, hpage, hleaf2, rfl⟩
      rw [descendMin, if_pos (is_leaf_true hleaf2)]
    | branch pn2 p2 h2 sub0 kvss hpage2 hbr2 hne2 hminb2 h02 hlen2 hch2 =>
      rw [hpage] at hpage2
      injection hpage2 with hp2
      subst hp2
      obtain ⟨p', hp'⟩ := subtree_page h02
      have hd' := Desc.intoPP h2 _ p sub0 kvss anc before after hd hpage hbr2 hne2 h02 hlen2 hch2
      rcases ih hd' hp' (by omega) with ⟨hL, pnL, L, ancL, afterL, hcall, hdesc, hpageL, hleafL, heq⟩
      refine ⟨hL, pnL, L, ancL, afterL, ?_, hdesc, hpageL, hleafL, ?_⟩
      · rw [descendMin, if_neg (not_is_leaf hbr2), get_page_ok hp', except_bind_ok]
        exact hcall
      · rw [heq, List.append_assoc]


/-- The ascent loop of `Cursor.next`, specified along a descent: popping
with a key that closes off `before ++ sub` either exhausts the path
(`IndexError`) when nothing remains to the right, or stops at the nearest
ancestor entry holding the next pair, yielding a valid branch cursor. -/
theorem popUntilRev_spec {idx : ID0} {kvsAll : List KV} {H : Nat} (hasc : AscKV kvsAll) :
    ∀ {h pn : Nat} {sub : List KV} {anc : List Page} {before after : List KV},
    Desc idx kvsAll H h pn sub anc before after →
    ∀ {p : Page}, idx.pages pn = some p →
    ∀ (key : Bytes),
    (∀ kv ∈ before, bytesLt kv.1 key = true) →
    (∀ kv ∈ sub, bytesLt key kv.1 = false) →
    (∃ V, (key, V) ∈ before ++ sub) →
    (after = [] → popUntilRev key ((anc ++ [p]).reverse) = .error .indexError) ∧
    (∀ a after₂, after = a :: after₂ →
      ∃ (ancP : List Page) (P : Page) (j : Nat) (eP : Entry),
        popUntilRev key ((anc ++ [p]).reverse) = .ok (ancP ++ [P], P, j) ∧
        P.entries.get? j = some eP ∧ (eP.key, eP.value) = a ∧
        CursorInv idx kvsAll H ⟨ancP ++ [P], eP, (j : Int)⟩ after₂) := by
  intro h pn sub anc before after hd
  induction hd with
  | root hroot =>
    intro p hpage key hbefore hsub hkmem
    constructor
    · intro _
      have hlist : (([] : List Page) ++ [p]).reverse = [p] := by simp
      rw [hlist]
      rfl
    · intro a after₂ hafter
      simp at hafter
  | intoPP h pn p2 sub0 kvss anc before after hd hpage2 hbr hne h0 hlen hch ih =>
    intro p hpage key hbefore hsub hkmem
    obtain ⟨e0, hg0⟩ : ∃ e0, p2.entries.get? 0 = some e0 := by
      cases hp0 : p2.entries with
      | nil => exact absurd hp0 hne
      | cons a l => exact ⟨a, rfl⟩
    obtain ⟨hjl0, _⟩ := List.get?_eq_some.mp hg0
    obtain ⟨kv0, hkv0⟩ : ∃ kv, kvss.get? 0 = some kv := get?_exists_of_lt (by omega)
    have hdec0 : flattenPairs p2.entries kvss =
        (e0.key, e0.value) ::
          (kv0 ++ flattenPairs (p2.entries.drop (0 + 1)) (kvss.drop (0 + 1))) := by
      have hdec := flattenPairs_decomp hlen.symm hg0 hkv0
      rw [hdec]
      simp [flattenPairs_nil]
    have heqC : kvsAll = (before ++ sub0) ++ (flattenPairs p2.entries kvss ++ after) := by
      exact desc_eq (Desc.intoPP h pn p2 sub0 kvss anc before after hd hpage2 hbr hne h0
        hlen hch)
    have hasc2 : AscKV ((before ++ sub0) ++ (flattenPairs p2.entries kvss ++ after)) := by
      rw [← heqC]
      exact hasc
    have hafterGT : ∀ kv ∈ flattenPairs p2.entries kvss ++ after, bytesLt key kv.1 = true := by
      intro kv hkv
      rcases hkmem with ⟨V, hV⟩
      exact ascKV_append_cross hasc2 (key, V) hV kv hkv
    have hlt0 : bytesLt key e0.key = true :=
      hafterGT (e0.key, e0.value)
        (List.mem_append.mpr (Or.inl (flattenPairs_entry_mem hlen.symm hg0)))
    have hfi : find_index p2 key = .ok 0 := by
      rw [find_index_branch hbr]
      simpa using idxScanBranch_found key 0 hg0 (Or.inr hlt0)
        (fun j' e' hj' _ => absurd hj' (Nat.not_lt_zero j'))
    have hlist : ((anc ++ [p2]) ++ [p]).reverse = p :: p2 :: anc.reverse := by simp
    constructor
    · intro hnil
      exfalso
      have hfnil := (List.append_eq_nil.mp hnil).1
      rw [hdec0] at hfnil
      simp at hfnil
    · intro a after₂ hafter
      rw [hdec0, List.cons_append] at hafter
      injection hafter with h1 h2
      refine ⟨anc, p2, 0, e0, ?_, hg0, h1, ?_⟩
      · rw [hlist, popUntilRev, hfi]
        simp
      · have hinv := CursorInv.atBranch h pn p2 sub0 kvss anc before after 0 e0 kv0
          hd hpage2 hbr hne h0 hlen hch hg0 hkv0
        exact h2 ▸ hinv
  | intoEntry h pn p2 sub0 kvss anc before after j e kvJ hd hpage2 hbr hne h0 hlen hch hj hkvJ ih =>
    intro p hpage key hbefore hsub hkmem
    obtain ⟨hjlen, _⟩ := List.get?_eq_some.mp hj
    have hbefore' : ∀ j' e', j' ≤ j → p2.entries.get? j' = some e' →
        bytesLt e'.key key = true := by
      intro j' e' hj' he'
      rcases Nat.lt_or_ge j' j with h1 | h1
      · have htk : (p2.entries.take j).get? j' = some e' := by
          rw [List.get?_take h1]
          exact he'
        have hlentk : (p2.entries.take j).length = (kvss.take j).length := by
          simp [List.length_take, hlen]
        have hmemtk : (e'.key, e'.value) ∈ flattenPairs (p2.entries.take j) (kvss.take j) :=
          flattenPairs_entry_mem hlentk htk
        exact hbefore (e'.key, e'.value) (by
          simp only [List.mem_append, List.mem_singleton]
          tauto)
      · have hj'j : j' = j := by omega
        subst hj'j
        rw [he'] at hj
        injection hj with hh
        rw [hh]
        exact hbefore (e.key, e.value) (by
          simp only [List.mem_append, List.mem_singleton]
          tauto)
    have hlist : ((anc ++ [p2]) ++ [p]).reverse = p :: p2 :: anc.reverse := by simp
    cases hnext : p2.entries.get? (j + 1) with
    | some e' =>
      obtain ⟨hjl1, _⟩ := List.get?_eq_some.mp hnext
      obtain ⟨kv1, hkv1⟩ : ∃ kv, kvss.get? (j + 1) = some kv := get?_exists_of_lt (by omega)
      have heqC : kvsAll =
          (before ++ sub0 ++ flattenPairs (p2.entries.take j) (kvss.take j) ++
            [(e.key, e.value)] ++ kvJ) ++
          (flattenPairs (p2.entries.drop (j + 1)) (kvss.drop (j + 1)) ++ after) := by
        exact desc_eq (Desc.intoEntry h pn p2 sub0 kvss anc before after j e kvJ
          hd hpage2 hbr hne h0 hlen hch hj hkvJ)
      have hasc2 : AscKV
          ((before ++ sub0 ++ flattenPairs (p2.entries.take j) (kvss.take j) ++
            [(e.key, e.value)] ++ kvJ) ++
          (flattenPairs (p2.entries.drop (j + 1)) (kvss.drop (j + 1)) ++ after)) := by
        rw [← heqC]
        exact hasc
      have hafterGT : ∀ kv ∈ flattenPairs (p2.entries.drop (j + 1)) (kvss.drop (j + 1)) ++ after,
          bytesLt key kv.1 = true := by
        intro kv hkv
        rcases hkmem with ⟨V, hV⟩
        refine ascKV_append_cross hasc2 (key, V) ?_ kv hkv
        simp only [List.mem_append, List.mem_singleton] at hV ⊢
        tauto
      have hd0 : (p2.entries.drop (j + 1)).get? 0 = some e' := by
        rw [List.get?_drop]
        simpa using hnext
      have hlend : (p2.entries.drop (j + 1)).length = (kvss.drop (j + 1)).length := by
        simp [hlen]
      have hge : bytesLt key e'.key = true :=
        hafterGT (e'.key, e'.value)
          (List.mem_append.mpr (Or.inl (flattenPairs_entry_mem hlend hd0)))
      have hfi : find_index p2 key = .ok (j + 1) := by
        rw [find_index_branch hbr]
        simpa using idxScanBranch_found key 0 hnext (Or.inr hge)
          (fun j' e'' hj' he'' => hbefore' j' e'' (by omega) he'')
      have hk0 : (kvss.drop (j + 1)).get? 0 = some kv1 := by
        rw [List.get?_drop]
        simpa using hkv1
      have hdec1 : flattenPairs (p2.entries.drop (j + 1)) (kvss.drop (j + 1)) =
          (e'.key, e'.value) ::
            (kv1 ++ flattenPairs (p2.entries.drop (j + 1 + 1)) (kvss.drop (j + 1 + 1))) := by
        have hdec := flattenPairs_decomp hlend hd0 hk0
        rw [hdec]
        simp [flattenPairs_nil, List.drop_drop]
      constructor
      · intro hnil
        exfalso
        have hfnil := (List.append_eq_nil.mp hnil).1
        rw [hdec1] at hfnil
        simp at hfnil
      · intro a after₂ hafter
        rw [hdec1, List.cons_append] at hafter
        injection hafter with h1 h2
        refine ⟨anc, p2, j + 1, e', ?_, hnext, h1, ?_⟩
        · rw [hlist, popUntilRev, hfi]
          simp
        · have hinv := CursorInv.atBranch h pn p2 sub0 kvss anc before after (j + 1) e' kv1
            hd hpage2 hbr hne h0 hlen hch hnext hkv1
          exact h2 ▸ hinv
    | none =>
      have hlenle : p2.entries.length ≤ j + 1 := List.get?_eq_none.mp hnext
      have hdropnil : p2.entries.drop (j + 1) = [] := List.drop_eq_nil_of_le hlenle
      have hfi : find_index p2 key = .error .keyError := by
        rw [find_index_branch hbr]
        apply idxScanBranch_none
        intro e'' he''
        rcases List.mem_iff_get?.mp he'' with ⟨j', hj'⟩
        obtain ⟨hjl', _⟩ := List.get?_eq_some.mp hj'
        exact hbefore' j' e'' (by omega) hj'
      have hbeforeQ : ∀ kv ∈ before, bytesLt kv.1 key = true := by
        intro kv hkv
        exact hbefore kv (by
          simp only [List.mem_append, List.mem_singleton]
          tauto)
      have hsubQ : ∀ kv ∈ sub0 ++ flattenPairs p2.entries kvss, bytesLt key kv.1 = false := by
        intro kv hkv
        rcases List.mem_append.mp hkv with hkv0 | hkvf
        · have hb := hbefore kv (by
            simp only [List.mem_append, List.mem_singleton]
            tauto)
          exact bytesLt_asymm hb
        · have hdecf := flattenPairs_decomp hlen.symm hj hkvJ
          rw [hdecf] at hkvf
          rcases List.mem_append.mp hkvf with hkvt | hkvc
          · have hb := hbefore kv (by
              simp only [List.mem_append, List.mem_singleton]
              tauto)
            exact bytesLt_asymm hb
          · rcases List.mem_cons.mp hkvc with rfl | hkvc2
            · have hb := hbefore (e.key, e.value) (by
                simp only [List.mem_append, List.mem_singleton]
                tauto)
              exact bytesLt_asymm hb
            · rcases List.mem_append.mp hkvc2 with hkvJ2 | hkvd
              · exact hsub kv hkvJ2
              · rw [hdropnil, flattenPairs_nil] at hkvd
                cases hkvd
      have hkmemQ : ∃ V, (key, V) ∈ before ++ (sub0 ++ flattenPairs p2.entries kvss) := by
        rcases hkmem with ⟨V, hV⟩
        refine ⟨V, ?_⟩
        have hdecf := flattenPairs_decomp hlen.symm hj hkvJ
        rw [hdecf]
        simp only [List.mem_append, List.mem_singleton, List.mem_cons] at hV ⊢
        tauto
      have hih := ih hpage2 key hbeforeQ hsubQ hkmemQ
      have hredpop : popUntilRev key (((anc ++ [p2]) ++ [p]).reverse) =
          popUntilRev key ((anc ++ [p2]).reverse) := by
        rw [hlist, popUntilRev, hfi]
        simp
      have hafter' : flattenPairs (p2.entries.drop (j + 1)) (kvss.drop (j + 1)) ++ after
          = after := by
        rw [hdropnil, flattenPairs_nil]
        simp
      constructor
      · intro hnil
        rw [hafter'] at hnil
        rw [hredpop]
        exact hih.1 hnil
      · intro a after₂ hafter
        rw [hafter'] at hafter
        rw [hredpop]
        exact hih.2 a after₂ hafter

/-- Decomposing a drop at a stored index. -/
theorem drop_cons_of_get? {α : Type} {l : List α} {n : Nat} {x : α}
    (h : l.get? n = some x) : l.drop n = x :: l.drop (n + 1) := by
  obtain ⟨hlt, hget⟩ := List.get?_eq_some.mp h
  rw [List.drop_eq_getElem_cons hlt]
  simp [← hget]

/-- One step of `Cursor.next` along the traversal invariant: with pairs
still to visit the cursor advances to the stored entry of the next pair;
with nothing left it fails with `IndexError`. -/
theorem cursor_next_spec {idx : ID0} {kvsAll : List KV} {H : Nat} (hasc : AscKV kvsAll)
    {fuel : Nat} (hfuel : H < fuel) {c : Cursor} {rest : List KV}
    (hinv : CursorInv idx kvsAll H c rest) :
    (rest = [] → Cursor.next idx fuel c = .error .indexError) ∧
    (∀ a rest₂, rest = a :: rest₂ →
      ∃ c', Cursor.next idx fuel c = .ok c' ∧ c'.entry.key = a.1 ∧ c'.entry.value = a.2 ∧
        CursorInv idx kvsAll H c' rest₂) := by
  cases hinv with
  | atLeaf h pn p anc before after i e hd hpage hleaf hi =>
    obtain ⟨hilen, _⟩ := List.get?_eq_some.mp hi
    have hstep0 : pyIndex (anc ++ [p]) (-1) = .ok p := pyIndex_last anc p
    rcases Nat.lt_or_ge (i + 1) p.entries.length with hlt | hge
    · -- inner entry: advance within the leaf
      have hbeq : ¬(((i : Int) == (p.entry_count : Int) - 1) = true) := by
        intro hc
        rw [beq_iff_eq] at hc
        unfold Page.entry_count at hc
        omega
      obtain ⟨e', hge'⟩ : ∃ e', p.entries.get? (i + 1) = some e' := get?_exists_of_lt hlt
      have hcast : (i : Int) + 1 = ((i + 1 : Nat) : Int) := by push_cast; ring
      have hgeok : p.get_entry ((i : Int) + 1) = .ok e' := by
        rw [hcast]
        exact get_entry_of_get? hge'
      have hmapget : (p.entries.map fun e => (e.key, e.value)).get? (i + 1) =
          some (e'.key, e'.value) := by
        rw [List.get?_map, hge']
        rfl
      have hdropdec : (p.entries.map fun e => (e.key, e.value)).drop (i + 1) =
          (e'.key, e'.value) ::
            (p.entries.map fun e => (e.key, e.value)).drop (i + 1 + 1) :=
        drop_cons_of_get? hmapget
      have hred : Cursor.next idx fuel ⟨anc ++ [p], e, (i : Int)⟩ =
          .ok ⟨anc ++ [p], e', ((i + 1 : Nat) : Int)⟩ := by
        rw [Cursor.next, hstep0, except_bind_ok]
        dsimp only
        rw [if_pos (is_leaf_true hleaf), if_neg hbeq]
        rw [hgeok, except_bind_ok]
        rw [hcast]
      constructor
      · intro hnil
        exfalso
        rw [hdropdec] at hnil
        simp at hnil
      · intro a rest₂ hrest
        rw [hdropdec, List.cons_append] at hrest
        injection hrest with h1 h2
        obtain ⟨hk, hv⟩ : e'.key = a.1 ∧ e'.value = a.2 := by
          rw [← h1]
          exact ⟨rfl, rfl⟩
        refine ⟨⟨anc ++ [p], e', ((i + 1 : Nat) : Int)⟩, hred, hk, hv, ?_⟩
        have hinv' := CursorInv.atLeaf h pn p anc before after (i + 1) e'
          hd hpage hleaf hge'
        exact h2 ▸ hinv'
    · -- last entry of the leaf: ascend
      have hieq : i + 1 = p.entries.length := by omega
      have hbeq : (((i : Int) == (p.entry_count : Int) - 1) = true) := by
        rw [beq_iff_eq]
        unfold Page.entry_count
        omega
      have hdropnil : (p.entries.map fun e => (e.key, e.value)).drop (i + 1) = [] := by
        apply List.drop_eq_nil_of_le
        simp [hieq]
      have heq := desc_eq hd
      have hasc2 : AscKV ((before ++ (p.entries.map fun e => (e.key, e.value))) ++ after) := by
        rw [← heq]
        exact hasc
      have hascBS : AscKV (before ++ (p.entries.map fun e => (e.key, e.value))) :=
        ascKV_append_left hasc2
      have hemem : (e.key, e.value) ∈ (p.entries.map fun e => (e.key, e.value)) :=
        List.mem_map.mpr ⟨e, List.get?_mem hi, rfl⟩
      have hbefore : ∀ kv ∈ before, bytesLt kv.1 e.key = true := by
        intro kv hkv
        exact ascKV_append_cross hascBS kv hkv (e.key, e.value) hemem
      have hsub : ∀ kv ∈ (p.entries.map fun e => (e.key, e.value)),
          bytesLt e.key kv.1 = false := by
        intro kv hkv
        rcases List.mem_iff_get?.mp hkv with ⟨i', hi'⟩
        obtain ⟨hi'len, _⟩ := List.get?_eq_some.mp hi'
        rw [List.length_map] at hi'len
        have hmapi : (p.entries.map fun e => (e.key, e.value)).get? i =
            some (e.key, e.value) := by
          rw [List.get?_map, hi]
          rfl
        rcases Nat.lt_or_ge i' i with h1 | h1
        · have := ascKV_get_lt (ascKV_append_right hascBS) hi' hmapi h1
          rw [ltKV] at this
          exact bytesLt_asymm this
        · have hi'i : i' = i := by omega
          subst hi'i
          rw [hi'] at hmapi
          injection hmapi with hh
          rw [hh]
          exact bytesLt_irrefl e.key
      have hpop := popUntilRev_spec hasc hd hpage e.key hbefore hsub
        ⟨e.value, List.mem_append.mpr (Or.inr hemem)⟩
      constructor
      · intro hnil
        have hafternil : after = [] := by
          rw [hdropnil] at hnil
          simpa using hnil
        rw [Cursor.next, hstep0, except_bind_ok]
        dsimp only
        rw [if_pos (is_leaf_true hleaf), if_pos hbeq]
        rw [hpop.1 hafternil, except_bind_error]
      · intro a rest₂ hrest
        rw [hdropnil] at hrest
        simp only [List.nil_append] at hrest
        rcases hpop.2 a rest₂ hrest with ⟨ancP, P, jP, eP, hpopok, hgetP, hpair, hinv'⟩
        obtain ⟨hk, hv⟩ : eP.key = a.1 ∧ eP.value = a.2 := by
          rw [← hpair]
          exact ⟨rfl, rfl⟩
        refine ⟨⟨ancP ++ [P], eP, (jP : Int)⟩, ?_, hk, hv, hinv'⟩
        rw [Cursor.next, hstep0, except_bind_ok]
        dsimp only
        rw [if_pos (is_leaf_true hleaf), if_pos hbeq]
        rw [hpopok, except_bind_ok]
        dsimp only
        rw [get_entry_of_get? hgetP, except_bind_ok]
  | atBranch h pn p sub0 kvss anc before after j e kvJ hd hpage hbr hne h0 hlen hch hj hkvJ =>
    have hstep0 : pyIndex (anc ++ [p]) (-1) = .ok p := pyIndex_last anc p
    have hchild : SubTree idx 0 e.page h kvJ := hch j e kvJ hj hkvJ
    obtain ⟨p1, hp1⟩ := subtree_page hchild
    have hd' := Desc.intoEntry h pn p sub0 kvss anc before after j e kvJ
      hd hpage hbr hne h0 hlen hch hj hkvJ
    have hhH : h < fuel := by
      have := desc_le hd
      omega
    rcases descendMin_spec fuel hd' hp1 hhH with
      ⟨hL, pnL, L, ancL, afterL, hcall, hdesc, hpageL, hleafL, heq⟩
    have hLne : L.entries ≠ [] := (subtree_of_leaf (desc_subtree hdesc) hpageL hleafL).2
    obtain ⟨e0, hget0⟩ : ∃ e0, L.entries.get? 0 = some e0 := by
      cases hL0 : L.entries with
      | nil => exact absurd hL0 hLne
      | cons a l => exact ⟨a, rfl⟩
    have hget0ok : L.get_entry (0 : Int) = .ok e0 := get_entry_of_get? hget0
    have hred : Cursor.next idx fuel ⟨anc ++ [p], e, (j : Int)⟩ =
        .ok ⟨ancL ++ [L], e0, ((0 : Nat) : Int)⟩ := by
      rw [Cursor.next, hstep0, except_bind_ok]
      dsimp only
      rw [if_neg (not_is_leaf hbr)]
      rw [get_page_ok hp1, except_bind_ok]
      rw [hcall, except_bind_ok]
      dsimp only
      rw [hget0ok, except_bind_ok]
      rfl
    have hrest : (L.entries.map fun e => (e.key, e.value)) ++ afterL =
        (kvJ ++ flattenPairs (p.entries.drop (j + 1)) (kvss.drop (j + 1))) ++ after := by
      rw [heq, List.append_assoc]
    constructor
    · intro hnil
      exfalso
      have h1 := (List.append_eq_nil.mp hnil).1
      have h2 := (List.append_eq_nil.mp h1).1
      exact SubTree.ne_nil hchild h2
    · intro a rest₂ hrestc
      rw [← hrest] at hrestc
      have hmapdec : (L.entries.map fun e => (e.key, e.value)) =
          (e0.key, e0.value) :: ((L.entries.map fun e => (e.key, e.value)).drop (0 + 1)) := by
        have hmapget : (L.entries.map fun e => (e.key, e.value)).get? 0 =
            some (e0.key, e0.value) := by
          rw [List.get?_map, hget0]
          rfl
        have := drop_cons_of_get? hmapget
        simpa using this
      rw [hmapdec, List.cons_append] at hrestc
      injection hrestc with h1 h2
      obtain ⟨hk, hv⟩ : e0.key = a.1 ∧ e0.value = a.2 := by
        rw [← h1]
        exact ⟨rfl, rfl⟩
      refine ⟨⟨ancL ++ [L], e0, ((0 : Nat) : Int)⟩, hred, hk, hv, ?_⟩
      have hinv' := CursorInv.atLeaf hL pnL L ancL _ afterL 0 e0
        hdesc hpageL hleafL hget0
      exact h2 ▸ hinv'

/-- Searching for the least stored key descends through `ppointer` edges
to the leftmost leaf and lands on its first entry, establishing the
traversal invariant with everything else still to visit. -/
theorem exactFindGo_min {idx : ID0} {kvsAll : List KV} {H : Nat} (hasc : AscKV kvsAll) :
    ∀ (fuel : Nat) {h pn : Nat} {sub : List KV} {anc : List Page} {after : List KV},
    Desc idx kvsAll H h pn sub anc [] after →
    h < fuel → ∀ (m : KV) (mrest : List KV), sub = m :: mrest →
    ∃ (ancL : List Page) (L : Page) (e0 : Entry),
      exactFindGo idx m.1 fuel anc pn = .ok ⟨ancL ++ [L], e0, ((0 : Nat) : Int)⟩ ∧
      (e0.key, e0.value) = m ∧
      CursorInv idx kvsAll H ⟨ancL ++ [L], e0, ((0 : Nat) : Int)⟩ (mrest ++ after) := by
  intro fuel
  induction fuel with
  | zero =>
    intro h pn sub anc after hd hfuel m mrest hsub
    omega
  | succ f ih =>
    intro h pn sub anc after hd hfuel m mrest hsub
    have hst := desc_subtree hd
    cases hst with
    | leaf pn2 p h2 hpage hleaf hne =>
      obtain ⟨e0, hget0⟩ : ∃ e0, p.entries.get? 0 = some e0 := by
        cases hp0 : p.entries with
        | nil => exact absurd hp0 hne
        | cons a l => exact ⟨a, rfl⟩
      have hmap0 : (p.entries.map fun e => (e.key, e.value)).get? 0 =
          some (e0.key, e0.value) := by
        rw [List.get?_map, hget0]
        rfl
      have hm : (e0.key, e0.value) = m := by
        rw [hsub] at hmap0
        simp only [List.get?] at hmap0
        injection hmap0 with hh
        exact hh.symm
      have hkeq : e0.key = m.1 := by
        rw [← hm]
      have hfi : find_index p m.1 = .ok 0 := by
        rw [find_index_leaf hleaf]
        simpa using idxScanLeaf_found m.1 0 hget0 hkeq
          (fun j' e' hj' _ => absurd hj' (Nat.not_lt_zero j'))
      have hgeok : p.get_entry ((0 : Nat) : Int) = .ok e0 := get_entry_of_get? hget0
      have hred : exactFindGo idx m.1 (f + 1) anc pn =
          .ok ⟨anc ++ [p], e0, ((0 : Nat) : Int)⟩ := by
        rw [exactFindGo, get_page_ok hpage, except_bind_ok]
        dsimp only
        rw [hfi]
        dsimp only
        rw [hgeok, except_bind_ok]
        rw [if_pos (beq_iff_eq.mpr hkeq)]
      refine ⟨anc, p, e0, hred, hm, ?_⟩
      have hinv := CursorInv.atLeaf h pn p anc [] after 0 e0 hd hpage hleaf hget0
      have hdrop : (p.entries.map fun e => (e.key, e.value)).drop (0 + 1) = mrest := by
        rw [hsub]
        rfl
      rw [hdrop] at hinv
      exact hinv
    | branch pn2 p h2 sub0 kvss hpage hbr hne hminb h02 hlen hch =>
      have hne0 := SubTree.ne_nil h02
      obtain ⟨m0, mrest0, hsub0⟩ : ∃ m0 mrest0, sub0 = m0 :: mrest0 := by
        cases hs0 : sub0 with
        | nil => exact absurd hs0 hne0
        | cons a l => exact ⟨a, l, rfl⟩
      have hsplit : m0 = m ∧ mrest0 ++ flattenPairs p.entries kvss = mrest := by
        rw [hsub0, List.cons_append] at hsub
        injection hsub with h1 h2
        exact ⟨h1, h2⟩
      obtain ⟨hm0m, hmrest⟩ := hsplit
      rw [hm0m] at hsub0
      -- the first entry of the branch page exceeds the least key
      have hascC := hasc
      rw [desc_eq hd] at hascC
      simp only [List.nil_append] at hascC
      have hascS : AscKV (sub0 ++ flattenPairs p.entries kvss) := ascKV_append_left hascC
      obtain ⟨e0', hget0'⟩ : ∃ e0, p.entries.get? 0 = some e0 := by
        cases hp0 : p.entries with
        | nil => exact absurd hp0 hne
        | cons a l => exact ⟨a, rfl⟩
      have hKlt : bytesLt m.1 e0'.key = true := by
        have hmm : m ∈ sub0 := by
          rw [hsub0]
          exact List.mem_cons_self _ _
        have := ascKV_append_cross hascS m hmm (e0'.key, e0'.value)
          (flattenPairs_entry_mem hlen.symm hget0')
        exact this
      have hfi : find_index p m.1 = .ok 0 := by
        rw [find_index_branch hbr]
        simpa using idxScanBranch_found m.1 0 hget0' (Or.inr hKlt)
          (fun j' e' hj' _ => absurd hj' (Nat.not_lt_zero j'))
      have hgeok : p.get_entry ((0 : Nat) : Int) = .ok e0' := get_entry_of_get? hget0'
      have hbeqne : ¬((e0'.key == m.1) = true) := fun hc =>
        (bytesLt_ne hKlt) (beq_iff_eq.mp hc).symm
      have hred : exactFindGo idx m.1 (f + 1) anc pn =
          exactFindGo idx m.1 f (anc ++ [p]) p.ppointer := by
        rw [exactFindGo, get_page_ok hpage, except_bind_ok]
        dsimp only
        rw [hfi]
        dsimp only
        rw [hgeok, except_bind_ok]
        rw [if_neg hbeqne, if_neg (not_is_leaf hbr)]
        rw [if_pos (by decide), except_pure, except_bind_ok]
      have hd' := Desc.intoPP h2 pn p sub0 kvss anc [] after hd hpage hbr hne h02 hlen hch
      have hsub0' : sub0 = m :: mrest0 := hsub0
      rcases ih hd' (by omega) m mrest0 hsub0' with ⟨ancL, L, e0, hcall, hpair, hinv⟩
      refine ⟨ancL, L, e0, hred.trans hcall, hpair, ?_⟩
      have hr : mrest0 ++ (flattenPairs p.entries kvss ++ after) = mrest ++ after := by
        rw [← hmrest, List.append_assoc]
      rw [hr] at hinv
      exact hinv

/-- Running `r + 1` cursor steps from a valid cursor visits the pair at
position `r` of the remaining list. -/
theorem nextRun_visit {idx : ID0} {kvsAll : List KV} {H : Nat} (hasc : AscKV kvsAll)
    {fuel : Nat} (hfuel : H < fuel) :
    ∀ (r : Nat) {c : Cursor} {rest : List KV}, CursorInv idx kvsAll H c rest →
    ∀ {kv : KV}, rest.get? r = some kv →
    ∃ c', nextRun idx fuel (r + 1) c = .ok c' ∧ c'.entry.key = kv.1 ∧
      c'.entry.value = kv.2 ∧ CursorInv idx kvsAll H c' (rest.drop (r + 1)) := by
  intro r
  induction r with
  | zero =>
    intro c rest hinv kv hget
    obtain ⟨a, rest₂, hrest⟩ : ∃ a rest₂, rest = a :: rest₂ := by
      cases hr : rest with
      | nil =>
        rw [hr] at hget
        simp at hget
      | cons a l => exact ⟨a, l, rfl⟩
    subst hrest
    simp only [List.get?] at hget
    injection hget with hkv
    subst hkv
    rcases (cursor_next_spec hasc hfuel hinv).2 a rest₂ rfl with ⟨c', hnext, hk, hv, hinv'⟩
    refine ⟨c', ?_, hk, hv, hinv'⟩
    rw [nextRun, hnext, except_bind_ok]
    rfl
  | succ r' ih =>
    intro c rest hinv kv hget
    obtain ⟨a, rest₂, hrest⟩ : ∃ a rest₂, rest = a :: rest₂ := by
      cases hr : rest with
      | nil =>
        rw [hr] at hget
        simp at hget
      | cons a l => exact ⟨a, l, rfl⟩
    subst hrest
    rcases (cursor_next_spec hasc hfuel hinv).2 a rest₂ rfl with ⟨c₁, hnext, _, _, hinv₁⟩
    have hget₂ : rest₂.get? r' = some kv := hget
    rcases ih hinv₁ hget₂ with ⟨c', hrun, hk, hv, hinv'⟩
    refine ⟨c', ?_, hk, hv, hinv'⟩
    rw [nextRun, hnext, except_bind_ok]
    exact hrun

/-- C6: on every well-formed b-tree holding `record_count` keys (in
ascending order `kvs` with least pair `m`), `find(m.1)` returns a cursor
on the least key; for every position `r`, `r` calls of `next` land on the
stored entry of `kvs[r]` (so `record_count - 1` calls visit every key
exactly once in ascending order, ascending through ancestors at leaf
boundaries and descending leftmost from branch entries); and one further
call of `next` fails with `IndexError` (OutOfRange). -/
theorem c6_cursor_traversal (idx : ID0) (H : Nat) (kvs : List KV)
    (hs : SubTree idx 0 idx.root_page H kvs) (hasc : AscKV kvs)
    (hrc : idx.record_count = kvs.length)
    (m : KV) (mrest : List KV) (hkvs : kvs = m :: mrest)
    (fuel : Nat) (hf : H < fuel) :
    ∃ c₀, ID0.find idx fuel m.1 = .ok c₀ ∧
      c₀.entry.key = m.1 ∧ c₀.entry.value = m.2 ∧
      (∀ r kv, kvs.get? r = some kv →
        ∃ c, nextRun idx fuel r c₀ = .ok c ∧ c.entry.key = kv.1 ∧ c.entry.value = kv.2) ∧
      (∃ clast, nextRun idx fuel (idx.record_count - 1) c₀ = .ok clast ∧
        Cursor.next idx fuel clast = .error .indexError) := by
  have hd0 : Desc idx kvs H H idx.root_page kvs [] [] [] := Desc.root hs
  rcases exactFindGo_min hasc fuel hd0 hf m mrest hkvs with ⟨ancL, L, e0, hfind, hpair, hinv⟩
  rw [List.append_nil] at hinv
  obtain ⟨hk0, hv0⟩ : e0.key = m.1 ∧ e0.value = m.2 := by
    rw [← hpair]
    exact ⟨rfl, rfl⟩
  refine ⟨⟨ancL ++ [L], e0, ((0 : Nat) : Int)⟩, hfind, hk0, hv0, ?_, ?_⟩
  · intro r kv hget
    cases r with
    | zero =>
      rw [hkvs] at hget
      simp only [List.get?] at hget
      injection hget with hkv
      refine ⟨⟨ancL ++ [L], e0, ((0 : Nat) : Int)⟩, rfl, ?_, ?_⟩
      · rw [← hkv]
        exact hk0
      · rw [← hkv]
        exact hv0
    | succ r' =>
      have hget' : mrest.get? r' = some kv := by
        rw [hkvs] at hget
        exact hget
      rcases nextRun_visit hasc hf r' hinv hget' with ⟨c, hrun, hk, hv, _⟩
      exact ⟨c, hrun, hk, hv⟩
  · have hlen : idx.record_count - 1 = mrest.length := by
      rw [hrc, hkvs]
      simp
    by_cases hmr : mrest = []
    · refine ⟨⟨ancL ++ [L], e0, ((0 : Nat) : Int)⟩, ?_, ?_⟩
      · rw [hlen, hmr]
        rfl
      · rw [hmr] at hinv
        exact (cursor_next_spec hasc hf hinv).1 rfl
    · have hpos : 0 < mrest.length := List.length_pos.mpr hmr
      obtain ⟨x, hx⟩ : ∃ x, mrest.get? (mrest.length - 1) = some x :=
        get?_exists_of_lt (by omega)
      rcases nextRun_visit hasc hf (mrest.length - 1) hinv hx with ⟨c, hrun, _, _, hinv'⟩
      have harith : mrest.length - 1 + 1 = mrest.length := by omega
      rw [harith] at hrun hinv'
      rw [List.drop_length] at hinv'
      refine ⟨c, ?_, (cursor_next_spec hasc hf hinv').1 rfl⟩
      rw [hlen]
      exact hrun

/-- C6 (witness): on the five-key two-level tree `exIdxW5`, find of the
least key `[97]` returns a cursor on it; `r` calls of `next` land on the
`r`-th pair of `exKvsW5`; and a fifth call fails with `IndexError`. -/
theorem c6_cursor_traversal_witness :
    ∃ c₀, ID0.find exIdxW5 3 [97] = .ok c₀ ∧
      c₀.entry.key = [97] ∧ c₀.entry.value = [2] ∧
      (∀ r kv, exKvsW5.get? r = some kv →
        ∃ c, nextRun exIdxW5 3 r c₀ = .ok c ∧ c.entry.key = kv.1 ∧ c.entry.value = kv.2) ∧
      (∃ clast, nextRun exIdxW5 3 (exIdxW5.record_count - 1) c₀ = .ok clast ∧
        Cursor.next exIdxW5 3 clast = .error .indexError) := by
  have hlc : SubTree exIdxW5 0 3 0 (pageW5c.entries.map fun e => (e.key, e.value)) :=
    SubTree.leaf 3 pageW5c 0 rfl rfl (by decide)
  have hle : SubTree exIdxW5 0 4 0 (pageW5e.entries.map fun e => (e.key, e.value)) :=
    SubTree.leaf 4 pageW5e 0 rfl rfl (by decide)
  have hla : SubTree exIdxW5 0 pageW5root.ppointer 0
      (pageC5a.entries.map fun e => (e.key, e.value)) :=
    SubTree.leaf 2 pageC5a 0 rfl rfl (by decide)
  have hsub : SubTree exIdxW5 0 exIdxW5.root_page 1 exKvsW5 := by
    have hb := @SubTree.branch exIdxW5 0 1 pageW5root 0
      (pageC5a.entries.map fun e => (e.key, e.value))
      [pageW5c.entries.map fun e => (e.key, e.value),
       pageW5e.entries.map fun e => (e.key, e.value)]
      rfl (by decide) (by decide) (by decide) hla rfl
      (by
        intro i e kv he hkv
        cases i with
        | zero =>
          injection he with he
          injection hkv with hkv
          subst he
          subst hkv
          exact hlc
        | succ n =>
          cases n with
          | zero =>
            injection he with he
            injection hkv with hkv
            subst he
            subst hkv
            exact hle
          | succ k =>
            simp [pageW5root] at he)
    exact hb
  exact c6_cursor_traversal exIdxW5 1 exKvsW5 hsub (by decide) (by decide)
    ([97], [2]) [([98], [1]), ([99], [4]), ([100], [2]), ([101], [5])] (by decide) 3 (by omega)
